import Mathlib

/-!
Shallow embedding of the tree-analysis core of the fairmandering repository:
`get_node_info` and `prune_sample_space` from `src/gerrypy/analyze/subsample.py`
and `query_tree` from `src/gerrypy/analyze/tree.py`.

Modelling conventions.  Python dictionaries are association lists whose newest
binding comes first; Python exceptions (`KeyError`, `AssertionError`,
`IndexError`, `ValueError`) and nonterminating recursion are the non-`ok`
outcomes of the `PyRes` result type; every recursive traversal takes an
explicit fuel argument whose exhaustion models a run that does not terminate.
The `random.shuffle` of the pruning size groups is modelled by passing the
shuffled groups as an explicit argument; theorems quantify over all
permutations of the groups the code builds.
-/

/-- Outcome of a modelled Python computation: a normal return, one of the
exceptions the modelled code can raise, or fuel exhaustion (a nonterminating
run). -/
inductive PyRes (α : Type) where
  | ok : α → PyRes α
  | keyError : PyRes α
  | assertError : PyRes α
  | indexError : PyRes α
  | valueError : PyRes α
  | diverge : PyRes α
deriving DecidableEq

/-- Sequencing of modelled Python computations: errors and divergence stop the
run. -/
def PyRes.bind {α β : Type} : PyRes α → (α → PyRes β) → PyRes β
  | .ok a, f => f a
  | .keyError, _ => .keyError
  | .assertError, _ => .assertError
  | .indexError, _ => .indexError
  | .valueError, _ => .valueError
  | .diverge, _ => .diverge

@[simp]
theorem PyRes.bind_ok {α β : Type} (a : α) (f : α → PyRes β) :
    PyRes.bind (PyRes.ok a) f = f a := rfl

@[simp]
theorem PyRes.bind_keyError {α β : Type} (f : α → PyRes β) :
    PyRes.bind PyRes.keyError f = PyRes.keyError := rfl

@[simp]
theorem PyRes.bind_diverge {α β : Type} (f : α → PyRes β) :
    PyRes.bind PyRes.diverge f = PyRes.diverge := rfl

/-- Python dict with `Nat` keys, as an association list; the newest binding
comes first. -/
abbrev Dict (α : Type) := List (Nat × α)

/-- Dict lookup: the value of the newest binding of the key, if any. -/
def dlookup {α : Type} (m : Dict α) (k : Nat) : Option α :=
  (m.find? (fun p => p.1 == k)).map (fun p => p.2)

/-- Dict update: add a binding that shadows any older one. -/
def dset {α : Type} (m : Dict α) (k : Nat) (v : α) : Dict α := (k, v) :: m

@[simp]
theorem dlookup_nil {α : Type} (k : Nat) : dlookup ([] : Dict α) k = none := rfl

theorem dlookup_dset {α : Type} (m : Dict α) (k k' : Nat) (v : α) :
    dlookup (dset m k v) k' = if k' = k then some v else dlookup m k' := by
  simp only [dlookup, dset, List.find?]
  by_cases h : k = k'
  · subst h; simp
  · have : (k == k') = false := by simp [h]
    simp [this, Ne.symm h, h]

/-- A node of the plan tree, with the fields the analysed code reads:
`id`, `n_districts` (the region size), `is_root`, and `children_ids`
(the list of partition options, each a list of child ids). -/
structure Node where
  id : Nat
  n_districts : Nat
  is_root : Bool
  children_ids : List (List Nat)
deriving DecidableEq

/-- Model of the dict comprehension `{node.id: node for node in nodes}`:
later nodes overwrite earlier ones with the same id. -/
def idToNode (nodes : List Node) : Dict Node :=
  nodes.foldl (fun m n => dset m n.id n) []

/-- Model of the root selection
`internal_nodes[0] if internal_nodes[0].is_root else [n for n in internal_nodes if n.is_root][0]`. -/
def findRoot (internal_nodes : List Node) : PyRes Node :=
  match internal_nodes with
  | [] => .indexError
  | n :: rest =>
    if n.is_root then .ok n
    else
      match (n :: rest).filter (fun m => m.is_root) with
      | [] => .indexError
      | r :: _ => .ok r

/-- The mutable state threaded through `recursive_compute`: the
`solution_count` and `parent_nodes` dictionaries of `get_node_info`. -/
structure CState where
  solution_count : Dict Nat
  parent_nodes : Dict Nat
deriving DecidableEq

/-- Inner loop `for child_id in sample` of `recursive_compute`: look the child
up (a missing child raises `KeyError`), record its parent, recurse, and
multiply the option's plan count. -/
def rcChildren (env : Dict Node) (curId : Nat)
    (recur : Node → CState → PyRes (Nat × CState)) :
    List Nat → Nat → CState → PyRes (Nat × CState)
  | [], acc, st => .ok (acc, st)
  | c :: rest, acc, st =>
    match dlookup env c with
    | none => .keyError
    | some cnode =>
      PyRes.bind (recur cnode ⟨st.solution_count, dset st.parent_nodes cnode.id curId⟩)
        (fun r => rcChildren env curId recur rest (acc * r.1) r.2)

/-- Middle loop `for sample in current_node.children_ids` of
`recursive_compute`: sum the option plan counts. -/
def rcOptions (env : Dict Node) (curId : Nat)
    (recur : Node → CState → PyRes (Nat × CState)) :
    List (List Nat) → Nat → CState → PyRes (Nat × CState)
  | [], acc, st => .ok (acc, st)
  | opt :: rest, acc, st =>
    PyRes.bind (rcChildren env curId recur opt 1 st)
      (fun r => rcOptions env curId recur rest (acc + r.1) r.2)

/-- Fuel-indexed model of `recursive_compute` in `get_node_info`
(src/gerrypy/analyze/subsample.py): a node with no options counts 1 and is
not recorded; an internal node records the sum over its options of the
product over the option's children of the child's count. -/
def recursive_compute (env : Dict Node) : Nat → Node → CState → PyRes (Nat × CState)
  | 0, _, _ => .diverge
  | fuel + 1, cur, st =>
    if cur.children_ids = [] then .ok (1, st)
    else
      PyRes.bind (rcOptions env cur.id (recursive_compute env fuel) cur.children_ids 0 st)
        (fun r => .ok (r.1, ⟨dset r.2.solution_count cur.id r.1, r.2.parent_nodes⟩))

/-- Model of `get_node_info(leaf_nodes, interior_nodes)`: find the root among
the interior nodes, run `recursive_compute` from it, and return the
`solution_count` and `parent_nodes` dictionaries. -/
def get_node_info (leaf_nodes interior_nodes : List Node) (fuel : Nat) :
    PyRes (Dict Nat × Dict Nat) :=
  PyRes.bind (findRoot interior_nodes) (fun root =>
    PyRes.bind
      (recursive_compute (idToNode (leaf_nodes ++ interior_nodes)) fuel root ⟨[], []⟩)
      (fun r => .ok (r.2.solution_count, r.2.parent_nodes)))

/-- Model of the dict comprehension
`{node.id: ix for ix, node in enumerate(leaf_nodes)}`: the index of the last
leaf node carrying the id, if any. -/
def lastIdxOf : List Node → Nat → Option Nat
  | [], _ => none
  | n :: rest, i =>
    match lastIdxOf rest i with
    | some j => some (j + 1)
    | none => if n.id = i then some 0 else none

/-- Model of `query_vals[id_to_ix[current_node.id]]`: a `KeyError` when the id
is not a leaf index, an `IndexError` when the objective vector is too short. -/
def leafLookup (leaf_nodes : List Node) (query_vals : List Int) (i : Nat) : PyRes Int :=
  match lastIdxOf leaf_nodes i with
  | none => .keyError
  | some ix =>
    match query_vals.get? ix with
    | none => .indexError
    | some v => .ok v

/-- Fold of Python `max(..., key=lambda x: x[0])`: a later element replaces the
accumulator only when its key is strictly greater, so the first element of
maximal key wins. -/
def pyMaxFold (acc : Int × List Nat) : List (Int × List Nat) → Int × List Nat
  | [] => acc
  | x :: rest => pyMaxFold (if x.1 > acc.1 then x else acc) rest

/-- Model of Python `max(node_opts, key=lambda x: x[0])` on the nonempty list
`h :: t`. -/
def pyMax (h : Int × List Nat) (t : List (Int × List Nat)) : Int × List Nat :=
  pyMaxFold h t

/-- Inner loop `for child_id in sample` of `recursive_query`: look the child
up, recurse, sum the values and concatenate the leaf lists. -/
def rqChildren (env : Dict Node) (recur : Node → PyRes (Int × List Nat)) :
    List Nat → Int → List Nat → PyRes (Int × List Nat)
  | [], accV, accL => .ok (accV, accL)
  | c :: rest, accV, accL =>
    match dlookup env c with
    | none => .keyError
    | some cnode =>
      PyRes.bind (recur cnode)
        (fun r => rqChildren env recur rest (accV + r.1) (accL ++ r.2))

/-- Middle loop `for sample in current_node.children_ids` of `recursive_query`:
collect one `(value, leaf list)` pair per partition option. -/
def rqOptions (env : Dict Node) (recur : Node → PyRes (Int × List Nat)) :
    List (List Nat) → List (Int × List Nat) → PyRes (List (Int × List Nat))
  | [], acc => .ok acc
  | opt :: rest, acc =>
    PyRes.bind (rqChildren env recur opt 0 [])
      (fun r => rqOptions env recur rest (acc ++ [r]))

/-- Fuel-indexed model of `recursive_query` in `query_tree`
(src/gerrypy/analyze/tree.py). -/
def recursive_query (env : Dict Node) (objLookup : Nat → PyRes Int) :
    Nat → Node → PyRes (Int × List Nat)
  | 0, _ => .diverge
  | fuel + 1, cur =>
    if cur.children_ids = [] then
      PyRes.bind (objLookup cur.id) (fun v => .ok (v, [cur.id]))
    else
      PyRes.bind (rqOptions env (recursive_query env objLookup fuel) cur.children_ids [])
        (fun opts =>
          match opts with
          | [] => .valueError
          | h :: t => .ok (pyMax h t))

/-- Model of `query_tree(leaf_nodes, internal_nodes, query_vals)`. -/
def query_tree (leaf_nodes internal_nodes : List Node) (query_vals : List Int)
    (fuel : Nat) : PyRes (Int × List Nat) :=
  PyRes.bind (findRoot internal_nodes) (fun root =>
    recursive_query (idToNode (leaf_nodes ++ internal_nodes))
      (leafLookup leaf_nodes query_vals) fuel root)

/-- Model of the closure `recompute_node_size` inside `prune_sample_space`:
the sum over the node's current partition options of the product over the
option's children of `solution_count.get(child_id, 1)`. -/
def recompute_node_size (solution_count : Dict Nat) (node : Node) : Nat :=
  (node.children_ids.map
    (fun opt => (opt.map (fun c => (dlookup solution_count c).getD 1)).prod)).sum

/-- Model of the ancestor-update loop `while parent_id is not None` of
`prune_sample_space`, with its own fuel for the walk up the parent map. -/
def propagate (env : Dict Node) (parent_nodes : Dict Nat) :
    Nat → Option Nat → Dict Nat → PyRes (Dict Nat)
  | _, none, sc => .ok sc
  | 0, some _, _ => .diverge
  | pfuel + 1, some pid, sc =>
    match dlookup env pid with
    | none => .keyError
    | some pnode =>
      propagate env parent_nodes pfuel (dlookup parent_nodes pid)
        (dset sc pid (recompute_node_size sc pnode))

/-- Model of the inner loop `for node in node_list` of `prune_sample_space`:
process the group's nodes in order, stopping as soon as the root count meets
the target; a node with more than one option loses its last option and the
counts of the node and its ancestors are recomputed; otherwise the skinny-node
counter is incremented.  Returns the updated node dictionary, the updated
counts, and the skinny-node counter. -/
def prunePass (parent_nodes : Dict Nat) (pfuel : Nat) (rootId : Nat) (target : Int) :
    List Nat → Dict Node → Dict Nat → Nat → PyRes (Dict Node × Dict Nat × Nat)
  | [], env, sc, k => .ok (env, sc, k)
  | nid :: rest, env, sc, k =>
    match dlookup sc rootId with
    | none => .keyError
    | some rc =>
      if (rc : Int) ≤ target then .ok (env, sc, k)
      else
        match dlookup env nid with
        | none => .keyError
        | some node =>
          if 1 < node.children_ids.length then
            PyRes.bind
              (propagate (dset env nid ⟨node.id, node.n_districts, node.is_root,
                  node.children_ids.dropLast⟩) parent_nodes pfuel
                (dlookup parent_nodes nid)
                (dset sc nid (recompute_node_size sc ⟨node.id, node.n_districts,
                  node.is_root, node.children_ids.dropLast⟩)))
              (fun sc' => prunePass parent_nodes pfuel rootId target rest
                (dset env nid ⟨node.id, node.n_districts, node.is_root,
                  node.children_ids.dropLast⟩) sc' k)
          else prunePass parent_nodes pfuel rootId target rest env sc (k + 1)

/-- Model of the outer loop `while solution_count[root.id] > target_size` of
`prune_sample_space`: run a pass over the current size group; when every node
of the group was skinny, advance to the next region size.  The outer fuel
counts loop iterations. -/
def pruneLoop (parent_nodes : Dict Nat) (pfuel : Nat) (rootId : Nat) (target : Int)
    (groups : Nat → List Nat) :
    Nat → Nat → Dict Node → Dict Nat → PyRes (Dict Node × Dict Nat)
  | 0, _, _, _ => .diverge
  | fuel + 1, size, env, sc =>
    match dlookup sc rootId with
    | none => .keyError
    | some rc =>
      if target < (rc : Int) then
        PyRes.bind (prunePass parent_nodes pfuel rootId target (groups size) env sc 0)
          (fun r =>
            pruneLoop parent_nodes pfuel rootId target groups fuel
              (if r.2.2 = (groups size).length then size + 1 else size) r.1 r.2.1)
      else .ok (env, sc)

/-- The size groups `nodes_by_size` built by `prune_sample_space` before
shuffling: ids of the internal nodes with the given `int(n_districts)`, in
insertion order. -/
def groupsOf (internal_nodes : List Node) (s : Nat) : List Nat :=
  (internal_nodes.filter (fun n => n.n_districts == s)).map (fun n => n.id)

/-- Model of `prune_sample_space(internal_nodes, solution_count, parent_nodes,
target_size)`.  The `random.shuffle` of each size group is modelled by the
explicit `groups` argument; theorems quantify over the permutations of
`groupsOf internal_nodes`. -/
def prune_sample_space (internal_nodes : List Node)
    (solution_count parent_nodes : Dict Nat) (target_size : Int)
    (groups : Nat → List Nat) (pfuel fuel : Nat) :
    PyRes (Dict Node × Dict Nat) :=
  match internal_nodes with
  | [] => .indexError
  | root :: _ =>
    if !root.is_root then .assertError
    else if target_size ≤ 0 then .assertError
    else pruneLoop parent_nodes pfuel root.id target_size groups fuel 2
      (idToNode internal_nodes) solution_count

/-- Cartesian combination of per-child plan lists: children in list order,
earlier children varying slowest, each combined plan the concatenation of its
children's plans. -/
def crossPlans : List (List (List Nat)) → List (List Nat)
  | [] => [[]]
  | l :: rest => l.flatMap (fun p => (crossPlans rest).map (fun q => p ++ q))

/-- Collect the per-child plan lists of one option. -/
def enumChildren (recur : Nat → Option (List (List Nat))) :
    List Nat → Option (List (List (List Nat)))
  | [] => some []
  | c :: rest =>
    match recur c, enumChildren recur rest with
    | some ps, some rest' => some (ps :: rest')
    | _, _ => none

/-- Concatenate the plan lists of the options, options in list order. -/
def enumOptions (recur : Nat → Option (List (List Nat))) :
    List (List Nat) → Option (List (List Nat))
  | [] => some []
  | opt :: rest =>
    match enumChildren recur opt, enumOptions recur rest with
    | some ls, some rest' => some (crossPlans ls ++ rest')
    | _, _ => none

/-- Brute-force enumeration of every complete plan below a node, each plan the
list of its leaf ids; options in list order, children combined in lex order.
This is the ground truth the spec measures `recursive_compute` and
`recursive_query` against; `none` means a missing child or insufficient
fuel. -/
def enumPlans (env : Dict Node) : Nat → Nat → Option (List (List Nat))
  | 0, _ => none
  | fuel + 1, nid =>
    match dlookup env nid with
    | none => none
    | some n =>
      if n.children_ids = [] then some [[nid]]
      else enumOptions (enumPlans env fuel) n.children_ids

/-- Concatenate the reach lists of the children of one option or of all
options. -/
def reachCat (recur : Nat → Option (List Nat)) : List Nat → Option (List Nat)
  | [] => some []
  | c :: rest =>
    match recur c, reachCat recur rest with
    | some l, some l' => some (l ++ l')
    | _, _ => none

/-- Reach lists of a list of options. -/
def reachOptions (recur : Nat → Option (List Nat)) : List (List Nat) → Option (List Nat)
  | [] => some []
  | opt :: rest =>
    match reachCat recur opt, reachOptions recur rest with
    | some l, some l' => some (l ++ l')
    | _, _ => none

/-- Preorder list of every node-id occurrence in the subtree below a node:
the node itself, then the subtrees of every child of every option.  `none`
means a missing child or insufficient fuel.  The tree invariants of the data
model are stated through this list: it exists, and it has no duplicates. -/
def reachIds (env : Dict Node) : Nat → Nat → Option (List Nat)
  | 0, _ => none
  | fuel + 1, nid =>
    match dlookup env nid with
    | none => none
    | some n =>
      if n.children_ids = [] then some [nid]
      else
        match reachOptions (reachIds env fuel) n.children_ids with
        | some l => some (nid :: l)
        | none => none

/-- Preorder occurrence list over the internal-node dictionary used by
`prune_sample_space`: an id absent from the dictionary is a leaf of the prune
tree. -/
def reachInt (env : Dict Node) : Nat → Nat → Option (List Nat)
  | 0, _ => none
  | fuel + 1, nid =>
    match dlookup env nid with
    | none => some [nid]
    | some n =>
      if n.children_ids = [] then some [nid]
      else
        match reachOptions (reachInt env fuel) n.children_ids with
        | some l => some (nid :: l)
        | none => none

/-- Objective value of a plan: the sum of the leaf objective over its leaf
ids. -/
def planVal (obj : Nat → Int) (p : List Nat) : Int := (p.map obj).sum

/-- Extract the `solution_count` dictionary of a `get_node_info` result. -/
def scOf : PyRes (Dict Nat × Dict Nat) → Dict Nat
  | .ok r => r.1
  | _ => []

/-- Extract the `parent_nodes` dictionary of a `get_node_info` result. -/
def pnOf : PyRes (Dict Nat × Dict Nat) → Dict Nat
  | .ok r => r.2
  | _ => []

/-- Extract the node dictionary of a `prune_sample_space` result. -/
def prEnv : PyRes (Dict Node × Dict Nat) → Dict Node
  | .ok r => r.1
  | _ => []

/-- Extract the counts dictionary of a `prune_sample_space` result. -/
def prCnt : PyRes (Dict Node × Dict Nat) → Dict Nat
  | .ok r => r.2
  | _ => []

/-- One list is a prefix of another. -/
def prefixOf {α : Type} (l1 l2 : List α) : Prop := ∃ t, l1 ++ t = l2

/-- A result is a normal return. -/
def PyRes.isOk {α : Type} : PyRes α → Bool
  | .ok _ => true
  | _ => false

/-- Extract the node dictionary of a `prunePass` result. -/
def ppEnv : PyRes (Dict Node × Dict Nat × Nat) → Dict Node
  | .ok r => r.1
  | _ => []

/-- Extract the counts dictionary of a `prunePass` result. -/
def ppCnt : PyRes (Dict Node × Dict Nat × Nat) → Dict Nat
  | .ok r => r.2.1
  | _ => []

/-- Leaves of the depth-2 scenario of the spec: three districts. -/
def specLeaves : List Node := [⟨3, 1, false, []⟩, ⟨4, 1, false, []⟩, ⟨5, 1, false, []⟩]

/-- Internal nodes of the depth-2 scenario of the spec: a root with two
options `[3,4]` and `[5]`. -/
def specInternal : List Node := [⟨0, 2, true, [[3, 4], [5]]⟩]

/-- Leaves of the three-option pruning scenario of the spec (claim C9). -/
def c9Leaves : List Node :=
  [⟨11, 1, false, []⟩, ⟨12, 1, false, []⟩, ⟨13, 1, false, []⟩, ⟨14, 1, false, []⟩,
   ⟨20, 1, false, []⟩, ⟨21, 1, false, []⟩, ⟨22, 1, false, []⟩, ⟨23, 1, false, []⟩,
   ⟨24, 1, false, []⟩, ⟨25, 1, false, []⟩, ⟨26, 1, false, []⟩, ⟨27, 1, false, []⟩,
   ⟨28, 1, false, []⟩, ⟨30, 1, false, []⟩, ⟨31, 1, false, []⟩]

/-- Internal nodes of the three-option pruning scenario: the root has three
options, each a single child subtree with plan counts 4, 9 and 2, so the root
count is 15.  The children carry `n_districts = 1` so that only the root's
size group is ever visited by the pruner, exactly as the scenario requires
(nothing below the root is pruned). -/
def c9Internal : List Node :=
  [⟨0, 3, true, [[1], [2], [3]]⟩,
   ⟨1, 1, false, [[11], [12], [13], [14]]⟩,
   ⟨2, 1, false, [[20], [21], [22], [23], [24], [25], [26], [27], [28]]⟩,
   ⟨3, 1, false, [[30], [31]]⟩]

/-- Plan counts of the three-option scenario, as computed by the code. -/
def c9sc : Dict Nat := scOf (get_node_info c9Leaves c9Internal 20)

/-- Parent map of the three-option scenario, as computed by the code. -/
def c9pn : Dict Nat := pnOf (get_node_info c9Leaves c9Internal 20)

/-- The pruning run of the three-option scenario with target 11. -/
def c9run : PyRes (Dict Node × Dict Nat) :=
  prune_sample_space c9Internal c9sc c9pn 11 (groupsOf c9Internal) 30 30

/-- First pass of that pruning run over the root's size group. -/
def c9pass : PyRes (Dict Node × Dict Nat × Nat) :=
  prunePass c9pn 30 0 11 (groupsOf c9Internal 3) (idToNode c9Internal) c9sc 0

/-- Claim C9 is false on the code: on a root with three options whose single
child subtrees count 4, 9 and 2 (root count 15), pruning to target 11 does
not stop after removing one option.  The first removal leaves root count
4 + 9 = 13, which still exceeds 11, so the loop removes the next option as
well: the returned tree has the root with a single option `[[1]]` and count 4,
not two options and count 13. -/
theorem C9_counterexample :
    (c9run.isOk = true ∧ dlookup (prCnt c9run) 0 = some 4) ∧
    ¬ (dlookup (prEnv c9run) 0 = some ⟨0, 3, true, [[1], [2]]⟩ ∧
       dlookup (prCnt c9run) 0 = some 13) := by decide

/-- Claim C9, amended: on that scenario the pruner removes the last option,
recomputes the root count as 4 + 9 = 13, finds it still above the target, and
removes the (new) last option too, returning the root with the single option
`[[1]]` and count 4.  The intermediate state after the first pass is exactly
one removal with count 13. -/
theorem C9_prune_two_options :
    (c9pass.isOk = true ∧
     dlookup (ppCnt c9pass) 0 = some 13 ∧
     dlookup (ppEnv c9pass) 0 = some ⟨0, 3, true, [[1], [2]]⟩) ∧
    c9run.isOk = true ∧
    dlookup (prEnv c9run) 0 = some ⟨0, 3, true, [[1]]⟩ ∧
    dlookup (prCnt c9run) 0 = some 4 := by decide

/-- Leaf of the collection refuting claim C3's "root at any position". -/
def c3Leaves : List Node := [⟨10, 1, false, []⟩]

/-- Internal nodes with exactly one root, placed at position 1. -/
def c3Internal : List Node := [⟨1, 2, false, [[10]]⟩, ⟨0, 2, true, [[1]]⟩]

/-- Claim C3 is false on the code as stated: the collection `c3Internal`
contains exactly one root, the target 5 is at least 1, and the count and
parent maps come from `get_node_info`, yet `prune_sample_space` does not
return the collection: it fails its `assert root.is_root`, because the root is
not the first element of the internal-node list. -/
theorem C3_counterexample :
    prune_sample_space c3Internal
      (scOf (get_node_info c3Leaves c3Internal 10))
      (pnOf (get_node_info c3Leaves c3Internal 10)) 5
      (groupsOf c3Internal) 10 10 = PyRes.assertError := by decide

/-- Leaves of the collection refuting claim C4's iteration bound. -/
def c4Leaves : List Node := [⟨7, 1, false, []⟩, ⟨8, 1, false, []⟩, ⟨9, 1, false, []⟩]

/-- Internal nodes: a root of region size 6 and one internal child of region
size 2, each with two options.  The claimed bound is
`Σ (options − 1) + number of groups = 2 + 2 = 4` outer iterations, but the
loop advances through every empty region size 3, 4, 5 one iteration at a
time, needing 6 iterations. -/
def c4Internal : List Node := [⟨0, 6, true, [[1], [9]]⟩, ⟨1, 2, false, [[7], [8]]⟩]

/-- Plan counts for the bound counterexample (root count 3). -/
def c4sc : Dict Nat := scOf (get_node_info c4Leaves c4Internal 20)

/-- Parent map for the bound counterexample. -/
def c4pn : Dict Nat := pnOf (get_node_info c4Leaves c4Internal 20)

/-- Claim C4's bound is false on the code: on `c4Internal` (a valid input:
exactly one root, first in the list, target 1 ≥ 1, every internal node of
region size ≥ 2) the claimed bound is 4 outer iterations, but with outer fuel
5 — enough for 4 iterations plus the final condition check — the loop still
diverges, while with fuel 7 (6 iterations) it returns normally; so the loop
performs 6 > 4 outer iterations. -/
theorem C4_counterexample :
    prune_sample_space c4Internal c4sc c4pn 1 (groupsOf c4Internal) 30 5 =
      PyRes.diverge ∧
    (prune_sample_space c4Internal c4sc c4pn 1 (groupsOf c4Internal) 30 7).isOk
      = true := by decide

/-- Leaf shared by two parents, for the C7 counterexample. -/
def c7Leaves : List Node := [⟨3, 1, false, []⟩]

/-- Internal nodes in which node 3 is a child of both node 1 and node 2. -/
def c7Internal : List Node :=
  [⟨0, 2, true, [[1], [2]]⟩, ⟨1, 1, false, [[3]]⟩, ⟨2, 1, false, [[3]]⟩]

/-- Claim C7 is false on the code: child 3 is encountered with a previously
recorded, different parent (first 1, then 2 — both recordings are present in
the returned parent map), yet `get_node_info` does not fail: it silently
overwrites the parent entry and returns normally. -/
theorem C7_counterexample :
    (get_node_info c7Leaves c7Internal 10).isOk = true ∧
    (3, 1) ∈ pnOf (get_node_info c7Leaves c7Internal 10) ∧
    (3, 2) ∈ pnOf (get_node_info c7Leaves c7Internal 10) := by decide

/-- Claim C8 is false on the code: on the depth-2 scenario tree the returned
count map has no entry for the leaf with id 3 (or any leaf), although the
computation succeeds; only internal nodes are recorded. -/
theorem C8_counterexample :
    (get_node_info specLeaves specInternal 10).isOk = true ∧
    dlookup (scOf (get_node_info specLeaves specInternal 10)) 3 = none := by decide

theorem dlookup_mem {α : Type} {m : Dict α} {k : Nat} {v : α}
    (h : dlookup m k = some v) : (k, v) ∈ m := by
  simp only [dlookup, Option.map_eq_some'] at h
  obtain ⟨p, hp, hv⟩ := h
  have hmem := List.mem_of_find?_eq_some hp
  have hk := List.find?_some hp
  simp only [beq_iff_eq] at hk
  obtain ⟨k', v'⟩ := p
  simp only at hk hv
  subst hk
  subst hv
  exact hmem

theorem idToNode_entry_id (nodes : List Node) :
    ∀ p ∈ idToNode nodes, (p.2 : Node).id = p.1 := by
  suffices h : ∀ m : Dict Node, (∀ p ∈ m, (p.2 : Node).id = p.1) →
      ∀ p ∈ nodes.foldl (fun m n => dset m n.id n) m, (p.2 : Node).id = p.1 by
    exact h [] (by simp)
  induction nodes with
  | nil => intro m hm; simpa [idToNode] using hm
  | cons n rest ih =>
    intro m hm
    simp only [List.foldl_cons]
    exact ih (dset m n.id n) (by
      intro p hp
      rcases List.mem_cons.mp hp with hp | hp
      · subst hp; simp
      · exact hm p hp)

theorem dlookup_idToNode_id {nodes : List Node} {i : Nat} {n : Node}
    (h : dlookup (idToNode nodes) i = some n) : n.id = i :=
  idToNode_entry_id nodes (i, n) (dlookup_mem h)

theorem reachCat_lift {r r' : Nat → Option (List Nat)}
    (h : ∀ c l, r c = some l → r' c = some l) :
    ∀ cs l, reachCat r cs = some l → reachCat r' cs = some l := by
  intro cs
  induction cs with
  | nil => intro l hl; simpa [reachCat] using hl
  | cons c rest ih =>
    intro l hl
    simp only [reachCat] at hl ⊢
    rcases hc : r c with _ | lc
    · simp [hc] at hl
    · rcases hr : reachCat r rest with _ | lr
      · simp [hc, hr] at hl
      · simp [hc, hr] at hl
        simp [h c lc hc, ih lr hr, hl]

theorem reachOptions_lift {r r' : Nat → Option (List Nat)}
    (h : ∀ c l, r c = some l → r' c = some l) :
    ∀ opts l, reachOptions r opts = some l → reachOptions r' opts = some l := by
  intro opts
  induction opts with
  | nil => intro l hl; simpa [reachOptions] using hl
  | cons opt rest ih =>
    intro l hl
    simp only [reachOptions] at hl ⊢
    rcases hc : reachCat r opt with _ | lc
    · simp [hc] at hl
    · rcases hr : reachOptions r rest with _ | lr
      · simp [hc, hr] at hl
      · simp [hc, hr] at hl
        simp [reachCat_lift h opt lc hc, ih lr hr, hl]

theorem reachIds_succ {env : Dict Node} :
    ∀ fuel nid l, reachIds env fuel nid = some l → reachIds env (fuel + 1) nid = some l := by
  intro fuel
  induction fuel with
  | zero => intro nid l h; simp [reachIds] at h
  | succ f ih =>
    intro nid l h
    simp only [reachIds] at h ⊢
    rcases he : dlookup env nid with _ | n
    · simp [he] at h
    · simp only [he] at h ⊢
      by_cases hc : n.children_ids = []
      · simpa [hc] using h
      · simp only [hc, if_neg hc] at h ⊢
        rcases hr : reachOptions (reachIds env f) n.children_ids with _ | l'
        · simp [hr] at h
        · simp [hr] at h
          have hro := reachOptions_lift ih n.children_ids l' hr
          simp only [reachIds] at hro
          rw [hro]
          simp [h]

theorem reachIds_mono {env : Dict Node} {fuel fuel' : Nat} (hle : fuel ≤ fuel') :
    ∀ nid l, reachIds env fuel nid = some l → reachIds env fuel' nid = some l := by
  induction hle with
  | refl => intro nid l h; exact h
  | step _ ih => intro nid l h; exact reachIds_succ _ _ _ (ih nid l h)

theorem reachInt_succ {env : Dict Node} :
    ∀ fuel nid l, reachInt env fuel nid = some l → reachInt env (fuel + 1) nid = some l := by
  intro fuel
  induction fuel with
  | zero => intro nid l h; simp [reachInt] at h
  | succ f ih =>
    intro nid l h
    simp only [reachInt] at h ⊢
    rcases he : dlookup env nid with _ | n
    · simpa [he] using h
    · simp only [he] at h ⊢
      by_cases hc : n.children_ids = []
      · simpa [hc] using h
      · simp only [hc, if_neg hc] at h ⊢
        rcases hr : reachOptions (reachInt env f) n.children_ids with _ | l'
        · simp [hr] at h
        · simp [hr] at h
          have hro := reachOptions_lift ih n.children_ids l' hr
          simp only [reachInt] at hro
          rw [hro]
          simp [h]

theorem reachInt_mono {env : Dict Node} {fuel fuel' : Nat} (hle : fuel ≤ fuel') :
    ∀ nid l, reachInt env fuel nid = some l → reachInt env fuel' nid = some l := by
  induction hle with
  | refl => intro nid l h; exact h
  | step _ ih => intro nid l h; exact reachInt_succ _ _ _ (ih nid l h)

theorem enumChildren_lift {r r' : Nat → Option (List (List Nat))}
    (h : ∀ c l, r c = some l → r' c = some l) :
    ∀ cs l, enumChildren r cs = some l → enumChildren r' cs = some l := by
  intro cs
  induction cs with
  | nil => intro l hl; simpa [enumChildren] using hl
  | cons c rest ih =>
    intro l hl
    simp only [enumChildren] at hl ⊢
    rcases hc : r c with _ | lc
    · simp [hc] at hl
    · rcases hr : enumChildren r rest with _ | lr
      · simp [hc, hr] at hl
      · simp [hc, hr] at hl
        simp [h c lc hc, ih lr hr, hl]

theorem enumOptions_lift {r r' : Nat → Option (List (List Nat))}
    (h : ∀ c l, r c = some l → r' c = some l) :
    ∀ opts l, enumOptions r opts = some l → enumOptions r' opts = some l := by
  intro opts
  induction opts with
  | nil => intro l hl; simpa [enumOptions] using hl
  | cons opt rest ih =>
    intro l hl
    simp only [enumOptions] at hl ⊢
    rcases hc : enumChildren r opt with _ | lc
    · simp [hc] at hl
    · rcases hr : enumOptions r rest with _ | lr
      · simp [hc, hr] at hl
      · simp [hc, hr] at hl
        simp [enumChildren_lift h opt lc hc, ih lr hr, hl]

theorem enumPlans_succ {env : Dict Node} :
    ∀ fuel nid l, enumPlans env fuel nid = some l → enumPlans env (fuel + 1) nid = some l := by
  intro fuel
  induction fuel with
  | zero => intro nid l h; simp [enumPlans] at h
  | succ f ih =>
    intro nid l h
    simp only [enumPlans] at h ⊢
    rcases he : dlookup env nid with _ | n
    · simp [he] at h
    · simp only [he] at h ⊢
      by_cases hc : n.children_ids = []
      · simpa [hc] using h
      · simp only [hc, if_neg hc] at h ⊢
        exact enumOptions_lift ih n.children_ids l h

theorem enumPlans_mono {env : Dict Node} {fuel fuel' : Nat} (hle : fuel ≤ fuel') :
    ∀ nid l, enumPlans env fuel nid = some l → enumPlans env fuel' nid = some l := by
  induction hle with
  | refl => intro nid l h; exact h
  | step _ ih => intro nid l h; exact enumPlans_succ _ _ _ (ih nid l h)

theorem crossPlans_length :
    ∀ ls : List (List (List Nat)), (crossPlans ls).length = (ls.map List.length).prod := by
  intro ls
  induction ls with
  | nil => simp [crossPlans]
  | cons l rest ih =>
    simp only [crossPlans, List.map_cons, List.prod_cons]
    induction l with
    | nil => simp
    | cons p ps ihp =>
      simp only [List.flatMap_cons, List.length_append, List.length_map, List.length_cons, ihp]
      rw [ih, Nat.succ_mul]
      omega

theorem enumPlans_lookup {env : Dict Node} {f c : Nat} {ps : List (List Nat)}
    (h : enumPlans env f c = some ps) : ∃ cn, dlookup env c = some cn := by
  cases f with
  | zero => simp [enumPlans] at h
  | succ f =>
    simp only [enumPlans] at h
    rcases he : dlookup env c with _ | n
    · simp [he] at h
    · exact ⟨n, rfl⟩

theorem rcChildren_enum {env : Dict Node} {f curId : Nat}
    (IH : ∀ c cn st ps, dlookup env c = some cn → enumPlans env f c = some ps →
      ∃ st', recursive_compute env f cn st = .ok (ps.length, st')) :
    ∀ cs acc st ls, enumChildren (enumPlans env f) cs = some ls →
      ∃ st', rcChildren env curId (recursive_compute env f) cs acc st =
        .ok (acc * (ls.map List.length).prod, st') := by
  intro cs
  induction cs with
  | nil =>
    intro acc st ls h
    simp only [enumChildren, Option.some_inj] at h
    subst h
    exact ⟨st, by simp [rcChildren]⟩
  | cons c rest ih =>
    intro acc st ls h
    simp only [enumChildren] at h
    rcases hc : enumPlans env f c with _ | psc
    · simp [hc] at h
    · rcases hr : enumChildren (enumPlans env f) rest with _ | ls'
      · simp [hc, hr] at h
      · simp only [hc, hr, Option.some_inj] at h
        subst h
        obtain ⟨cn, hcn⟩ := enumPlans_lookup hc
        obtain ⟨st1, hst1⟩ :=
          IH c cn ⟨st.solution_count, dset st.parent_nodes cn.id curId⟩ psc hcn hc
        obtain ⟨st2, hst2⟩ := ih (acc * psc.length) st1 ls' hr
        refine ⟨st2, ?_⟩
        simp only [rcChildren, hcn, hst1, PyRes.bind_ok]
        rw [hst2]
        simp [List.prod_cons, Nat.mul_assoc]

theorem rcOptions_enum {env : Dict Node} {f curId : Nat}
    (IH : ∀ c cn st ps, dlookup env c = some cn → enumPlans env f c = some ps →
      ∃ st', recursive_compute env f cn st = .ok (ps.length, st')) :
    ∀ opts acc st ps, enumOptions (enumPlans env f) opts = some ps →
      ∃ st', rcOptions env curId (recursive_compute env f) opts acc st =
        .ok (acc + ps.length, st') := by
  intro opts
  induction opts with
  | nil =>
    intro acc st ps h
    simp only [enumOptions, Option.some_inj] at h
    subst h
    exact ⟨st, by simp [rcOptions]⟩
  | cons opt rest ih =>
    intro acc st ps h
    simp only [enumOptions] at h
    rcases hc : enumChildren (enumPlans env f) opt with _ | ls
    · simp [hc] at h
    · rcases hr : enumOptions (enumPlans env f) rest with _ | rest'
      · simp [hc, hr] at h
      · simp only [hc, hr, Option.some_inj] at h
        subst h
        obtain ⟨st1, hst1⟩ := @rcChildren_enum env f curId IH opt 1 st ls hc
        obtain ⟨st2, hst2⟩ := ih (acc + (crossPlans ls).length) st1 rest' hr
        refine ⟨st2, ?_⟩
        simp only [rcOptions]
        rw [show (1 : Nat) * (ls.map List.length).prod = (crossPlans ls).length by
          rw [crossPlans_length]; exact Nat.one_mul _] at hst1
        simp only [hst1, PyRes.bind_ok]
        rw [hst2]
        simp [List.length_append, Nat.add_assoc]

theorem recursive_compute_enum {env : Dict Node} :
    ∀ f nid cn st ps, dlookup env nid = some cn → enumPlans env f nid = some ps →
      ∃ st', recursive_compute env f cn st = .ok (ps.length, st') := by
  intro f
  induction f with
  | zero => intro nid cn st ps h he; simp [enumPlans] at he
  | succ f ih =>
    intro nid cn st ps h he
    simp only [enumPlans, h] at he
    by_cases hleaf : cn.children_ids = []
    · rw [if_pos hleaf, Option.some_inj] at he
      subst he
      exact ⟨st, by simp [recursive_compute, hleaf]⟩
    · rw [if_neg hleaf] at he
      obtain ⟨st', hst'⟩ :=
        @rcOptions_enum env f cn.id
          (fun c ccn st2 ps2 hc hec => ih c ccn st2 ps2 hc hec)
          cn.children_ids 0 st ps he
      refine ⟨⟨dset st'.solution_count cn.id ps.length, st'.parent_nodes⟩, ?_⟩
      simp only [recursive_compute, if_neg hleaf]
      simp [hst']

theorem reachCat_enum {env : Dict Node} {f : Nat}
    (IH : ∀ c l, reachIds env f c = some l → ∃ ps, enumPlans env f c = some ps) :
    ∀ cs l, reachCat (reachIds env f) cs = some l →
      ∃ ls, enumChildren (enumPlans env f) cs = some ls := by
  intro cs
  induction cs with
  | nil => intro l _; exact ⟨[], rfl⟩
  | cons c rest ih =>
    intro l h
    simp only [reachCat] at h
    rcases hc : reachIds env f c with _ | lc
    · simp [hc] at h
    · rcases hr : reachCat (reachIds env f) rest with _ | lr
      · simp [hc, hr] at h
      · obtain ⟨psc, hpsc⟩ := IH c lc hc
        obtain ⟨ls', hls'⟩ := ih lr hr
        exact ⟨psc :: ls', by simp [enumChildren, hpsc, hls']⟩

theorem reachOptions_enum {env : Dict Node} {f : Nat}
    (IH : ∀ c l, reachIds env f c = some l → ∃ ps, enumPlans env f c = some ps) :
    ∀ opts l, reachOptions (reachIds env f) opts = some l →
      ∃ ps, enumOptions (enumPlans env f) opts = some ps := by
  intro opts
  induction opts with
  | nil => intro l _; exact ⟨[], rfl⟩
  | cons opt rest ih =>
    intro l h
    simp only [reachOptions] at h
    rcases hc : reachCat (reachIds env f) opt with _ | lc
    · simp [hc] at h
    · rcases hr : reachOptions (reachIds env f) rest with _ | lr
      · simp [hc, hr] at h
      · obtain ⟨ls, hls⟩ := reachCat_enum IH opt lc hc
        obtain ⟨rest', hrest'⟩ := ih lr hr
        exact ⟨crossPlans ls ++ rest', by simp [enumOptions, hls, hrest']⟩

theorem enumPlans_of_reach {env : Dict Node} :
    ∀ f nid l, reachIds env f nid = some l → ∃ ps, enumPlans env f nid = some ps := by
  intro f
  induction f with
  | zero => intro nid l h; simp [reachIds] at h
  | succ f ih =>
    intro nid l h
    simp only [reachIds] at h
    rcases he : dlookup env nid with _ | n
    · simp [he] at h
    · simp only [he] at h
      by_cases hleaf : n.children_ids = []
      · exact ⟨[[nid]], by simp [enumPlans, he, hleaf]⟩
      · rw [if_neg hleaf] at h
        rcases hr : reachOptions (reachIds env f) n.children_ids with _ | l'
        · rw [hr] at h; simp at h
        · obtain ⟨ps, hps⟩ := reachOptions_enum ih n.children_ids l' hr
          refine ⟨ps, ?_⟩
          simp only [enumPlans, he, if_neg hleaf]
          exact hps

/-- The id resolves to a node with at least one partition option. -/
def isInternalAt (env : Dict Node) (id : Nat) : Prop :=
  ∃ n, dlookup env id = some n ∧ n.children_ids ≠ []

/-- The id `c` appears among the children of some option of the node at `q`. -/
def childOfAt (env : Dict Node) (q c : Nat) : Prop :=
  ∃ nq, dlookup env q = some nq ∧ ∃ opt ∈ nq.children_ids, c ∈ opt

/-- The value `k` is the number of complete plans below the node at `id`. -/
def countIs (env : Dict Node) (id k : Nat) : Prop :=
  ∃ f ps, enumPlans env f id = some ps ∧ k = ps.length

/-- Frame property of a `recursive_compute` step relative to the occurrence
set `S`: every `solution_count` entry is unchanged or a correct count of a
node of `S`, and every `parent_nodes` entry is unchanged or points to a node
of `S` having the key as an option child. -/
def ScPn (env : Dict Node) (S : List Nat) (st st' : CState) : Prop :=
  (∀ id, dlookup st'.solution_count id = dlookup st.solution_count id ∨
     (id ∈ S ∧ isInternalAt env id ∧
      ∃ k, dlookup st'.solution_count id = some k ∧ countIs env id k)) ∧
  (∀ id, dlookup st'.parent_nodes id = dlookup st.parent_nodes id ∨
     (∃ q, q ∈ S ∧ childOfAt env q id ∧ dlookup st'.parent_nodes id = some q))

/-- Every internal node of `S` has a correct `solution_count` entry. -/
def ScPos (env : Dict Node) (S : List Nat) (st' : CState) : Prop :=
  ∀ id ∈ S, isInternalAt env id →
    ∃ k, dlookup st'.solution_count id = some k ∧ countIs env id k

/-- Every option child of every node of `S` has a `parent_nodes` entry
pointing to a node of `S` having it as an option child. -/
def PnPos (env : Dict Node) (S : List Nat) (st' : CState) : Prop :=
  ∀ q ∈ S, ∀ nq, dlookup env q = some nq → ∀ opt ∈ nq.children_ids, ∀ c ∈ opt,
    ∃ q', q' ∈ S ∧ childOfAt env q' c ∧ dlookup st'.parent_nodes c = some q'

theorem ScPn_mono {env : Dict Node} {S S' : List Nat} {st st' : CState}
    (hsub : ∀ x ∈ S, x ∈ S') (h : ScPn env S st st') : ScPn env S' st st' := by
  obtain ⟨h1, h2⟩ := h
  constructor
  · intro id
    rcases h1 id with h | ⟨hm, hi, hk⟩
    · exact Or.inl h
    · exact Or.inr ⟨hsub id hm, hi, hk⟩
  · intro id
    rcases h2 id with h | ⟨q, hq, hc, hl⟩
    · exact Or.inl h
    · exact Or.inr ⟨q, hsub q hq, hc, hl⟩

theorem ScPn_trans {env : Dict Node} {S : List Nat} {st st' st'' : CState}
    (h1 : ScPn env S st st') (h2 : ScPn env S st' st'') : ScPn env S st st'' := by
  obtain ⟨ha, hb⟩ := h1
  obtain ⟨hc, hd⟩ := h2
  constructor
  · intro id
    rcases hc id with h | h
    · rw [h]; exact ha id
    · exact Or.inr h
  · intro id
    rcases hd id with h | h
    · rw [h]; exact hb id
    · exact Or.inr h

theorem ScPn_refl {env : Dict Node} {S : List Nat} {st : CState} : ScPn env S st st :=
  ⟨fun _ => Or.inl rfl, fun _ => Or.inl rfl⟩

theorem ScPos_stable {env : Dict Node} {S L : List Nat} {st' st'' : CState}
    (hpos : ScPos env L st') (hstep : ScPn env S st' st'') : ScPos env L st'' := by
  intro id hid hint
  obtain ⟨k, hk, hc⟩ := hpos id hid hint
  rcases hstep.1 id with h | ⟨_, _, k', hk', hc'⟩
  · exact ⟨k, h.trans hk, hc⟩
  · exact ⟨k', hk', hc'⟩

theorem PnPos_stable {env : Dict Node} {S L : List Nat} {st' st'' : CState}
    (hsub : ∀ x ∈ L, x ∈ S)
    (hpos : PnPos env L st') (hstep : ScPn env S st' st'') :
    ∀ q ∈ L, ∀ nq, dlookup env q = some nq → ∀ opt ∈ nq.children_ids, ∀ c ∈ opt,
      ∃ q', q' ∈ S ∧ childOfAt env q' c ∧ dlookup st''.parent_nodes c = some q' := by
  intro q hq nq hnq opt hopt c hc
  obtain ⟨q', hq', hco, hl⟩ := hpos q hq nq hnq opt hopt c hc
  rcases hstep.2 c with h | ⟨q'', hq'', hco'', hl''⟩
  · exact ⟨q', hsub q' hq', hco, h.trans hl⟩
  · exact ⟨q'', hq'', hco'', hl''⟩

theorem PyRes.bind_eq_ok {α β : Type} {x : PyRes α} {f : α → PyRes β} {b : β}
    (h : PyRes.bind x f = .ok b) : ∃ a, x = .ok a ∧ f a = .ok b := by
  cases x with
  | ok a => exact ⟨a, rfl, h⟩
  | keyError => exact PyRes.noConfusion h
  | assertError => exact PyRes.noConfusion h
  | indexError => exact PyRes.noConfusion h
  | valueError => exact PyRes.noConfusion h
  | diverge => exact PyRes.noConfusion h

theorem reachIds_lookup {env : Dict Node} {f c : Nat} {l : List Nat}
    (h : reachIds env f c = some l) : ∃ cn, dlookup env c = some cn := by
  cases f with
  | zero => simp [reachIds] at h
  | succ f =>
    simp only [reachIds] at h
    rcases he : dlookup env c with _ | n
    · simp [he] at h
    · exact ⟨n, rfl⟩

theorem rcChildren_state {env : Dict Node} {f curId : Nat}
    (hwk : ∀ id n, dlookup env id = some n → n.id = id)
    (IH : ∀ nid cn st k st' R, dlookup env nid = some cn →
      reachIds env f nid = some R →
      recursive_compute env f cn st = .ok (k, st') →
      ScPn env R st st' ∧ ScPos env R st' ∧ PnPos env R st') :
    ∀ cs L acc st res st',
      (∀ c ∈ cs, childOfAt env curId c) →
      reachCat (reachIds env f) cs = some L →
      rcChildren env curId (recursive_compute env f) cs acc st = .ok (res, st') →
      ScPn env (curId :: L) st st' ∧ ScPos env L st' ∧
      (∀ c ∈ cs, ∃ q', q' ∈ curId :: L ∧ childOfAt env q' c ∧
        dlookup st'.parent_nodes c = some q') ∧
      (∀ q ∈ L, ∀ nq, dlookup env q = some nq → ∀ opt ∈ nq.children_ids, ∀ c ∈ opt,
        ∃ q', q' ∈ curId :: L ∧ childOfAt env q' c ∧
          dlookup st'.parent_nodes c = some q') := by
  intro cs
  induction cs with
  | nil =>
    intro L acc st res st' _ hreach hrun
    simp only [reachCat, Option.some_inj] at hreach
    subst hreach
    simp only [rcChildren, PyRes.ok.injEq, Prod.mk.injEq] at hrun
    obtain ⟨_, rfl⟩ := hrun
    exact ⟨ScPn_refl, by intro id h; simp at h, by simp, by simp⟩
  | cons c rest ih =>
    intro L acc st res st' hcs hreach hrun
    simp only [reachCat] at hreach
    rcases hc : reachIds env f c with _ | lc
    · simp [hc] at hreach
    · rcases hr : reachCat (reachIds env f) rest with _ | L'
      · simp [hc, hr] at hreach
      · simp only [hc, hr, Option.some_inj] at hreach
        subst hreach
        obtain ⟨cn, hcn⟩ := reachIds_lookup hc
        have hcid : cn.id = c := hwk c cn hcn
        simp only [rcChildren, hcn] at hrun
        obtain ⟨⟨k1, st3⟩, hrec, hrest⟩ := PyRes.bind_eq_ok hrun
        simp only at hrest
        have hchild0 : childOfAt env curId c := hcs c (by simp)
        have hstep1 : ScPn env (curId :: (lc ++ L'))
            st ⟨st.solution_count, dset st.parent_nodes cn.id curId⟩ := by
          constructor
          · intro id; exact Or.inl rfl
          · intro id
            show dlookup (dset st.parent_nodes cn.id curId) id = _ ∨ _
            rw [hcid, dlookup_dset]
            by_cases hid : id = c
            · subst hid
              exact Or.inr ⟨curId, by simp, hchild0, by simp⟩
            · simp [hid]
        obtain ⟨hpn3, hpos3, hppos3⟩ :=
          IH c cn ⟨st.solution_count, dset st.parent_nodes cn.id curId⟩ k1 st3 lc hcn hc hrec
        obtain ⟨hpnR, hposR, hdirR, haggR⟩ :=
          ih L' (acc * k1) st3 res st' (fun c' hc' => hcs c' (by simp [hc'])) hr hrest
        have hsub_lc : ∀ x ∈ lc, x ∈ curId :: (lc ++ L') := by
          intro x hx; simp [hx]
        have hsub_R : ∀ x ∈ curId :: L', x ∈ curId :: (lc ++ L') := by
          intro x hx
          rcases List.mem_cons.mp hx with hx | hx
          · simp [hx]
          · simp [hx]
        have hpn3' : ScPn env (curId :: (lc ++ L'))
            (⟨st.solution_count, dset st.parent_nodes cn.id curId⟩ : CState) st3 :=
          ScPn_mono hsub_lc hpn3
        have hpnR' : ScPn env (curId :: (lc ++ L')) st3 st' :=
          ScPn_mono hsub_R hpnR
        have h23 : ScPn env (curId :: (lc ++ L'))
            (⟨st.solution_count, dset st.parent_nodes cn.id curId⟩ : CState) st' :=
          ScPn_trans hpn3' hpnR'
        refine ⟨ScPn_trans hstep1 h23, ?_, ?_, ?_⟩
        · intro id hid hint
          rcases List.mem_append.mp hid with hid | hid
          · exact ScPos_stable hpos3 hpnR' id hid hint
          · exact hposR id hid hint
        · intro c' hc'
          rcases List.mem_cons.mp hc' with hc' | hc'
          · subst hc'
            rcases h23.2 c' with h | ⟨q, hq, hco, hl⟩
            · refine ⟨curId, by simp, hchild0, ?_⟩
              rw [h]
              show dlookup (dset st.parent_nodes cn.id curId) c' = _
              rw [hcid, dlookup_dset]
              simp
            · exact ⟨q, hq, hco, hl⟩
          · obtain ⟨q', hq', hco, hl⟩ := hdirR c' hc'
            exact ⟨q', hsub_R q' hq', hco, hl⟩
        · intro q hq nq hnq opt hopt c' hc'
          rcases List.mem_append.mp hq with hq | hq
          · obtain ⟨q', hq', hco, hl⟩ :=
              PnPos_stable hsub_lc hppos3 hpnR' q hq nq hnq opt hopt c' hc'
            exact ⟨q', hq', hco, hl⟩
          · obtain ⟨q', hq', hco, hl⟩ := haggR q hq nq hnq opt hopt c' hc'
            exact ⟨q', hsub_R q' hq', hco, hl⟩

theorem rcOptions_state {env : Dict Node} {f curId : Nat}
    (hwk : ∀ id n, dlookup env id = some n → n.id = id)
    (IH : ∀ nid cn st k st' R, dlookup env nid = some cn →
      reachIds env f nid = some R →
      recursive_compute env f cn st = .ok (k, st') →
      ScPn env R st st' ∧ ScPos env R st' ∧ PnPos env R st') :
    ∀ opts L acc st res st',
      (∀ opt ∈ opts, ∀ c ∈ opt, childOfAt env curId c) →
      reachOptions (reachIds env f) opts = some L →
      rcOptions env curId (recursive_compute env f) opts acc st = .ok (res, st') →
      ScPn env (curId :: L) st st' ∧ ScPos env L st' ∧
      (∀ opt ∈ opts, ∀ c ∈ opt, ∃ q', q' ∈ curId :: L ∧ childOfAt env q' c ∧
        dlookup st'.parent_nodes c = some q') ∧
      (∀ q ∈ L, ∀ nq, dlookup env q = some nq → ∀ opt ∈ nq.children_ids, ∀ c ∈ opt,
        ∃ q', q' ∈ curId :: L ∧ childOfAt env q' c ∧
          dlookup st'.parent_nodes c = some q') := by
  intro opts
  induction opts with
  | nil =>
    intro L acc st res st' _ hreach hrun
    simp only [reachOptions, Option.some_inj] at hreach
    subst hreach
    simp only [rcOptions, PyRes.ok.injEq, Prod.mk.injEq] at hrun
    obtain ⟨_, rfl⟩ := hrun
    exact ⟨ScPn_refl, by intro id h; simp at h, by simp, by simp⟩
  | cons opt rest ih =>
    intro L acc st res st' hcs hreach hrun
    simp only [reachOptions] at hreach
    rcases hc : reachCat (reachIds env f) opt with _ | lc
    · simp [hc] at hreach
    · rcases hr : reachOptions (reachIds env f) rest with _ | L'
      · simp [hc, hr] at hreach
      · simp only [hc, hr, Option.some_inj] at hreach
        subst hreach
        simp only [rcOptions] at hrun
        obtain ⟨⟨k1, st3⟩, hrec, hrest⟩ := PyRes.bind_eq_ok hrun
        simp only at hrest
        obtain ⟨hpn3, hpos3, hdir3, hagg3⟩ :=
          rcChildren_state hwk IH opt lc 1 st k1 st3
            (fun c hcin => hcs opt (by simp) c hcin) hc hrec
        obtain ⟨hpnR, hposR, hdirR, haggR⟩ :=
          ih L' (acc + k1) st3 res st'
            (fun o ho c hcin => hcs o (by simp [ho]) c hcin) hr hrest
        have hsub_lc : ∀ x ∈ curId :: lc, x ∈ curId :: (lc ++ L') := by
          intro x hx
          rcases List.mem_cons.mp hx with hx | hx
          · simp [hx]
          · simp [hx]
        have hsub_R : ∀ x ∈ curId :: L', x ∈ curId :: (lc ++ L') := by
          intro x hx
          rcases List.mem_cons.mp hx with hx | hx
          · simp [hx]
          · simp [hx]
        have hpn3' : ScPn env (curId :: (lc ++ L')) st st3 := ScPn_mono hsub_lc hpn3
        have hpnR' : ScPn env (curId :: (lc ++ L')) st3 st' := ScPn_mono hsub_R hpnR
        refine ⟨ScPn_trans hpn3' hpnR', ?_, ?_, ?_⟩
        · intro id hid hint
          rcases List.mem_append.mp hid with hid | hid
          · exact ScPos_stable hpos3 hpnR' id hid hint
          · exact hposR id hid hint
        · intro o ho c hcin
          rcases List.mem_cons.mp ho with ho | ho
          · subst ho
            obtain ⟨q', hq', hco, hl⟩ := hdir3 c hcin
            rcases hpnR'.2 c with h | ⟨q'', hq'', hco'', hl''⟩
            · exact ⟨q', hsub_lc q' hq', hco, h.trans hl⟩
            · exact ⟨q'', hq'', hco'', hl''⟩
          · obtain ⟨q', hq', hco, hl⟩ := hdirR o ho c hcin
            exact ⟨q', hsub_R q' hq', hco, hl⟩
        · intro q hq nq hnq o ho c hcin
          rcases List.mem_append.mp hq with hq | hq
          · obtain ⟨q', hq', hco, hl⟩ := hagg3 q hq nq hnq o ho c hcin
            rcases hpnR'.2 c with h | ⟨q'', hq'', hco'', hl''⟩
            · exact ⟨q', hsub_lc q' hq', hco, h.trans hl⟩
            · exact ⟨q'', hq'', hco'', hl''⟩
          · obtain ⟨q', hq', hco, hl⟩ := haggR q hq nq hnq o ho c hcin
            exact ⟨q', hsub_R q' hq', hco, hl⟩

theorem recursive_compute_state {env : Dict Node}
    (hwk : ∀ id n, dlookup env id = some n → n.id = id) :
    ∀ f nid cn st k st' R, dlookup env nid = some cn →
      reachIds env f nid = some R →
      recursive_compute env f cn st = .ok (k, st') →
      ScPn env R st st' ∧ ScPos env R st' ∧ PnPos env R st' := by
  intro f
  induction f with
  | zero => intro nid cn st k st' R h hre hrun; simp [reachIds] at hre
  | succ f ih =>
    intro nid cn st k st' R h hre hrun
    have hre0 := hre
    simp only [reachIds, h] at hre
    have hnid : cn.id = nid := hwk nid cn h
    by_cases hleaf : cn.children_ids = []
    · rw [if_pos hleaf, Option.some_inj] at hre
      subst hre
      simp only [recursive_compute, if_pos hleaf, PyRes.ok.injEq, Prod.mk.injEq] at hrun
      obtain ⟨_, rfl⟩ := hrun
      refine ⟨ScPn_refl, ?_, ?_⟩
      · intro id hid hint
        simp only [List.mem_singleton] at hid
        subst hid
        obtain ⟨n, hn, hne⟩ := hint
        rw [h, Option.some_inj] at hn
        exact absurd hleaf (hn ▸ hne)
      · intro q hq nq hnq o ho c hcin
        simp only [List.mem_singleton] at hq
        subst hq
        rw [h, Option.some_inj] at hnq
        rw [← hnq, hleaf] at ho
        simp at ho
    · rw [if_neg hleaf] at hre
      rcases hro : reachOptions (reachIds env f) cn.children_ids with _ | L
      · rw [hro] at hre; simp at hre
      · rw [hro, Option.some_inj] at hre
        subst hre
        simp only [recursive_compute, if_neg hleaf] at hrun
        obtain ⟨⟨tot, st2⟩, hopts, hfin⟩ := PyRes.bind_eq_ok hrun
        simp only [PyRes.ok.injEq, Prod.mk.injEq] at hfin
        obtain ⟨hk, hst'⟩ := hfin
        have hchild : ∀ opt ∈ cn.children_ids, ∀ c ∈ opt, childOfAt env cn.id c := by
          intro o ho c hcin
          exact ⟨cn, by rw [hnid]; exact h, o, ho, hcin⟩
        obtain ⟨hpn2, hpos2, hdir2, hagg2⟩ :=
          rcOptions_state hwk ih cn.children_ids L 0 st tot st2 hchild hro hopts
        rw [hnid] at hpn2 hdir2 hagg2
        have hcount : countIs env nid tot := by
          obtain ⟨ps, hps⟩ := enumPlans_of_reach (f + 1) nid (nid :: L) hre0
          obtain ⟨st'', hst''⟩ := recursive_compute_enum (f + 1) nid cn st ps h hps
          simp only [recursive_compute, if_neg hleaf, hopts, PyRes.bind_ok, PyRes.ok.injEq,
            Prod.mk.injEq] at hst''
          exact ⟨f + 1, ps, hps, hst''.1⟩
        have hint : isInternalAt env nid := ⟨cn, h, hleaf⟩
        have hfinstep : ScPn env (nid :: L) st2 st' := by
          constructor
          · intro id
            rw [← hst']
            show dlookup (dset st2.solution_count cn.id tot) id = _ ∨ _
            rw [hnid, dlookup_dset]
            by_cases hid : id = nid
            · subst hid
              exact Or.inr ⟨by simp, hint, tot, by simp, hcount⟩
            · simp [hid]
          · intro id
            rw [← hst']
            exact Or.inl rfl
        refine ⟨ScPn_trans hpn2 hfinstep, ?_, ?_⟩
        · intro id hid hintid
          rcases List.mem_cons.mp hid with hid | hid
          · subst hid
            refine ⟨tot, ?_, hcount⟩
            rw [← hst']
            show dlookup (dset st2.solution_count cn.id tot) id = some tot
            rw [hnid, dlookup_dset]
            simp
          · exact ScPos_stable hpos2 hfinstep id hid hintid
        · intro q hq nq hnq o ho c hcin
          have hpnsame : st'.parent_nodes = st2.parent_nodes := by rw [← hst']
          rcases List.mem_cons.mp hq with hq | hq
          · subst hq
            rw [h, Option.some_inj] at hnq
            subst hnq
            obtain ⟨q', hq', hco, hl⟩ := hdir2 o ho c hcin
            exact ⟨q', hq', hco, by rw [hpnsame]; exact hl⟩
          · obtain ⟨q', hq', hco, hl⟩ := hagg2 q hq nq hnq o ho c hcin
            exact ⟨q', hq', hco, by rw [hpnsame]; exact hl⟩

/-- Number of times `c` occurs as an option child of the node at `q` (0 when
`q` does not resolve). -/
def childCnt (env : Dict Node) (q c : Nat) : Nat :=
  match dlookup env q with
  | some nq => (nq.children_ids.map (fun opt => opt.count c)).sum
  | none => 0

theorem reachCat_count {env : Dict Node} {f : Nat}
    (IH : ∀ nid R, reachIds env f nid = some R → ∀ c,
      (R.map (fun q => childCnt env q c)).sum + (if c = nid then 1 else 0) = R.count c) :
    ∀ cs L, reachCat (reachIds env f) cs = some L → ∀ c,
      (L.map (fun q => childCnt env q c)).sum + cs.count c = L.count c := by
  intro cs
  induction cs with
  | nil =>
    intro L h c
    simp only [reachCat, Option.some_inj] at h
    subst h
    simp
  | cons ci rest ih =>
    intro L h c
    simp only [reachCat] at h
    rcases hc : reachIds env f ci with _ | lc
    · simp [hc] at h
    · rcases hr : reachCat (reachIds env f) rest with _ | L'
      · simp [hc, hr] at h
      · simp only [hc, hr, Option.some_inj] at h
        subst h
        have h1 := IH ci lc hc c
        have h2 := ih L' hr c
        simp only [List.map_append, List.sum_append, List.count_append, List.count_cons,
          beq_iff_eq]
        by_cases hceq : c = ci
        · subst hceq
          simp only [if_pos rfl] at h1 ⊢
          omega
        · simp only [if_neg hceq, if_neg (Ne.symm hceq)] at h1 ⊢
          omega

theorem reachOptions_count {env : Dict Node} {f : Nat}
    (IH : ∀ nid R, reachIds env f nid = some R → ∀ c,
      (R.map (fun q => childCnt env q c)).sum + (if c = nid then 1 else 0) = R.count c) :
    ∀ opts L, reachOptions (reachIds env f) opts = some L → ∀ c,
      (L.map (fun q => childCnt env q c)).sum + (opts.map (fun o => o.count c)).sum
        = L.count c := by
  intro opts
  induction opts with
  | nil =>
    intro L h c
    simp only [reachOptions, Option.some_inj] at h
    subst h
    simp
  | cons opt rest ih =>
    intro L h c
    simp only [reachOptions] at h
    rcases hc : reachCat (reachIds env f) opt with _ | lc
    · simp [hc] at h
    · rcases hr : reachOptions (reachIds env f) rest with _ | L'
      · simp [hc, hr] at h
      · simp only [hc, hr, Option.some_inj] at h
        subst h
        have h1 := reachCat_count IH opt lc hc c
        have h2 := ih L' hr c
        simp only [List.map_append, List.sum_append, List.count_append, List.map_cons,
          List.sum_cons]
        omega

theorem reachIds_count {env : Dict Node} :
    ∀ f nid R, reachIds env f nid = some R → ∀ c,
      (R.map (fun q => childCnt env q c)).sum + (if c = nid then 1 else 0) = R.count c := by
  intro f
  induction f with
  | zero => intro nid R h c; simp [reachIds] at h
  | succ f ih =>
    intro nid R h c
    simp only [reachIds] at h
    rcases he : dlookup env nid with _ | n
    · simp [he] at h
    · simp only [he] at h
      by_cases hleaf : n.children_ids = []
      · rw [if_pos hleaf, Option.some_inj] at h
        subst h
        simp only [List.map_cons, List.map_nil, List.sum_cons, List.sum_nil,
          List.count_cons, List.count_nil, beq_iff_eq]
        have hcc : childCnt env nid c = 0 := by simp [childCnt, he, hleaf]
        by_cases hceq : c = nid
        · subst hceq; simp [hcc]
        · simp [hcc, hceq, if_neg (Ne.symm hceq)]
      · rw [if_neg hleaf] at h
        rcases hro : reachOptions (reachIds env f) n.children_ids with _ | L
        · rw [hro] at h; simp at h
        · rw [hro, Option.some_inj] at h
          subst h
          have h2 := reachOptions_count ih n.children_ids L hro c
          simp only [List.map_cons, List.sum_cons, List.count_cons, beq_iff_eq]
          have hcc : childCnt env nid c = (n.children_ids.map (fun o => o.count c)).sum := by
            simp [childCnt, he]
          by_cases hceq : c = nid
          · subst hceq
            simp only [if_pos rfl] at h2 ⊢
            omega
          · simp only [if_neg hceq, if_neg (Ne.symm hceq)] at h2 ⊢
            omega

theorem childOfAt_cnt_pos {env : Dict Node} {q c : Nat} (h : childOfAt env q c) :
    1 ≤ childCnt env q c := by
  obtain ⟨nq, hnq, opt, hopt, hc⟩ := h
  simp only [childCnt, hnq]
  have h1 : 1 ≤ opt.count c := List.one_le_count_iff.mpr hc
  have h2 : opt.count c ∈ nq.children_ids.map (fun o => o.count c) :=
    List.mem_map_of_mem _ hopt
  exact le_trans h1 (List.single_le_sum (fun x _ => Nat.zero_le x) _ h2)

theorem sum_map_two_mem {f : Nat → Nat} {l : List Nat} {a b : Nat}
    (ha : a ∈ l) (hb : b ∈ l) (hne : a ≠ b) : f a + f b ≤ (l.map f).sum := by
  have hperm : l.Perm (a :: l.erase a) := List.perm_cons_erase ha
  have hb' : b ∈ l.erase a := (List.mem_erase_of_ne (Ne.symm hne)).mpr hb
  have hsum : (l.map f).sum = ((a :: l.erase a).map f).sum :=
    List.Perm.sum_eq (List.Perm.map f hperm)
  rw [hsum]
  simp only [List.map_cons, List.sum_cons]
  have : f b ≤ ((l.erase a).map f).sum :=
    List.single_le_sum (fun x _ => Nat.zero_le x) _ (List.mem_map_of_mem f hb')
  omega

theorem reachIds_head {env : Dict Node} {f nid : Nat} {R : List Nat}
    (h : reachIds env f nid = some R) : ∃ T, R = nid :: T := by
  cases f with
  | zero => simp [reachIds] at h
  | succ f =>
    simp only [reachIds] at h
    rcases he : dlookup env nid with _ | n
    · simp [he] at h
    · simp only [he] at h
      by_cases hleaf : n.children_ids = []
      · rw [if_pos hleaf, Option.some_inj] at h
        exact ⟨[], h.symm⟩
      · rw [if_neg hleaf] at h
        rcases hro : reachOptions (reachIds env f) n.children_ids with _ | L
        · rw [hro] at h; simp at h
        · rw [hro, Option.some_inj] at h
          exact ⟨L, h.symm⟩

theorem reach_parent_unique {env : Dict Node} {f nid : Nat} {R : List Nat}
    (h : reachIds env f nid = some R) (hnodup : R.Nodup) {q1 q2 c : Nat}
    (h1 : q1 ∈ R) (h2 : q2 ∈ R)
    (hc1 : childOfAt env q1 c) (hc2 : childOfAt env q2 c) : q1 = q2 := by
  by_contra hne
  have hcount := reachIds_count f nid R h c
  have hstep := @sum_map_two_mem (fun q => childCnt env q c) R q1 q2 h1 h2 hne
  simp only at hstep
  have hp1 := childOfAt_cnt_pos hc1
  have hp2 := childOfAt_cnt_pos hc2
  have hle1 : R.count c ≤ 1 := List.nodup_iff_count_le_one.mp hnodup c
  omega

theorem reach_root_no_parent {env : Dict Node} {f nid : Nat} {R : List Nat}
    (h : reachIds env f nid = some R) (hnodup : R.Nodup) {q : Nat}
    (hq : q ∈ R) (hco : childOfAt env q nid) : False := by
  have hcount := reachIds_count f nid R h nid
  rw [if_pos rfl] at hcount
  have hp := childOfAt_cnt_pos hco
  have hmem : childCnt env q nid ≤ (R.map (fun q => childCnt env q nid)).sum :=
    List.single_le_sum (fun x _ => Nat.zero_le x) _ (List.mem_map_of_mem _ hq)
  have hle1 : R.count nid ≤ 1 := List.nodup_iff_count_le_one.mp hnodup nid
  omega

/-- The node dictionary `get_node_info` builds from its two node lists. -/
def gniEnv (leaf_nodes interior_nodes : List Node) : Dict Node :=
  idToNode (leaf_nodes ++ interior_nodes)

theorem gniEnv_wk (leaf_nodes interior_nodes : List Node) :
    ∀ id n, dlookup (gniEnv leaf_nodes interior_nodes) id = some n → n.id = id := by
  intro id n h
  exact dlookup_idToNode_id h

theorem get_node_info_run {lv iv : List Node} {fuel : Nat} {sc pn : Dict Nat}
    (h : get_node_info lv iv fuel = .ok (sc, pn)) :
    ∃ root k st', findRoot iv = .ok root ∧
      recursive_compute (gniEnv lv iv) fuel root ⟨[], []⟩ = .ok (k, st') ∧
      sc = st'.solution_count ∧ pn = st'.parent_nodes := by
  unfold get_node_info at h
  obtain ⟨root, hroot, h2⟩ := PyRes.bind_eq_ok h
  obtain ⟨⟨k, st'⟩, hrc, hfin⟩ := PyRes.bind_eq_ok h2
  simp only [PyRes.ok.injEq, Prod.mk.injEq] at hfin
  exact ⟨root, k, st', hroot, hrc, hfin.1.symm, hfin.2.symm⟩

/-- Characterization of the count map returned by `get_node_info`: an entry
exactly for every internal node reachable from the root, each giving the
number of complete plans reachable from that node. -/
theorem get_node_info_sc_char
    (leaf_nodes interior_nodes : List Node) (fuel : Nat) (root : Node)
    (R : List Nat) (sc pn : Dict Nat)
    (hroot : findRoot interior_nodes = .ok root)
    (henv : dlookup (gniEnv leaf_nodes interior_nodes) root.id = some root)
    (hreach : reachIds (gniEnv leaf_nodes interior_nodes) fuel root.id = some R)
    (hrun : get_node_info leaf_nodes interior_nodes fuel = .ok (sc, pn)) :
    (∀ id, (dlookup sc id).isSome ↔
      (id ∈ R ∧ isInternalAt (gniEnv leaf_nodes interior_nodes) id)) ∧
    (∀ id k, dlookup sc id = some k →
      countIs (gniEnv leaf_nodes interior_nodes) id k) := by
  obtain ⟨root', k, st', hroot', hrc, hsc, hpn⟩ := get_node_info_run hrun
  rw [hroot] at hroot'
  obtain rfl : root = root' := (PyRes.ok.injEq _ _).mp hroot'
  obtain ⟨hframe, hpos, _⟩ :=
    recursive_compute_state (gniEnv_wk leaf_nodes interior_nodes) fuel root.id root
      ⟨[], []⟩ k st' R henv hreach hrc
  subst hsc
  constructor
  · intro id
    constructor
    · intro hsome
      rcases hframe.1 id with h | ⟨hm, hi, _⟩
      · rw [h] at hsome; simp at hsome
      · exact ⟨hm, hi⟩
    · rintro ⟨hm, hi⟩
      obtain ⟨k', hk', _⟩ := hpos id hm hi
      simp [hk']
  · intro id k' hk'
    rcases hframe.1 id with h | ⟨_, _, k'', hk'', hc⟩
    · rw [h] at hk'; simp at hk'
    · rw [hk''] at hk'
      obtain rfl : k'' = k' := Option.some_inj.mp hk'
      exact hc

/-- Claim C10: the parent map returned by `get_node_info`, on a collection
satisfying the tree invariants, has no entry for the root; its domain is
exactly the ids appearing as an option child of some node reachable from the
root; and every entry maps the child to the id of the unique such parent. -/
theorem C10_parent_map_domain
    (leaf_nodes interior_nodes : List Node) (fuel : Nat) (root : Node)
    (R : List Nat) (sc pn : Dict Nat)
    (hroot : findRoot interior_nodes = .ok root)
    (henv : dlookup (gniEnv leaf_nodes interior_nodes) root.id = some root)
    (hreach : reachIds (gniEnv leaf_nodes interior_nodes) fuel root.id = some R)
    (hnodup : R.Nodup)
    (hrun : get_node_info leaf_nodes interior_nodes fuel = .ok (sc, pn)) :
    dlookup pn root.id = none ∧
    (∀ id, (dlookup pn id).isSome ↔
      ∃ q ∈ R, childOfAt (gniEnv leaf_nodes interior_nodes) q id) ∧
    (∀ id p q, dlookup pn id = some p → q ∈ R →
      childOfAt (gniEnv leaf_nodes interior_nodes) q id → p = q) := by
  obtain ⟨root', k, st', hroot', hrc, hsc, hpn⟩ := get_node_info_run hrun
  rw [hroot] at hroot'
  obtain rfl : root = root' := (PyRes.ok.injEq _ _).mp hroot'
  obtain ⟨hframe, _, hppos⟩ :=
    recursive_compute_state (gniEnv_wk leaf_nodes interior_nodes) fuel root.id root
      ⟨[], []⟩ k st' R henv hreach hrc
  subst hpn
  have hval : ∀ id p, dlookup st'.parent_nodes id = some p →
      p ∈ R ∧ childOfAt (gniEnv leaf_nodes interior_nodes) p id := by
    intro id p hp
    rcases hframe.2 id with h | ⟨q, hq, hco, hl⟩
    · rw [h] at hp; simp at hp
    · rw [hl] at hp
      obtain rfl : q = p := Option.some_inj.mp hp
      exact ⟨hq, hco⟩
  refine ⟨?_, ?_, ?_⟩
  · rcases hrn : dlookup st'.parent_nodes root.id with _ | p
    · rfl
    · obtain ⟨hpR, hpco⟩ := hval root.id p hrn
      exact absurd (reach_root_no_parent hreach hnodup hpR hpco) (fun h => h)
  · intro id
    constructor
    · intro hsome
      rcases hs : dlookup st'.parent_nodes id with _ | p
      · rw [hs] at hsome; simp at hsome
      · obtain ⟨hpR, hpco⟩ := hval id p hs
        exact ⟨p, hpR, hpco⟩
    · rintro ⟨q, hq, hco⟩
      obtain ⟨nq, hnq, opt, hopt, hcin⟩ := hco
      obtain ⟨q', _, _, hl⟩ := hppos q hq nq hnq opt hopt id hcin
      simp [hl]
  · intro id p q hp hq hco
    obtain ⟨hpR, hpco⟩ := hval id p hp
    exact reach_parent_unique hreach hnodup hpR hq hpco hco

/-- Claim C8, amended: the count map returned by `get_node_info` has an entry
exactly for every internal node (a node with at least one partition option)
reachable from the root — leaves get no entry — and every entry gives the
number of complete plans reachable from that node. -/
theorem C8_count_map_reachable_internal
    (leaf_nodes interior_nodes : List Node) (fuel : Nat) (root : Node)
    (R : List Nat) (sc pn : Dict Nat)
    (hroot : findRoot interior_nodes = .ok root)
    (henv : dlookup (gniEnv leaf_nodes interior_nodes) root.id = some root)
    (hreach : reachIds (gniEnv leaf_nodes interior_nodes) fuel root.id = some R)
    (hrun : get_node_info leaf_nodes interior_nodes fuel = .ok (sc, pn)) :
    (∀ id, (dlookup sc id).isSome ↔
      (id ∈ R ∧ isInternalAt (gniEnv leaf_nodes interior_nodes) id)) ∧
    (∀ id k, dlookup sc id = some k →
      countIs (gniEnv leaf_nodes interior_nodes) id k) :=
  get_node_info_sc_char leaf_nodes interior_nodes fuel root R sc pn hroot henv hreach hrun

theorem C8_count_map_reachable_internal_witness :
    (∀ id, (dlookup (scOf (get_node_info specLeaves specInternal 10)) id).isSome ↔
      (id ∈ [0, 3, 4, 5] ∧ isInternalAt (gniEnv specLeaves specInternal) id)) ∧
    (∀ id k, dlookup (scOf (get_node_info specLeaves specInternal 10)) id = some k →
      countIs (gniEnv specLeaves specInternal) id k) :=
  C8_count_map_reachable_internal specLeaves specInternal 10 ⟨0, 2, true, [[3, 4], [5]]⟩
    [0, 3, 4, 5] (scOf (get_node_info specLeaves specInternal 10))
    (pnOf (get_node_info specLeaves specInternal 10)) (by decide) (by decide) (by decide)
    rfl

theorem C10_parent_map_domain_witness :
    dlookup (pnOf (get_node_info specLeaves specInternal 10)) 0 = none ∧
    (∀ id, (dlookup (pnOf (get_node_info specLeaves specInternal 10)) id).isSome ↔
      ∃ q ∈ [0, 3, 4, 5], childOfAt (gniEnv specLeaves specInternal) q id) ∧
    (∀ id p q, dlookup (pnOf (get_node_info specLeaves specInternal 10)) id = some p →
      q ∈ [0, 3, 4, 5] → childOfAt (gniEnv specLeaves specInternal) q id → p = q) :=
  C10_parent_map_domain specLeaves specInternal 10 ⟨0, 2, true, [[3, 4], [5]]⟩
    [0, 3, 4, 5] (scOf (get_node_info specLeaves specInternal 10))
    (pnOf (get_node_info specLeaves specInternal 10)) (by decide) (by decide) (by decide)
    (by decide) rfl

/-- The result shapes `get_node_info` can produce: anything except an
assertion failure or a `ValueError`. -/
def gniShape {α : Type} : PyRes α → Prop
  | .assertError => False
  | .valueError => False
  | _ => True

theorem gniShape_bind {α β : Type} {x : PyRes α} {f : α → PyRes β}
    (hx : gniShape x) (hf : ∀ a, gniShape (f a)) : gniShape (PyRes.bind x f) := by
  cases x with
  | ok a => exact hf a
  | keyError => exact trivial
  | assertError => exact absurd hx (fun h => h)
  | indexError => exact trivial
  | valueError => exact absurd hx (fun h => h)
  | diverge => exact trivial

theorem findRoot_shape (iv : List Node) : gniShape (findRoot iv) := by
  cases iv with
  | nil => exact trivial
  | cons n rest =>
    simp only [findRoot]
    by_cases h : n.is_root = true
    · rw [if_pos h]; exact trivial
    · rw [if_neg h]
      rcases hf : (n :: rest).filter (fun m => m.is_root) with _ | ⟨r, l⟩
      · rw [hf]; exact trivial
      · rw [hf]; exact trivial

theorem rcChildren_shape {env : Dict Node} {curId : Nat}
    {recur : Node → CState → PyRes (Nat × CState)}
    (hrec : ∀ cn st, gniShape (recur cn st)) :
    ∀ cs acc st, gniShape (rcChildren env curId recur cs acc st) := by
  intro cs
  induction cs with
  | nil => intro acc st; exact trivial
  | cons c rest ih =>
    intro acc st
    simp only [rcChildren]
    rcases hc : dlookup env c with _ | cnode
    · exact trivial
    · exact gniShape_bind (hrec cnode _) (fun r => ih _ _)

theorem rcOptions_shape {env : Dict Node} {curId : Nat}
    {recur : Node → CState → PyRes (Nat × CState)}
    (hrec : ∀ cn st, gniShape (recur cn st)) :
    ∀ opts acc st, gniShape (rcOptions env curId recur opts acc st) := by
  intro opts
  induction opts with
  | nil => intro acc st; exact trivial
  | cons opt rest ih =>
    intro acc st
    exact gniShape_bind (rcChildren_shape hrec opt 1 st) (fun r => ih _ _)

theorem recursive_compute_shape {env : Dict Node} :
    ∀ fuel cn st, gniShape (recursive_compute env fuel cn st) := by
  intro fuel
  induction fuel with
  | zero => intro cn st; exact trivial
  | succ f ih =>
    intro cn st
    simp only [recursive_compute]
    by_cases h : cn.children_ids = []
    · simp [h, gniShape]
    · simp only [if_neg h]
      exact gniShape_bind (rcOptions_shape (fun cn' st' => ih cn' st') _ _ _)
        (fun r => trivial)

/-- Claim C7, amended: `get_node_info` never raises an assertion failure or a
`ValueError` — its only failure modes are `KeyError` (an unresolved child id,
as in the concrete third conjunct), `IndexError` (no root among the interior
nodes), or nontermination; it performs no duplicate-parent check.
`prune_sample_space` raises `AssertionError` for every target below 1,
provided the first internal node is the root (the root-position assert runs
first). -/
theorem C7_error_model :
    (∀ leaf_nodes interior_nodes fuel,
      gniShape (get_node_info leaf_nodes interior_nodes fuel)) ∧
    (∀ (root : Node) (rest : List Node) (sc pn : Dict Nat) (t : Int)
      (groups : Nat → List Nat) (pf fl : Nat),
      root.is_root = true → t ≤ 0 →
      prune_sample_space (root :: rest) sc pn t groups pf fl = .assertError) ∧
    get_node_info [] [⟨0, 2, true, [[5]]⟩] 10 = .keyError := by
  refine ⟨?_, ?_, by decide⟩
  · intro lv iv fuel
    exact gniShape_bind (findRoot_shape iv)
      (fun root => gniShape_bind (recursive_compute_shape fuel root ⟨[], []⟩)
        (fun r => trivial))
  · intro root rest sc pn t groups pf fl hroot ht
    simp only [prune_sample_space, hroot, Bool.not_true, Bool.false_eq_true, if_false,
      if_pos ht]

theorem C7_error_model_witness :
    gniShape (get_node_info specLeaves specInternal 10) ∧
    prune_sample_space [⟨0, 2, true, [[3, 4], [5]]⟩] [] [] 0 (fun _ => []) 5 5 =
      .assertError :=
  ⟨C7_error_model.1 specLeaves specInternal 10,
   C7_error_model.2.1 ⟨0, 2, true, [[3, 4], [5]]⟩ [] [] [] 0 (fun _ => []) 5 5
     (by decide) (by decide)⟩

theorem crossPlans_mem {l : List (List Nat)} {rest : List (List (List Nat))} {p : List Nat} :
    p ∈ crossPlans (l :: rest) ↔ ∃ pc ∈ l, ∃ q ∈ crossPlans rest, p = pc ++ q := by
  simp only [crossPlans, List.mem_flatMap, List.mem_map]
  constructor
  · rintro ⟨pc, hpc, q, hq, rfl⟩
    exact ⟨pc, hpc, q, hq, rfl⟩
  · rintro ⟨pc, hpc, q, hq, rfl⟩
    exact ⟨pc, hpc, q, hq, rfl⟩

theorem reachCat_subset {env : Dict Node} {f : Nat}
    (IH : ∀ nid R ps, reachIds env f nid = some R → enumPlans env f nid = some ps →
      ∀ p ∈ ps, ∀ x ∈ p, x ∈ R) :
    ∀ cs L ls, reachCat (reachIds env f) cs = some L →
      enumChildren (enumPlans env f) cs = some ls →
      ∀ p ∈ crossPlans ls, ∀ x ∈ p, x ∈ L := by
  intro cs
  induction cs with
  | nil =>
    intro L ls hre hen p hp x hx
    simp only [reachCat, Option.some_inj] at hre
    simp only [enumChildren, Option.some_inj] at hen
    subst hre
    subst hen
    simp only [crossPlans, List.mem_singleton] at hp
    subst hp
    simp at hx
  | cons c restc ih =>
    intro L ls hre hen p hp x hx
    simp only [reachCat] at hre
    simp only [enumChildren] at hen
    rcases hc : reachIds env f c with _ | lc
    · simp [hc] at hre
    · rcases hr : reachCat (reachIds env f) restc with _ | L'
      · simp [hc, hr] at hre
      · rcases hec : enumPlans env f c with _ | psc
        · simp [hec] at hen
        · rcases her : enumChildren (enumPlans env f) restc with _ | ls'
          · simp [hec, her] at hen
          · simp only [hc, hr, Option.some_inj] at hre
            simp only [hec, her, Option.some_inj] at hen
            subst hre
            subst hen
            obtain ⟨pc, hpc, q, hq, rfl⟩ := crossPlans_mem.mp hp
            rcases List.mem_append.mp hx with hx | hx
            · exact List.mem_append.mpr (Or.inl (IH c lc psc hc hec pc hpc x hx))
            · exact List.mem_append.mpr (Or.inr (ih L' ls' hr her q hq x hx))

theorem reachOptions_subset {env : Dict Node} {f : Nat}
    (IH : ∀ nid R ps, reachIds env f nid = some R → enumPlans env f nid = some ps →
      ∀ p ∈ ps, ∀ x ∈ p, x ∈ R) :
    ∀ opts L ps, reachOptions (reachIds env f) opts = some L →
      enumOptions (enumPlans env f) opts = some ps →
      ∀ p ∈ ps, ∀ x ∈ p, x ∈ L := by
  intro opts
  induction opts with
  | nil =>
    intro L ps hre hen p hp x hx
    simp only [enumOptions, Option.some_inj] at hen
    subst hen
    simp at hp
  | cons opt rest ih =>
    intro L ps hre hen p hp x hx
    simp only [reachOptions] at hre
    simp only [enumOptions] at hen
    rcases hc : reachCat (reachIds env f) opt with _ | lc
    · simp [hc] at hre
    · rcases hr : reachOptions (reachIds env f) rest with _ | L'
      · simp [hc, hr] at hre
      · rcases hec : enumChildren (enumPlans env f) opt with _ | ls
        · simp [hec] at hen
        · rcases her : enumOptions (enumPlans env f) rest with _ | rest'
          · simp [hec, her] at hen
          · simp only [hc, hr, Option.some_inj] at hre
            simp only [hec, her, Option.some_inj] at hen
            subst hre
            subst hen
            rcases List.mem_append.mp hp with hp | hp
            · exact List.mem_append.mpr
                (Or.inl (reachCat_subset IH opt lc ls hc hec p hp x hx))
            · exact List.mem_append.mpr (Or.inr (ih L' rest' hr her p hp x hx))

theorem enumPlans_subset_reach {env : Dict Node} :
    ∀ f nid R ps, reachIds env f nid = some R → enumPlans env f nid = some ps →
      ∀ p ∈ ps, ∀ x ∈ p, x ∈ R := by
  intro f
  induction f with
  | zero => intro nid R ps hre _ _ _ _ _; simp [reachIds] at hre
  | succ f ih =>
    intro nid R ps hre hen p hp x hx
    simp only [reachIds] at hre
    simp only [enumPlans] at hen
    rcases he : dlookup env nid with _ | n
    · simp [he] at hre
    · simp only [he] at hre hen
      by_cases hleaf : n.children_ids = []
      · rw [if_pos hleaf, Option.some_inj] at hre
        rw [if_pos hleaf, Option.some_inj] at hen
        subst hre
        subst hen
        simp only [List.mem_singleton] at hp
        subst hp
        simp only [List.mem_singleton] at hx
        simp [hx]
      · rw [if_neg hleaf] at hre hen
        rcases hro : reachOptions (reachIds env f) n.children_ids with _ | L
        · rw [hro] at hre; simp at hre
        · rw [hro, Option.some_inj] at hre
          subst hre
          exact List.mem_cons.mpr
            (Or.inr (reachOptions_subset ih n.children_ids L ps hro hen p hp x hx))

theorem reachCat_plan_ne {env : Dict Node} {f : Nat}
    (IH : ∀ nid R ps, reachIds env f nid = some R →
      (∀ id ∈ R, ∀ n, dlookup env id = some n → [] ∉ n.children_ids) →
      enumPlans env f nid = some ps → ∀ p ∈ ps, p ≠ []) :
    ∀ cs L ls, reachCat (reachIds env f) cs = some L →
      enumChildren (enumPlans env f) cs = some ls →
      (∀ id ∈ L, ∀ n, dlookup env id = some n → [] ∉ n.children_ids) →
      cs ≠ [] → ∀ p ∈ crossPlans ls, p ≠ [] := by
  intro cs
  cases cs with
  | nil => intro L ls _ _ _ hcs; exact absurd rfl hcs
  | cons c restc =>
    intro L ls hre hen hne _ p hp
    simp only [reachCat] at hre
    simp only [enumChildren] at hen
    rcases hc : reachIds env f c with _ | lc
    · simp [hc] at hre
    · rcases hr : reachCat (reachIds env f) restc with _ | L'
      · simp [hc, hr] at hre
      · rcases hec : enumPlans env f c with _ | psc
        · simp [hec] at hen
        · rcases her : enumChildren (enumPlans env f) restc with _ | ls'
          · simp [hec, her] at hen
          · simp only [hc, hr, Option.some_inj] at hre
            simp only [hec, her, Option.some_inj] at hen
            subst hre
            subst hen
            obtain ⟨pc, hpc, q, hq, rfl⟩ := crossPlans_mem.mp hp
            have hpcne : pc ≠ [] :=
              IH c lc psc hc
                (fun id hid n hn => hne id (List.mem_append.mpr (Or.inl hid)) n hn)
                hec pc hpc
            simp [hpcne]

theorem reachOptions_plan_ne {env : Dict Node} {f : Nat}
    (IH : ∀ nid R ps, reachIds env f nid = some R →
      (∀ id ∈ R, ∀ n, dlookup env id = some n → [] ∉ n.children_ids) →
      enumPlans env f nid = some ps → ∀ p ∈ ps, p ≠ []) :
    ∀ opts L ps, reachOptions (reachIds env f) opts = some L →
      enumOptions (enumPlans env f) opts = some ps →
      (∀ id ∈ L, ∀ n, dlookup env id = some n → [] ∉ n.children_ids) →
      [] ∉ opts → ∀ p ∈ ps, p ≠ [] := by
  intro opts
  induction opts with
  | nil =>
    intro L ps _ hen _ _ p hp
    simp only [enumOptions, Option.some_inj] at hen
    subst hen
    simp at hp
  | cons opt rest ih =>
    intro L ps hre hen hne hno p hp
    simp only [reachOptions] at hre
    simp only [enumOptions] at hen
    rcases hc : reachCat (reachIds env f) opt with _ | lc
    · simp [hc] at hre
    · rcases hr : reachOptions (reachIds env f) rest with _ | L'
      · simp [hc, hr] at hre
      · rcases hec : enumChildren (enumPlans env f) opt with _ | ls
        · simp [hec] at hen
        · rcases her : enumOptions (enumPlans env f) rest with _ | rest'
          · simp [hec, her] at hen
          · simp only [hc, hr, Option.some_inj] at hre
            simp only [hec, her, Option.some_inj] at hen
            subst hre
            subst hen
            rcases List.mem_append.mp hp with hp | hp
            · have hoptne : opt ≠ [] := by
                intro hcontra
                exact hno (by rw [← hcontra]; simp)
              exact reachCat_plan_ne IH opt lc ls hc hec
                (fun id hid n hn => hne id (List.mem_append.mpr (Or.inl hid)) n hn)
                hoptne p hp
            · exact ih L' rest' hr her
                (fun id hid n hn => hne id (List.mem_append.mpr (Or.inr hid)) n hn)
                (fun hcontra => hno (by simp [hcontra])) p hp

theorem enumPlans_plan_ne {env : Dict Node} :
    ∀ f nid R ps, reachIds env f nid = some R →
      (∀ id ∈ R, ∀ n, dlookup env id = some n → [] ∉ n.children_ids) →
      enumPlans env f nid = some ps →
      ∀ p ∈ ps, p ≠ [] := by
  intro f
  induction f with
  | zero => intro nid R ps hre _ _ _ _; simp [reachIds] at hre
  | succ f ih =>
    intro nid R ps hre hne hen p hp
    simp only [reachIds] at hre
    simp only [enumPlans] at hen
    rcases he : dlookup env nid with _ | n
    · simp [he] at hre
    · simp only [he] at hre hen
      by_cases hleaf : n.children_ids = []
      · rw [if_pos hleaf, Option.some_inj] at hen
        subst hen
        simp only [List.mem_singleton] at hp
        subst hp
        simp
      · rw [if_neg hleaf] at hre hen
        rcases hro : reachOptions (reachIds env f) n.children_ids with _ | L
        · rw [hro] at hre; simp at hre
        · rw [hro, Option.some_inj] at hre
          subst hre
          have hno : [] ∉ n.children_ids := hne nid (by simp) n he
          exact reachOptions_plan_ne ih n.children_ids L ps hro hen
            (fun id hid n' hn' => hne id (by simp [hid]) n' hn') hno p hp

theorem toFinset_append_inj {p q p' q' S T : List Nat}
    (hp : ∀ x ∈ p, x ∈ S) (hp' : ∀ x ∈ p', x ∈ S)
    (hq : ∀ x ∈ q, x ∈ T) (hq' : ∀ x ∈ q', x ∈ T)
    (hdis : ∀ x ∈ S, x ∉ T)
    (h : (p ++ q).toFinset = (p' ++ q').toFinset) :
    p.toFinset = p'.toFinset ∧ q.toFinset = q'.toFinset := by
  have hmem : ∀ x, (x ∈ p ∨ x ∈ q) ↔ (x ∈ p' ∨ x ∈ q') := by
    intro x
    have := Finset.ext_iff.mp h x
    simpa [List.mem_toFinset, List.mem_append] using this
  constructor
  · apply Finset.ext
    intro x
    simp only [List.mem_toFinset]
    constructor
    · intro hx
      rcases (hmem x).mp (Or.inl hx) with h' | h'
      · exact h'
      · exact absurd (hq' x h') (hdis x (hp x hx))
    · intro hx
      rcases (hmem x).mpr (Or.inl hx) with h' | h'
      · exact h'
      · exact absurd (hq x h') (hdis x (hp' x hx))
  · apply Finset.ext
    intro x
    simp only [List.mem_toFinset]
    constructor
    · intro hx
      rcases (hmem x).mp (Or.inr hx) with h' | h'
      · exact absurd (hq x hx) (hdis x (hp' x h'))
      · exact h'
    · intro hx
      rcases (hmem x).mpr (Or.inr hx) with h' | h'
      · exact absurd (hq' x hx) (hdis x (hp x h'))
      · exact h'

theorem cross_block_nodup {lc L' : List Nat} {A : List (List Nat)}
    (hA : (A.map List.toFinset).Nodup)
    (hAsub : ∀ q ∈ A, ∀ x ∈ q, x ∈ L')
    (hdis : ∀ x ∈ lc, x ∉ L') :
    ∀ psc : List (List Nat),
      (psc.map List.toFinset).Nodup → (∀ pc ∈ psc, ∀ x ∈ pc, x ∈ lc) →
      ((psc.flatMap (fun pc => A.map (fun q => pc ++ q))).map List.toFinset).Nodup := by
  intro psc
  induction psc with
  | nil => intro _ _; simp
  | cons pc psc' ih =>
    intro hnodup hsub
    simp only [List.flatMap_cons, List.map_append]
    rw [List.nodup_append]
    have hpcsub : ∀ x ∈ pc, x ∈ lc := hsub pc (by simp)
    refine ⟨?_, ?_, ?_⟩
    · rw [List.map_map]
      apply List.Nodup.map_on ?_ (List.Nodup.of_map List.toFinset hA)
      intro q1 hq1 q2 hq2 heq
      simp only [Function.comp] at heq
      have := toFinset_append_inj hpcsub hpcsub (hAsub q1 hq1) (hAsub q2 hq2) hdis heq
      exact List.inj_on_of_nodup_map hA hq1 hq2 this.2
    · refine ih ?_ (fun p hp x hx => hsub p (by simp [hp]) x hx)
      simp only [List.map_cons, List.nodup_cons] at hnodup
      exact hnodup.2
    · intro f1 hf1 hf2
      simp only [List.map_map, List.mem_map, Function.comp] at hf1
      obtain ⟨q1, hq1, hfe1⟩ := hf1
      simp only [List.mem_map, List.mem_flatMap] at hf2
      obtain ⟨p2, ⟨pc', hpc', q2, hq2, rfl⟩, hfe2⟩ := hf2
      have heq : (pc ++ q1).toFinset = (pc' ++ q2).toFinset := hfe1.trans hfe2.symm
      have hpcsub' : ∀ x ∈ pc', x ∈ lc := hsub pc' (by simp [hpc'])
      have := toFinset_append_inj hpcsub hpcsub' (hAsub q1 hq1) (hAsub q2 hq2) hdis heq
      have hmemmap : pc'.toFinset ∈ psc'.map List.toFinset := List.mem_map_of_mem _ hpc'
      rw [← this.1] at hmemmap
      simp only [List.map_cons, List.nodup_cons] at hnodup
      exact hnodup.1 hmemmap

theorem reachCat_nodup {env : Dict Node} {f : Nat}
    (IHnodup : ∀ nid R ps, reachIds env f nid = some R → R.Nodup →
      (∀ id ∈ R, ∀ n, dlookup env id = some n → [] ∉ n.children_ids) →
      enumPlans env f nid = some ps → (ps.map List.toFinset).Nodup) :
    ∀ cs L ls, reachCat (reachIds env f) cs = some L → L.Nodup →
      (∀ id ∈ L, ∀ n, dlookup env id = some n → [] ∉ n.children_ids) →
      enumChildren (enumPlans env f) cs = some ls →
      ((crossPlans ls).map List.toFinset).Nodup := by
  intro cs
  induction cs with
  | nil =>
    intro L ls _ _ _ hen
    simp only [enumChildren, Option.some_inj] at hen
    subst hen
    simp [crossPlans]
  | cons c restc ih =>
    intro L ls hre hnodup hne hen
    simp only [reachCat] at hre
    simp only [enumChildren] at hen
    rcases hc : reachIds env f c with _ | lc
    · simp [hc] at hre
    · rcases hr : reachCat (reachIds env f) restc with _ | L'
      · simp [hc, hr] at hre
      · rcases hec : enumPlans env f c with _ | psc
        · simp [hec] at hen
        · rcases her : enumChildren (enumPlans env f) restc with _ | ls'
          · simp [hec, her] at hen
          · simp only [hc, hr, Option.some_inj] at hre
            simp only [hec, her, Option.some_inj] at hen
            subst hre
            subst hen
            obtain ⟨hlcn, hL'n, hdisj⟩ := List.nodup_append.mp hnodup
            have h1 : (psc.map List.toFinset).Nodup :=
              IHnodup c lc psc hc hlcn
                (fun id hid n hn => hne id (List.mem_append.mpr (Or.inl hid)) n hn) hec
            have h2 : ((crossPlans ls').map List.toFinset).Nodup :=
              ih L' ls' hr hL'n
                (fun id hid n hn => hne id (List.mem_append.mpr (Or.inr hid)) n hn) her
            have hsubA : ∀ q ∈ crossPlans ls', ∀ x ∈ q, x ∈ L' :=
              reachCat_subset
                (fun nid R ps hre hen => enumPlans_subset_reach f nid R ps hre hen)
                restc L' ls' hr her
            have hsubP : ∀ pc ∈ psc, ∀ x ∈ pc, x ∈ lc :=
              enumPlans_subset_reach f c lc psc hc hec
            have hdis : ∀ x ∈ lc, x ∉ L' := fun x hx hx' => hdisj hx hx'
            show ((psc.flatMap (fun pc => (crossPlans ls').map (fun q => pc ++ q))).map
              List.toFinset).Nodup
            exact cross_block_nodup h2 hsubA hdis psc h1 hsubP

theorem reachOptions_nodup {env : Dict Node} {f : Nat}
    (IHnodup : ∀ nid R ps, reachIds env f nid = some R → R.Nodup →
      (∀ id ∈ R, ∀ n, dlookup env id = some n → [] ∉ n.children_ids) →
      enumPlans env f nid = some ps → (ps.map List.toFinset).Nodup)
    (IHne : ∀ nid R ps, reachIds env f nid = some R →
      (∀ id ∈ R, ∀ n, dlookup env id = some n → [] ∉ n.children_ids) →
      enumPlans env f nid = some ps → ∀ p ∈ ps, p ≠ []) :
    ∀ opts L ps, reachOptions (reachIds env f) opts = some L → L.Nodup →
      (∀ id ∈ L, ∀ n, dlookup env id = some n → [] ∉ n.children_ids) →
      [] ∉ opts →
      enumOptions (enumPlans env f) opts = some ps →
      (ps.map List.toFinset).Nodup := by
  intro opts
  induction opts with
  | nil =>
    intro L ps _ _ _ _ hen
    simp only [enumOptions, Option.some_inj] at hen
    subst hen
    simp
  | cons opt rest ih =>
    intro L ps hre hnodup hne hno hen
    simp only [reachOptions] at hre
    simp only [enumOptions] at hen
    rcases hc : reachCat (reachIds env f) opt with _ | lc
    · simp [hc] at hre
    · rcases hr : reachOptions (reachIds env f) rest with _ | L'
      · simp [hc, hr] at hre
      · rcases hec : enumChildren (enumPlans env f) opt with _ | ls
        · simp [hec] at hen
        · rcases her : enumOptions (enumPlans env f) rest with _ | rest'
          · simp [hec, her] at hen
          · simp only [hc, hr, Option.some_inj] at hre
            simp only [hec, her, Option.some_inj] at hen
            subst hre
            subst hen
            obtain ⟨hlcn, hL'n, hdisj⟩ := List.nodup_append.mp hnodup
            have hne1 : ∀ id ∈ lc, ∀ n, dlookup env id = some n → [] ∉ n.children_ids :=
              fun id hid n hn => hne id (List.mem_append.mpr (Or.inl hid)) n hn
            have hne2 : ∀ id ∈ L', ∀ n, dlookup env id = some n → [] ∉ n.children_ids :=
              fun id hid n hn => hne id (List.mem_append.mpr (Or.inr hid)) n hn
            have h1 : ((crossPlans ls).map List.toFinset).Nodup :=
              reachCat_nodup IHnodup opt lc ls hc hlcn hne1 hec
            have h2 : (rest'.map List.toFinset).Nodup :=
              ih L' rest' hr hL'n hne2 (fun hm => hno (by simp [hm])) her
            rw [List.map_append, List.nodup_append]
            refine ⟨h1, h2, ?_⟩
            intro fx hfx hfx'
            simp only [List.mem_map] at hfx hfx'
            obtain ⟨p, hp, hpe⟩ := hfx
            obtain ⟨p', hp', hpe'⟩ := hfx'
            have hoptne : opt ≠ [] := fun hcontra => hno (by rw [← hcontra]; simp)
            have hpne : p ≠ [] := reachCat_plan_ne IHne opt lc ls hc hec hne1 hoptne p hp
            obtain ⟨x, hx⟩ := List.exists_mem_of_ne_nil p hpne
            have hxlc : x ∈ lc :=
              reachCat_subset
                (fun nid R ps2 hre2 hen2 => enumPlans_subset_reach f nid R ps2 hre2 hen2)
                opt lc ls hc hec p hp x hx
            have hxL' : x ∈ L' := by
              have hxp' : x ∈ p' := by
                have : x ∈ p'.toFinset := by
                  rw [hpe', ← hpe]
                  simp [hx]
                simpa using this
              exact reachOptions_subset
                (fun nid R ps2 hre2 hen2 => enumPlans_subset_reach f nid R ps2 hre2 hen2)
                rest L' rest' hr her p' hp' x hxp'
            exact hdisj hxlc hxL'

theorem enumPlans_toFinset_nodup {env : Dict Node} :
    ∀ f nid R ps, reachIds env f nid = some R → R.Nodup →
      (∀ id ∈ R, ∀ n, dlookup env id = some n → [] ∉ n.children_ids) →
      enumPlans env f nid = some ps → (ps.map List.toFinset).Nodup := by
  intro f
  induction f with
  | zero => intro nid R ps hre _ _ _; simp [reachIds] at hre
  | succ f ih =>
    intro nid R ps hre hnodup hne hen
    simp only [reachIds] at hre
    simp only [enumPlans] at hen
    rcases he : dlookup env nid with _ | n
    · simp [he] at hre
    · simp only [he] at hre hen
      by_cases hleaf : n.children_ids = []
      · rw [if_pos hleaf, Option.some_inj] at hen
        subst hen
        simp
      · rw [if_neg hleaf] at hre hen
        rcases hro : reachOptions (reachIds env f) n.children_ids with _ | L
        · rw [hro] at hre; simp at hre
        · rw [hro, Option.some_inj] at hre
          subst hre
          have hLn : L.Nodup := (List.nodup_cons.mp hnodup).2
          exact reachOptions_nodup ih
            (fun nid2 R2 ps2 h1 h2 h3 => enumPlans_plan_ne f nid2 R2 ps2 h1 h2 h3)
            n.children_ids L ps hro hLn
            (fun id hid n' hn' => hne id (by simp [hid]) n' hn')
            (hne nid (by simp) n he) hen


theorem countIs_unique {env : Dict Node} {id k k' : Nat}
    (h1 : countIs env id k) (h2 : countIs env id k') : k = k' := by
  obtain ⟨f1, ps1, he1, rfl⟩ := h1
  obtain ⟨f2, ps2, he2, rfl⟩ := h2
  have m1 := enumPlans_mono (Nat.le_max_left f1 f2) id ps1 he1
  have m2 := enumPlans_mono (Nat.le_max_right f1 f2) id ps2 he2
  rw [m1, Option.some_inj] at m2
  rw [m2]

theorem childOfAt_mem_reach {env : Dict Node} {f nid : Nat} {R : List Nat} {q c : Nat}
    (h : reachIds env f nid = some R) (hq : q ∈ R) (hco : childOfAt env q c) :
    c ∈ R := by
  by_contra hcm
  have hcount := reachIds_count f nid R h c
  have hzero : R.count c = 0 := List.count_eq_zero_of_not_mem hcm
  have hp := childOfAt_cnt_pos hco
  have hmem : childCnt env q c ≤ (R.map (fun q => childCnt env q c)).sum :=
    List.single_le_sum (fun x _ => Nat.zero_le x) _ (List.mem_map_of_mem _ hq)
  omega

theorem enumChildren_length_sc {env : Dict Node} {f : Nat} {sc : Dict Nat} :
    ∀ cs ls, enumChildren (enumPlans env f) cs = some ls →
      (∀ c ∈ cs, ∀ ps, enumPlans env f c = some ps → (dlookup sc c).getD 1 = ps.length) →
      (crossPlans ls).length = (cs.map (fun c => (dlookup sc c).getD 1)).prod := by
  intro cs
  induction cs with
  | nil =>
    intro ls hen _
    simp only [enumChildren, Option.some_inj] at hen
    subst hen
    simp [crossPlans]
  | cons c restc ih =>
    intro ls hen hsc
    simp only [enumChildren] at hen
    rcases hec : enumPlans env f c with _ | psc
    · simp [hec] at hen
    · rcases her : enumChildren (enumPlans env f) restc with _ | ls'
      · simp [hec, her] at hen
      · simp only [hec, her, Option.some_inj] at hen
        subst hen
        have h1 : (dlookup sc c).getD 1 = psc.length := hsc c (by simp) psc hec
        have h2 := ih ls' her (fun c' hc' ps hps => hsc c' (by simp [hc']) ps hps)
        rw [crossPlans_length] at h2 ⊢
        simp only [List.map_cons, List.prod_cons]
        rw [h1, h2]

theorem enumOptions_length_sc {env : Dict Node} {f : Nat} {sc : Dict Nat} :
    ∀ opts ps, enumOptions (enumPlans env f) opts = some ps →
      (∀ opt ∈ opts, ∀ c ∈ opt, ∀ ps2, enumPlans env f c = some ps2 →
        (dlookup sc c).getD 1 = ps2.length) →
      ps.length = (opts.map (fun opt =>
        (opt.map (fun c => (dlookup sc c).getD 1)).prod)).sum := by
  intro opts
  induction opts with
  | nil =>
    intro ps hen _
    simp only [enumOptions, Option.some_inj] at hen
    subst hen
    simp
  | cons opt rest ih =>
    intro ps hen hsc
    simp only [enumOptions] at hen
    rcases hec : enumChildren (enumPlans env f) opt with _ | ls
    · simp [hec] at hen
    · rcases her : enumOptions (enumPlans env f) rest with _ | rest'
      · simp [hec, her] at hen
      · simp only [hec, her, Option.some_inj] at hen
        subst hen
        have h1 := enumChildren_length_sc opt ls hec
          (fun c hc ps2 hps2 => hsc opt (by simp) c hc ps2 hps2)
        have h2 := ih rest' her (fun o ho c hc ps2 hps2 => hsc o (by simp [ho]) c hc ps2 hps2)
        simp only [List.length_append, List.map_cons, List.sum_cons]
        rw [h1, h2]

theorem get_node_info_consistent
    (leaf_nodes interior_nodes : List Node) (fuel : Nat) (root : Node)
    (R : List Nat) (sc pn : Dict Nat)
    (hroot : findRoot interior_nodes = .ok root)
    (henv : dlookup (gniEnv leaf_nodes interior_nodes) root.id = some root)
    (hreach : reachIds (gniEnv leaf_nodes interior_nodes) fuel root.id = some R)
    (hrun : get_node_info leaf_nodes interior_nodes fuel = .ok (sc, pn)) :
    ∀ id ∈ R, ∀ n, dlookup (gniEnv leaf_nodes interior_nodes) id = some n →
      n.children_ids ≠ [] → dlookup sc id = some (recompute_node_size sc n) := by
  intro id hid n hn hnint
  obtain ⟨hdom, hval⟩ :=
    get_node_info_sc_char leaf_nodes interior_nodes fuel root R sc pn hroot henv hreach hrun
  have hint : isInternalAt (gniEnv leaf_nodes interior_nodes) id := ⟨n, hn, hnint⟩
  have hsome : (dlookup sc id).isSome := (hdom id).mpr ⟨hid, hint⟩
  rcases hs : dlookup sc id with _ | k
  · rw [hs] at hsome; simp at hsome
  · have hci : countIs (gniEnv leaf_nodes interior_nodes) id k := hval id k hs
    obtain ⟨f1, ps, hps, rfl⟩ := hci
    cases f1 with
    | zero => simp [enumPlans] at hps
    | succ g =>
      simp only [enumPlans, hn, if_neg hnint] at hps
      have hlen := @enumOptions_length_sc (gniEnv leaf_nodes interior_nodes) g sc n.children_ids ps hps ?_
      · rw [Option.some_inj]
        rw [hlen]
        rfl
      · intro opt hopt c hc ps2 hps2
        have hco : childOfAt (gniEnv leaf_nodes interior_nodes) id c := ⟨n, hn, opt, hopt, hc⟩
        have hcR : c ∈ R := childOfAt_mem_reach hreach hid hco
        obtain ⟨cn, hcn⟩ := enumPlans_lookup hps2
        by_cases hcleaf : cn.children_ids = []
        · have hnotint : ¬ isInternalAt (gniEnv leaf_nodes interior_nodes) c := by
            rintro ⟨n', hn', hne'⟩
            rw [hcn, Option.some_inj] at hn'
            exact hne' (hn' ▸ hcleaf)
          have : ¬ (dlookup sc c).isSome := by
            rw [hdom c]
            rintro ⟨_, hi⟩
            exact hnotint hi
          rw [Option.not_isSome_iff_eq_none] at this
          rw [this]
          cases g with
          | zero => simp [enumPlans] at hps2
          | succ g2 =>
            simp only [enumPlans, hcn, if_pos hcleaf, Option.some_inj] at hps2
            rw [← hps2]
            rfl
        · have hsome2 : (dlookup sc c).isSome :=
            (hdom c).mpr ⟨hcR, ⟨cn, hcn, hcleaf⟩⟩
          rcases hs2 : dlookup sc c with _ | k2
          · rw [hs2] at hsome2; simp at hsome2
          · have hv2 := hval c k2 hs2
            have : k2 = ps2.length := countIs_unique hv2 ⟨g, ps2, hps2, rfl⟩
            simp [this]

/-- Claim C2: on a collection satisfying the tree invariants,
`get_node_info` records for the root (and every reachable internal node) the
count given by the recursive definition — leaves count 1, an internal node
counts the sum over its options of the product of its children's counts, the
formula `recompute_node_size` evaluates over the returned map — and the
root's recorded count equals the number of distinct complete plans produced
by brute-force enumeration: the enumeration's length, all enumerated plans
being pairwise distinct as leaf-id sets. -/
theorem C2_root_count_equals_distinct_plans
    (leaf_nodes interior_nodes : List Node) (fuel : Nat) (root : Node)
    (R : List Nat) (sc pn : Dict Nat) (ps : List (List Nat))
    (hroot : findRoot interior_nodes = .ok root)
    (henv : dlookup (gniEnv leaf_nodes interior_nodes) root.id = some root)
    (hreach : reachIds (gniEnv leaf_nodes interior_nodes) fuel root.id = some R)
    (hnodup : R.Nodup)
    (hne : ∀ id ∈ R, ∀ n, dlookup (gniEnv leaf_nodes interior_nodes) id = some n →
      [] ∉ n.children_ids)
    (hrootint : root.children_ids ≠ [])
    (henum : enumPlans (gniEnv leaf_nodes interior_nodes) fuel root.id = some ps)
    (hrun : get_node_info leaf_nodes interior_nodes fuel = .ok (sc, pn)) :
    dlookup sc root.id = some ps.length ∧
    (ps.map List.toFinset).Nodup ∧
    (∀ id ∈ R, ∀ n, dlookup (gniEnv leaf_nodes interior_nodes) id = some n →
      n.children_ids ≠ [] → dlookup sc id = some (recompute_node_size sc n)) := by
  obtain ⟨hdom, hval⟩ :=
    get_node_info_sc_char leaf_nodes interior_nodes fuel root R sc pn hroot henv hreach hrun
  have hmem : root.id ∈ R := by
    obtain ⟨T, hT⟩ := reachIds_head hreach
    rw [hT]
    simp
  refine ⟨?_, ?_, ?_⟩
  · have hsome : (dlookup sc root.id).isSome :=
      (hdom root.id).mpr ⟨hmem, ⟨root, henv, hrootint⟩⟩
    rcases hs : dlookup sc root.id with _ | k
    · rw [hs] at hsome; simp at hsome
    · have hci := hval root.id k hs
      have : k = ps.length := countIs_unique hci ⟨fuel, ps, henum, rfl⟩
      rw [this]
  · exact enumPlans_toFinset_nodup fuel root.id R ps hreach hnodup hne henum
  · exact get_node_info_consistent leaf_nodes interior_nodes fuel root R sc pn
      hroot henv hreach hrun

theorem C2_root_count_equals_distinct_plans_witness :
    dlookup (scOf (get_node_info specLeaves specInternal 10)) 0 = some 2 ∧
    (([[3, 4], [5]] : List (List Nat)).map List.toFinset).Nodup ∧
    (∀ id ∈ [0, 3, 4, 5], ∀ n, dlookup (gniEnv specLeaves specInternal) id = some n →
      n.children_ids ≠ [] →
      dlookup (scOf (get_node_info specLeaves specInternal 10)) id =
        some (recompute_node_size (scOf (get_node_info specLeaves specInternal 10)) n)) :=
  C2_root_count_equals_distinct_plans specLeaves specInternal 10
    ⟨0, 2, true, [[3, 4], [5]]⟩ [0, 3, 4, 5]
    (scOf (get_node_info specLeaves specInternal 10))
    (pnOf (get_node_info specLeaves specInternal 10)) [[3, 4], [5]]
    (by decide) (by decide) (by decide) (by decide) (by decide) (by decide) (by decide) rfl

/-- Total version of the Python `max` model: the first element of maximal key
of a list, `(0, [])` on the empty list. -/
def pyMaxD : List (Int × List Nat) → Int × List Nat
  | [] => (0, [])
  | h :: t => pyMax h t

theorem pyMaxD_cons (x : Int × List Nat) (xs : List (Int × List Nat)) :
    pyMaxD (x :: xs) = pyMaxFold x xs := rfl

theorem pyMaxFold_append (l1 l2 : List (Int × List Nat)) :
    ∀ acc, pyMaxFold acc (l1 ++ l2) = pyMaxFold (pyMaxFold acc l1) l2 := by
  induction l1 with
  | nil => intro acc; rfl
  | cons x r ih => intro acc; simp only [List.cons_append, pyMaxFold]; exact ih _

theorem pyMaxFold_char (t : List (Int × List Nat)) :
    ∀ acc h, pyMaxFold acc (h :: t) =
      if (pyMax h t).1 > acc.1 then pyMax h t else acc := by
  induction t with
  | nil => intro acc h; simp [pyMaxFold, pyMax]
  | cons x r ih =>
    intro acc h
    show pyMaxFold (if h.1 > acc.1 then h else acc) (x :: r) = _
    rw [ih (if h.1 > acc.1 then h else acc) x]
    have hC : pyMax h (x :: r) = if (pyMax x r).1 > h.1 then pyMax x r else h := ih h x
    rw [hC]
    split_ifs <;> first | rfl | (exfalso; omega)

theorem pyMaxD_flatten_fold (bs : List (List (Int × List Nat)))
    (hne : ∀ b ∈ bs, b ≠ []) :
    ∀ acc, pyMaxFold acc bs.flatten = pyMaxFold acc (bs.map pyMaxD) := by
  induction bs with
  | nil => intro acc; rfl
  | cons b rest ih =>
    intro acc
    rcases hb : b with _ | ⟨h, t⟩
    · exact absurd hb (hne b (by simp))
    · subst hb
      simp only [List.flatten_cons, List.map_cons, List.cons_append]
      show pyMaxFold (if h.1 > acc.1 then h else acc) (t ++ rest.flatten) = _
      rw [pyMaxFold_append t rest.flatten]
      rw [ih (fun x hx => hne x (by simp [hx]))]
      show pyMaxFold (pyMaxFold acc (h :: t)) (rest.map pyMaxD) = _
      rw [pyMaxFold_char t acc h]
      rfl

theorem pyMaxD_flatten (bs : List (List (Int × List Nat)))
    (hne : ∀ b ∈ bs, b ≠ []) (hbs : bs ≠ []) :
    pyMaxD bs.flatten = pyMaxD (bs.map pyMaxD) := by
  rcases bs with _ | ⟨b0, rest⟩
  · exact absurd rfl hbs
  · rcases hb : b0 with _ | ⟨h, t⟩
    · exact absurd hb (hne b0 (by simp))
    · subst hb
      simp only [List.flatten_cons, List.map_cons, List.cons_append]
      rw [pyMaxD_cons, pyMaxD_cons]
      rw [pyMaxFold_append t rest.flatten h]
      rw [pyMaxD_flatten_fold rest (fun x hx => hne x (by simp [hx]))]
      rfl

theorem pyMaxFold_map_mono (g : Int × List Nat → Int × List Nat)
    (hg : ∀ a b, (g a).1 > (g b).1 ↔ a.1 > b.1) :
    ∀ xs acc, pyMaxFold (g acc) (xs.map g) = g (pyMaxFold acc xs) := by
  intro xs
  induction xs with
  | nil => intro acc; rfl
  | cons y r ih =>
    intro acc
    simp only [List.map_cons, pyMaxFold]
    have hif : (if (g y).1 > (g acc).1 then g y else g acc) =
        g (if y.1 > acc.1 then y else acc) := by
      by_cases h : y.1 > acc.1
      · rw [if_pos ((hg y acc).mpr h), if_pos h]
      · rw [if_neg (fun hc => h ((hg y acc).mp hc)), if_neg h]
    rw [hif]
    exact ih _

theorem pyMaxD_map_mono (g : Int × List Nat → Int × List Nat)
    (hg : ∀ a b, (g a).1 > (g b).1 ↔ a.1 > b.1)
    (x : Int × List Nat) (xs : List (Int × List Nat)) :
    pyMaxD ((x :: xs).map g) = g (pyMaxD (x :: xs)) := by
  simp only [List.map_cons, pyMaxD_cons]
  exact pyMaxFold_map_mono g hg xs x

theorem pyMaxFold_self_or_mem (xs : List (Int × List Nat)) :
    ∀ acc, pyMaxFold acc xs = acc ∨ pyMaxFold acc xs ∈ xs := by
  induction xs with
  | nil => intro acc; exact Or.inl rfl
  | cons y r ih =>
    intro acc
    simp only [pyMaxFold]
    rcases ih (if y.1 > acc.1 then y else acc) with h | h
    · rw [h]
      by_cases hc : y.1 > acc.1
      · rw [if_pos hc]; exact Or.inr (by simp)
      · rw [if_neg hc]; exact Or.inl rfl
    · exact Or.inr (by simp [h])

theorem pyMaxFold_ge_acc (xs : List (Int × List Nat)) :
    ∀ acc, acc.1 ≤ (pyMaxFold acc xs).1 := by
  induction xs with
  | nil => intro acc; exact le_refl _
  | cons y r ih =>
    intro acc
    simp only [pyMaxFold]
    refine le_trans ?_ (ih _)
    by_cases hc : y.1 > acc.1
    · rw [if_pos hc]; omega
    · rw [if_neg hc]

theorem pyMaxFold_ge_mem (xs : List (Int × List Nat)) :
    ∀ acc a, a ∈ xs → a.1 ≤ (pyMaxFold acc xs).1 := by
  induction xs with
  | nil => intro acc a ha; simp at ha
  | cons y r ih =>
    intro acc a ha
    simp only [pyMaxFold]
    rcases List.mem_cons.mp ha with ha | ha
    · subst ha
      refine le_trans ?_ (pyMaxFold_ge_acc r _)
      by_cases hc : a.1 > acc.1
      · rw [if_pos hc]
      · rw [if_neg hc]; omega
    · exact ih _ a ha

theorem planVal_append (obj : Nat → Int) (p q : List Nat) :
    planVal obj (p ++ q) = planVal obj p + planVal obj q := by
  simp [planVal]

theorem crossPlans_ne_nil : ∀ ls : List (List (List Nat)),
    (∀ l ∈ ls, l ≠ []) → crossPlans ls ≠ [] := by
  intro ls
  induction ls with
  | nil => intro _; simp [crossPlans]
  | cons l rest ih =>
    intro hne
    have hl : l ≠ [] := hne l (by simp)
    obtain ⟨a, ha⟩ := List.exists_mem_of_ne_nil l hl
    have hrest : crossPlans rest ≠ [] := ih (fun x hx => hne x (by simp [hx]))
    obtain ⟨q, hq⟩ := List.exists_mem_of_ne_nil _ hrest
    have : a ++ q ∈ crossPlans (l :: rest) := crossPlans_mem.mpr ⟨a, ha, q, hq, rfl⟩
    exact List.ne_nil_of_mem this

theorem enumChildren_ne {env : Dict Node} {f : Nat}
    (IH : ∀ nid ps, enumPlans env f nid = some ps → ps ≠ []) :
    ∀ cs ls, enumChildren (enumPlans env f) cs = some ls → ∀ l ∈ ls, l ≠ [] := by
  intro cs
  induction cs with
  | nil =>
    intro ls hen l hl
    simp only [enumChildren, Option.some_inj] at hen
    subst hen
    simp at hl
  | cons c restc ih =>
    intro ls hen l hl
    simp only [enumChildren] at hen
    rcases hec : enumPlans env f c with _ | psc
    · simp [hec] at hen
    · rcases her : enumChildren (enumPlans env f) restc with _ | ls'
      · simp [hec, her] at hen
      · simp only [hec, her, Option.some_inj] at hen
        subst hen
        rcases List.mem_cons.mp hl with hl | hl
        · subst hl; exact IH c l hec
        · exact ih ls' her l hl

theorem enumPlans_ne_nil {env : Dict Node} :
    ∀ f nid ps, enumPlans env f nid = some ps → ps ≠ [] := by
  intro f
  induction f with
  | zero => intro nid ps h; simp [enumPlans] at h
  | succ f ih =>
    intro nid ps h
    simp only [enumPlans] at h
    rcases he : dlookup env nid with _ | n
    · simp [he] at h
    · simp only [he] at h
      by_cases hleaf : n.children_ids = []
      · rw [if_pos hleaf, Option.some_inj] at h
        subst h
        simp
      · rw [if_neg hleaf] at h
        rcases hcs : n.children_ids with _ | ⟨opt, rest⟩
        · exact absurd hcs hleaf
        · rw [hcs] at h
          simp only [enumOptions] at h
          rcases hec : enumChildren (enumPlans env f) opt with _ | ls
          · simp [hec] at h
          · rcases her : enumOptions (enumPlans env f) rest with _ | rest'
            · simp [hec, her] at h
            · simp only [hec, her, Option.some_inj] at h
              subst h
              have hcr : crossPlans ls ≠ [] :=
                crossPlans_ne_nil ls (enumChildren_ne (fun nid2 ps2 h2 => ih nid2 ps2 h2)
                  opt ls hec)
              intro hcontra
              rw [List.append_eq_nil] at hcontra
              exact hcr hcontra.1

theorem pyMaxD_map_mono' (g : Int × List Nat → Int × List Nat)
    (hg : ∀ a b, (g a).1 > (g b).1 ↔ a.1 > b.1)
    (l : List (Int × List Nat)) (hl : l ≠ []) :
    pyMaxD (l.map g) = g (pyMaxD l) := by
  rcases l with _ | ⟨x, xs⟩
  · exact absurd rfl hl
  · exact pyMaxD_map_mono g hg x xs

theorem pyMaxD_cross_step (obj : Nat → Int) (psc A : List (List Nat))
    (hpsc : psc ≠ []) (hA : A ≠ []) :
    pyMaxD ((psc.flatMap (fun pc => A.map (fun q => pc ++ q))).map
      (fun p => (planVal obj p, p))) =
    ((pyMaxD (psc.map (fun p => (planVal obj p, p)))).1 +
       (pyMaxD (A.map (fun p => (planVal obj p, p)))).1,
     (pyMaxD (psc.map (fun p => (planVal obj p, p)))).2 ++
       (pyMaxD (A.map (fun p => (planVal obj p, p)))).2) := by
  have hstep1 : (psc.flatMap (fun pc => A.map (fun q => pc ++ q))).map
      (fun p => (planVal obj p, p)) =
      psc.flatMap (fun pc => (A.map (fun p => (planVal obj p, p))).map
        (fun r => (planVal obj pc + r.1, pc ++ r.2))) := by
    rw [List.map_flatMap]
    apply List.flatMap_congr
    intro pc _
    rw [List.map_map, List.map_map]
    apply List.map_congr_left
    intro q _
    simp [Function.comp, planVal_append]
  rw [hstep1]
  rw [List.flatMap_def]
  have hAne : A.map (fun p => (planVal obj p, p)) ≠ [] := by
    intro hc
    exact hA (List.map_eq_nil_iff.mp hc)
  rw [pyMaxD_flatten]
  rotate_left
  · intro b hb
    simp only [List.mem_map] at hb
    obtain ⟨pc, _, rfl⟩ := hb
    intro hc
    exact hAne (List.map_eq_nil_iff.mp hc)
  · intro hc
    exact hpsc (List.map_eq_nil_iff.mp hc)
  rw [List.map_map]
  have hstep4 : (List.map (pyMaxD ∘ fun pc =>
      (A.map (fun p => (planVal obj p, p))).map
        (fun r => (planVal obj pc + r.1, pc ++ r.2))) psc) =
      psc.map (fun pc =>
        (planVal obj pc + (pyMaxD (A.map (fun p => (planVal obj p, p)))).1,
         pc ++ (pyMaxD (A.map (fun p => (planVal obj p, p)))).2)) := by
    apply List.map_congr_left
    intro pc _
    simp only [Function.comp]
    rw [pyMaxD_map_mono' (fun r => (planVal obj pc + r.1, pc ++ r.2))
      (fun a b => by simp) _ hAne]
  rw [hstep4]
  have hstep5 : psc.map (fun pc =>
      (planVal obj pc + (pyMaxD (A.map (fun p => (planVal obj p, p)))).1,
       pc ++ (pyMaxD (A.map (fun p => (planVal obj p, p)))).2)) =
      (psc.map (fun p => (planVal obj p, p))).map
        (fun r => (r.1 + (pyMaxD (A.map (fun p => (planVal obj p, p)))).1,
          r.2 ++ (pyMaxD (A.map (fun p => (planVal obj p, p)))).2)) := by
    rw [List.map_map]
    rfl
  rw [hstep5]
  rw [pyMaxD_map_mono' _ (fun a b => by simp) _ (by
    intro hc
    exact hpsc (List.map_eq_nil_iff.mp hc))]

theorem pyMaxD_mem (x : Int × List Nat) (xs : List (Int × List Nat)) :
    pyMaxD (x :: xs) ∈ x :: xs := by
  rw [pyMaxD_cons]
  rcases pyMaxFold_self_or_mem xs x with h | h
  · rw [h]; simp
  · simp [h]

theorem pyMaxD_ge (x : Int × List Nat) (xs : List (Int × List Nat)) :
    ∀ a ∈ x :: xs, a.1 ≤ (pyMaxD (x :: xs)).1 := by
  intro a ha
  rw [pyMaxD_cons]
  rcases List.mem_cons.mp ha with ha | ha
  · subst ha; exact pyMaxFold_ge_acc xs a
  · exact pyMaxFold_ge_mem xs x a ha

theorem rqChildren_query {env : Dict Node} {objLookup : Nat → PyRes Int}
    {obj : Nat → Int} {f : Nat}
    (IH : ∀ nid cn ps, dlookup env nid = some cn → enumPlans env f nid = some ps →
      (∀ p ∈ ps, ∀ x ∈ p, objLookup x = .ok (obj x)) →
      recursive_query env objLookup f cn =
        .ok (pyMaxD (ps.map (fun p => (planVal obj p, p))))) :
    ∀ cs ls accV accL, enumChildren (enumPlans env f) cs = some ls →
      (∀ p ∈ crossPlans ls, ∀ x ∈ p, objLookup x = .ok (obj x)) →
      rqChildren env (recursive_query env objLookup f) cs accV accL =
        .ok (accV + (pyMaxD ((crossPlans ls).map (fun p => (planVal obj p, p)))).1,
             accL ++ (pyMaxD ((crossPlans ls).map (fun p => (planVal obj p, p)))).2) := by
  intro cs
  induction cs with
  | nil =>
    intro ls accV accL hen _
    simp only [enumChildren, Option.some_inj] at hen
    subst hen
    simp [rqChildren, crossPlans, pyMaxD, pyMax, pyMaxFold, planVal]
  | cons c restc ih =>
    intro ls accV accL hen hobj
    simp only [enumChildren] at hen
    rcases hec : enumPlans env f c with _ | psc
    · simp [hec] at hen
    · rcases her : enumChildren (enumPlans env f) restc with _ | ls'
      · simp [hec, her] at hen
      · simp only [hec, her, Option.some_inj] at hen
        subst hen
        obtain ⟨cnode, hcn⟩ := enumPlans_lookup hec
        have hpscne : psc ≠ [] := enumPlans_ne_nil f c psc hec
        have hcrossne : crossPlans ls' ≠ [] :=
          crossPlans_ne_nil ls'
            (enumChildren_ne (fun nid2 ps2 h2 => enumPlans_ne_nil f nid2 ps2 h2) restc ls' her)
        have hobj_c : ∀ p ∈ psc, ∀ x ∈ p, objLookup x = .ok (obj x) := by
          intro p hp x hx
          obtain ⟨q, hq⟩ := List.exists_mem_of_ne_nil _ hcrossne
          exact hobj (p ++ q) (crossPlans_mem.mpr ⟨p, hp, q, hq, rfl⟩) x
            (List.mem_append.mpr (Or.inl hx))
        have hobj_r : ∀ p ∈ crossPlans ls', ∀ x ∈ p, objLookup x = .ok (obj x) := by
          intro p hp x hx
          obtain ⟨pc, hpc⟩ := List.exists_mem_of_ne_nil _ hpscne
          exact hobj (pc ++ p) (crossPlans_mem.mpr ⟨pc, hpc, p, hp, rfl⟩) x
            (List.mem_append.mpr (Or.inr hx))
        have hrec := IH c cnode psc hcn hec hobj_c
        simp only [rqChildren, hcn, hrec, PyRes.bind_ok]
        rw [ih ls' _ _ her hobj_r]
        rw [show crossPlans (psc :: ls') =
          psc.flatMap (fun pc => (crossPlans ls').map (fun q => pc ++ q)) from rfl]
        rw [pyMaxD_cross_step obj psc (crossPlans ls') hpscne hcrossne]
        simp [Int.add_assoc, List.append_assoc]

theorem rqOptions_query {env : Dict Node} {objLookup : Nat → PyRes Int}
    {obj : Nat → Int} {f : Nat}
    (IH : ∀ nid cn ps, dlookup env nid = some cn → enumPlans env f nid = some ps →
      (∀ p ∈ ps, ∀ x ∈ p, objLookup x = .ok (obj x)) →
      recursive_query env objLookup f cn =
        .ok (pyMaxD (ps.map (fun p => (planVal obj p, p))))) :
    ∀ opts ps acc, enumOptions (enumPlans env f) opts = some ps →
      (∀ p ∈ ps, ∀ x ∈ p, objLookup x = .ok (obj x)) →
      ∃ bs : List (List (Int × List Nat)),
        rqOptions env (recursive_query env objLookup f) opts acc =
          .ok (acc ++ bs.map pyMaxD) ∧
        bs.flatten = ps.map (fun p => (planVal obj p, p)) ∧
        (∀ b ∈ bs, b ≠ []) ∧ bs.length = opts.length := by
  intro opts
  induction opts with
  | nil =>
    intro ps acc hen _
    simp only [enumOptions, Option.some_inj] at hen
    subst hen
    exact ⟨[], by simp [rqOptions], by simp, by simp, by simp⟩
  | cons opt rest ih =>
    intro ps acc hen hobj
    simp only [enumOptions] at hen
    rcases hec : enumChildren (enumPlans env f) opt with _ | ls
    · simp [hec] at hen
    · rcases her : enumOptions (enumPlans env f) rest with _ | rest'
      · simp [hec, her] at hen
      · simp only [hec, her, Option.some_inj] at hen
        subst hen
        have hobj_l : ∀ p ∈ crossPlans ls, ∀ x ∈ p, objLookup x = .ok (obj x) :=
          fun p hp x hx => hobj p (List.mem_append.mpr (Or.inl hp)) x hx
        have hobj_r : ∀ p ∈ rest', ∀ x ∈ p, objLookup x = .ok (obj x) :=
          fun p hp x hx => hobj p (List.mem_append.mpr (Or.inr hp)) x hx
        have hch := rqChildren_query IH opt ls 0 [] hec hobj_l
        obtain ⟨bs', hrun', hflat', hbne', hlen'⟩ :=
          ih rest' (acc ++ [pyMaxD ((crossPlans ls).map (fun p => (planVal obj p, p)))])
            her hobj_r
        refine ⟨(crossPlans ls).map (fun p => (planVal obj p, p)) :: bs', ?_, ?_, ?_, ?_⟩
        · simp only [rqOptions, hch, PyRes.bind_ok]
          rw [show ((0 : Int) + (pyMaxD ((crossPlans ls).map
              (fun p => (planVal obj p, p)))).1,
              ([] : List Nat) ++ (pyMaxD ((crossPlans ls).map
              (fun p => (planVal obj p, p)))).2) =
            pyMaxD ((crossPlans ls).map (fun p => (planVal obj p, p))) by simp]
          rw [hrun']
          simp [List.map_cons]
        · simp only [List.flatten_cons, hflat', List.map_append]
        · intro b hb
          rcases List.mem_cons.mp hb with hb | hb
          · subst hb
            have : crossPlans ls ≠ [] :=
              crossPlans_ne_nil ls
                (enumChildren_ne (fun nid2 ps2 h2 => enumPlans_ne_nil f nid2 ps2 h2)
                  opt ls hec)
            intro hc
            exact this (List.map_eq_nil_iff.mp hc)
          · exact hbne' b hb
        · simp [hlen']

theorem recursive_query_enum {env : Dict Node} {objLookup : Nat → PyRes Int}
    {obj : Nat → Int}
    (hwk : ∀ id n, dlookup env id = some n → n.id = id) :
    ∀ f nid cn ps, dlookup env nid = some cn → enumPlans env f nid = some ps →
      (∀ p ∈ ps, ∀ x ∈ p, objLookup x = .ok (obj x)) →
      recursive_query env objLookup f cn =
        .ok (pyMaxD (ps.map (fun p => (planVal obj p, p)))) := by
  intro f
  induction f with
  | zero => intro nid cn ps _ hen _; simp [enumPlans] at hen
  | succ f ih =>
    intro nid cn ps hn hen hobj
    have hnid : cn.id = nid := hwk nid cn hn
    simp only [enumPlans, hn] at hen
    by_cases hleaf : cn.children_ids = []
    · rw [if_pos hleaf, Option.some_inj] at hen
      subst hen
      have hol : objLookup nid = .ok (obj nid) := hobj [nid] (by simp) nid (by simp)
      simp only [recursive_query, if_pos hleaf, hnid, hol, PyRes.bind_ok]
      simp [pyMaxD, pyMax, pyMaxFold, planVal]
    · rw [if_neg hleaf] at hen
      obtain ⟨bs, hrun, hflat, hbne, hlen⟩ :=
        rqOptions_query (fun nid2 cn2 ps2 h1 h2 h3 => ih nid2 cn2 ps2 h1 h2 h3)
          cn.children_ids ps [] hen hobj
      simp only [recursive_query, if_neg hleaf, hrun, PyRes.bind_ok, List.nil_append]
      have hbsne : bs ≠ [] := by
        intro hc
        rw [hc] at hlen
        exact hleaf (List.length_eq_zero.mp hlen.symm)
      rcases hbs : bs.map pyMaxD with _ | ⟨h, t⟩
      · exact absurd (List.map_eq_nil_iff.mp hbs) hbsne
      · have : pyMax h t = pyMaxD (ps.map (fun p => (planVal obj p, p))) := by
          rw [← hflat, pyMaxD_flatten bs hbne hbsne, hbs]
          rfl
        show PyRes.ok (pyMax h t) = _
        rw [this]

/-- Claim C1: on a node collection satisfying the tree invariants, with the
leaf objective defined on every leaf reachable from the root, `query_tree`
returns the pair Python's `max` selects from the brute-force list of
(plan value, plan leaves) pairs — so the returned value is the true maximum
of the summed objective over all complete plans encodable by the tree, the
returned leaf list is a plan attaining it, and ties are broken in favour of
the first-encountered plan in option-list order, the `pyMaxD` of the
enumeration. -/
theorem C1_query_tree_optimal
    (leaf_nodes internal_nodes : List Node) (query_vals : List Int) (fuel : Nat)
    (root : Node) (ps : List (List Nat)) (obj : Nat → Int)
    (hroot : findRoot internal_nodes = .ok root)
    (henv : dlookup (gniEnv leaf_nodes internal_nodes) root.id = some root)
    (henum : enumPlans (gniEnv leaf_nodes internal_nodes) fuel root.id = some ps)
    (hobj : ∀ p ∈ ps, ∀ x ∈ p, leafLookup leaf_nodes query_vals x = .ok (obj x)) :
    ∃ v l, query_tree leaf_nodes internal_nodes query_vals fuel = .ok (v, l) ∧
      (v, l) = pyMaxD (ps.map (fun p => (planVal obj p, p))) ∧
      l ∈ ps ∧ planVal obj l = v ∧
      (∀ p ∈ ps, planVal obj p ≤ v) := by
  have hq := @recursive_query_enum (gniEnv leaf_nodes internal_nodes)
    (leafLookup leaf_nodes query_vals) obj
    (gniEnv_wk leaf_nodes internal_nodes) fuel root.id root ps henv henum hobj
  have hrun : query_tree leaf_nodes internal_nodes query_vals fuel =
      .ok (pyMaxD (ps.map (fun p => (planVal obj p, p)))) := by
    unfold query_tree
    rw [hroot]
    exact hq
  have hpsne : ps ≠ [] := enumPlans_ne_nil fuel root.id ps henum
  rcases hpairs : ps.map (fun p => (planVal obj p, p)) with _ | ⟨h, t⟩
  · exact absurd (List.map_eq_nil_iff.mp hpairs) hpsne
  · have hM := pyMaxD_mem h t
    rw [← hpairs] at hM
    simp only [List.mem_map] at hM
    obtain ⟨l0, hl0, hl0e⟩ := hM
    refine ⟨(pyMaxD (ps.map (fun p => (planVal obj p, p)))).1,
      (pyMaxD (ps.map (fun p => (planVal obj p, p)))).2, by rw [hrun], by simp [hpairs],
      ?_, ?_, ?_⟩
    · rw [← hl0e]; exact hl0
    · rw [← hl0e]
    · intro p hp
      have hmem : (planVal obj p, p) ∈ h :: t := by
        rw [← hpairs]
        exact List.mem_map_of_mem _ hp
      have := pyMaxD_ge h t (planVal obj p, p) hmem
      rw [← hpairs] at this
      exact this

/-- The objective vector of the depth-2 scenario, as a function of leaf id. -/
def specObj : Nat → Int := fun x => if x = 3 then 3 else if x = 4 then 5 else 10

theorem C1_query_tree_optimal_witness :
    ∃ v l, query_tree specLeaves specInternal [3, 5, 10] 10 = .ok (v, l) ∧
      (v, l) = pyMaxD (([[3, 4], [5]] : List (List Nat)).map
        (fun p => (planVal specObj p, p))) ∧
      l ∈ ([[3, 4], [5]] : List (List Nat)) ∧ planVal specObj l = v ∧
      (∀ p ∈ ([[3, 4], [5]] : List (List Nat)), planVal specObj p ≤ v) :=
  C1_query_tree_optimal specLeaves specInternal [3, 5, 10] 10
    ⟨0, 2, true, [[3, 4], [5]]⟩ [[3, 4], [5]] specObj
    (by decide) (by decide) (by decide) (by decide)

theorem prefixOf_refl {α : Type} (l : List α) : prefixOf l l := ⟨[], List.append_nil l⟩

theorem prefixOf_trans {α : Type} {l1 l2 l3 : List α}
    (h1 : prefixOf l1 l2) (h2 : prefixOf l2 l3) : prefixOf l1 l3 := by
  obtain ⟨t1, rfl⟩ := h1
  obtain ⟨t2, rfl⟩ := h2
  exact ⟨t1 ++ t2, (List.append_assoc _ _ _).symm⟩

theorem prefixOf_dropLast {α : Type} (l : List α) : prefixOf l.dropLast l := by
  rcases hl : l with _ | ⟨x, xs⟩
  · exact ⟨[], rfl⟩
  · exact ⟨[(x :: xs).getLast (by simp)], List.dropLast_append_getLast (by simp)⟩

theorem prefixOf_length_le {α : Type} {l1 l2 : List α} (h : prefixOf l1 l2) :
    l1.length ≤ l2.length := by
  obtain ⟨t, rfl⟩ := h
  simp

/-- One node dictionary is the other with some tails of option lists removed:
ids, sizes and root flags agree, every option list is a prefix of the old one,
and the key set is unchanged. -/
def envPrefix (enva envb : Dict Node) : Prop :=
  (∀ id n', dlookup envb id = some n' → ∃ n, dlookup enva id = some n ∧
    n'.id = n.id ∧ n'.n_districts = n.n_districts ∧ n'.is_root = n.is_root ∧
    prefixOf n'.children_ids n.children_ids) ∧
  (∀ id n, dlookup enva id = some n → ∃ n', dlookup envb id = some n')

theorem envPrefix_refl (env : Dict Node) : envPrefix env env :=
  ⟨fun id n' h => ⟨n', h, rfl, rfl, rfl, prefixOf_refl _⟩, fun id n h => ⟨n, h⟩⟩

theorem envPrefix_trans {env1 env2 env3 : Dict Node}
    (h1 : envPrefix env1 env2) (h2 : envPrefix env2 env3) : envPrefix env1 env3 := by
  constructor
  · intro id n' hl
    obtain ⟨n2, hn2, e1, e2, e3, hp⟩ := h2.1 id n' hl
    obtain ⟨n1, hn1, f1, f2, f3, hq⟩ := h1.1 id n2 hn2
    exact ⟨n1, hn1, e1.trans f1, e2.trans f2, e3.trans f3, prefixOf_trans hp hq⟩
  · intro id n hl
    obtain ⟨n2, hn2⟩ := h1.2 id n hl
    exact h2.2 id n2 hn2

theorem envPrefix_dset {env : Dict Node} {nid : Nat} {n : Node}
    (hn : dlookup env nid = some n) :
    envPrefix env
      (dset env nid ⟨n.id, n.n_districts, n.is_root, n.children_ids.dropLast⟩) := by
  constructor
  · intro id n' hl
    rw [dlookup_dset] at hl
    by_cases hid : id = nid
    · rw [if_pos hid, Option.some_inj] at hl
      subst hl
      subst hid
      exact ⟨n, hn, rfl, rfl, rfl, prefixOf_dropLast _⟩
    · rw [if_neg hid] at hl
      exact ⟨n', hl, rfl, rfl, rfl, prefixOf_refl _⟩
  · intro id n0 hl
    rw [dlookup_dset]
    by_cases hid : id = nid
    · rw [if_pos hid]; exact ⟨_, rfl⟩
    · rw [if_neg hid]; exact ⟨n0, hl⟩

theorem prunePass_envPrefix {pnm : Dict Nat} {pf rootId : Nat} {target : Int} :
    ∀ g env sc k env' sc' k',
      prunePass pnm pf rootId target g env sc k = .ok (env', sc', k') →
      envPrefix env env' := by
  intro g
  induction g with
  | nil =>
    intro env sc k env' sc' k' h
    simp only [prunePass, PyRes.ok.injEq, Prod.mk.injEq] at h
    obtain ⟨rfl, -, -⟩ := h
    exact envPrefix_refl env
  | cons nid rest ih =>
    intro env sc k env' sc' k' h
    rcases hrc : dlookup sc rootId with _ | rc
    · simp only [prunePass, hrc] at h
      exact PyRes.noConfusion h
    · simp only [prunePass, hrc] at h
      by_cases hle : (rc : Int) ≤ target
      · rw [if_pos hle] at h
        simp only [PyRes.ok.injEq, Prod.mk.injEq] at h
        obtain ⟨rfl, -, -⟩ := h
        exact envPrefix_refl env
      · rw [if_neg hle] at h
        rcases hn : dlookup env nid with _ | node
        · simp only [hn] at h
          exact PyRes.noConfusion h
        · simp only [hn] at h
          by_cases hlen : 1 < node.children_ids.length
          · rw [if_pos hlen] at h
            obtain ⟨sc1, hprop, hrest⟩ := PyRes.bind_eq_ok h
            exact envPrefix_trans (envPrefix_dset hn) (ih _ _ _ _ _ _ hrest)
          · rw [if_neg hlen] at h
            exact ih _ _ _ _ _ _ h

theorem pruneLoop_envPrefix {pnm : Dict Nat} {pf rootId : Nat} {target : Int}
    {groups : Nat → List Nat} :
    ∀ fuel size env sc env' sc',
      pruneLoop pnm pf rootId target groups fuel size env sc = .ok (env', sc') →
      envPrefix env env' := by
  intro fuel
  induction fuel with
  | zero => intro size env sc env' sc' h; exact PyRes.noConfusion h
  | succ f ih =>
    intro size env sc env' sc' h
    rcases hrc : dlookup sc rootId with _ | rc
    · simp only [pruneLoop, hrc] at h
      exact PyRes.noConfusion h
    · simp only [pruneLoop, hrc] at h
      by_cases hgt : target < (rc : Int)
      · rw [if_pos hgt] at h
        obtain ⟨⟨env1, sc1, nsk⟩, hpass, hrest⟩ := PyRes.bind_eq_ok h
        exact envPrefix_trans (prunePass_envPrefix _ _ _ _ _ _ _ hpass)
          (ih _ _ _ _ _ hrest)
      · rw [if_neg hgt] at h
        simp only [PyRes.ok.injEq, Prod.mk.injEq] at h
        obtain ⟨rfl, -⟩ := h
        exact envPrefix_refl env

/-- Claim C6: every pruning edit removes exactly the last option (by list
order) of the node being pruned — the node dictionary entry for that node is
replaced by the same node with `dropLast` of its option list, every other
entry untouched — and consequently after `prune_sample_space` every node's
option list is a prefix of its pre-prune list, other fields unchanged and no
node added or removed. -/
theorem C6_prune_edits_dropLast :
    (∀ (pnm : Dict Nat) (pf rootId : Nat) (target : Int) nid rest env sc k r,
      prunePass pnm pf rootId target (nid :: rest) env sc k = .ok r →
      r = (env, sc, k) ∨
      prunePass pnm pf rootId target rest env sc (k + 1) = .ok r ∨
      (∃ n sc1, dlookup env nid = some n ∧ 1 < n.children_ids.length ∧
        (∀ id, id ≠ nid →
          dlookup (dset env nid ⟨n.id, n.n_districts, n.is_root,
            n.children_ids.dropLast⟩) id = dlookup env id) ∧
        dlookup (dset env nid ⟨n.id, n.n_districts, n.is_root,
          n.children_ids.dropLast⟩) nid =
          some ⟨n.id, n.n_districts, n.is_root, n.children_ids.dropLast⟩ ∧
        prunePass pnm pf rootId target rest
          (dset env nid ⟨n.id, n.n_districts, n.is_root, n.children_ids.dropLast⟩)
          sc1 k = .ok r)) ∧
    (∀ (internal_nodes : List Node) (sc pn : Dict Nat) (t : Int)
      (groups : Nat → List Nat) (pfu fl : Nat) env' sc',
      prune_sample_space internal_nodes sc pn t groups pfu fl = .ok (env', sc') →
      envPrefix (idToNode internal_nodes) env') := by
  constructor
  · intro pnm pf rootId target nid rest env sc k r h
    rcases hrc : dlookup sc rootId with _ | rc
    · simp only [prunePass, hrc] at h
      exact PyRes.noConfusion h
    · simp only [prunePass, hrc] at h
      by_cases hle : (rc : Int) ≤ target
      · rw [if_pos hle] at h
        left
        exact ((PyRes.ok.injEq _ _).mp h).symm
      · rw [if_neg hle] at h
        rcases hn : dlookup env nid with _ | node
        · simp only [hn] at h
          exact PyRes.noConfusion h
        · simp only [hn] at h
          by_cases hlen : 1 < node.children_ids.length
          · rw [if_pos hlen] at h
            obtain ⟨sc1, hprop, hrest⟩ := PyRes.bind_eq_ok h
            right; right
            refine ⟨node, sc1, rfl, hlen, ?_, ?_, hrest⟩
            · intro id hid
              rw [dlookup_dset, if_neg hid]
            · rw [dlookup_dset, if_pos rfl]
          · rw [if_neg hlen] at h
            right; left
            exact h
  · intro internal_nodes sc pn t groups pfu fl env' sc' h
    rcases internal_nodes with _ | ⟨root, rest⟩
    · simp only [prune_sample_space] at h
      exact PyRes.noConfusion h
    · simp only [prune_sample_space] at h
      by_cases hr : root.is_root
      · rw [if_neg (by simp [hr])] at h
        by_cases ht : t ≤ 0
        · rw [if_pos ht] at h; exact PyRes.noConfusion h
        · rw [if_neg ht] at h
          exact pruneLoop_envPrefix fl 2 _ sc env' sc' h
      · rw [if_pos (by simp [hr])] at h
        exact PyRes.noConfusion h

theorem C6_prune_edits_dropLast_witness :
    envPrefix (idToNode c9Internal) (prEnv c9run) := by
  have h := C6_prune_edits_dropLast.2 c9Internal c9sc c9pn 11 (groupsOf c9Internal) 30 30
    (prEnv c9run) (prCnt c9run) (by rfl)
  exact h

/-- A node id is skinny in a node dictionary when its entry (if any) has at
most one partition option — the `else` branch of the pruning loop. -/
def skinnyAt (env : Dict Node) (id : Nat) : Prop :=
  ∀ n, dlookup env id = some n → n.children_ids.length ≤ 1

/-- The count dictionary agrees with `recompute_node_size` on every id of `W`
that has a node entry. -/
def cntConsistent (env : Dict Node) (sc : Dict Nat) (W : List Nat) : Prop :=
  ∀ id, id ∈ W → ∀ n, dlookup env id = some n →
    dlookup sc id = some (recompute_node_size sc n)

/-- Number of options that pruning may still remove: the sum over the given
ids of (option count − 1) of the id's entry.  Termination measure of the
pruning loop. -/
def removable (env : Dict Node) (intIds : List Nat) : Nat :=
  (intIds.map
    (fun id => ((dlookup env id).map (fun n => n.children_ids.length - 1)).getD 0)).sum

/-- Iterate the parent map: the position of the ancestor walk after `k`
steps, `none` once the walk has left the map. -/
def pnIter (pnm : Dict Nat) : Nat → Option Nat → Option Nat
  | 0, po => po
  | k + 1, po =>
    match po with
    | none => none
    | some x => pnIter pnm k (dlookup pnm x)

/-- An id lies somewhere on the ancestor walk starting at `po`. -/
def onWalk (pnm : Dict Nat) (po : Option Nat) (id : Nat) : Prop :=
  ∃ k, pnIter pnm k po = some id

theorem pnIter_none (pnm : Dict Nat) : ∀ k, pnIter pnm k none = none
  | 0 => rfl
  | k + 1 => by simp only [pnIter]

theorem pnIter_step (pnm : Dict Nat) (k : Nat) (x : Nat) :
    pnIter pnm (k + 1) (some x) = pnIter pnm k (dlookup pnm x) := rfl

theorem pnIter_succ_of_none {pnm : Dict Nat} :
    ∀ k po, pnIter pnm k po = none → pnIter pnm (k + 1) po = none := by
  intro k
  induction k with
  | zero =>
    intro po h
    simp only [pnIter] at h
    subst h
    exact pnIter_none pnm 1
  | succ m ih =>
    intro po h
    rcases po with _ | x
    · exact pnIter_none pnm (m + 2)
    · rw [pnIter_step] at h
      rw [pnIter_step]
      exact ih _ h

theorem pnIter_mono {pnm : Dict Nat} {k k' : Nat} (hle : k ≤ k') {po : Option Nat}
    (h : pnIter pnm k po = none) : pnIter pnm k' po = none := by
  induction hle with
  | refl => exact h
  | step _ ih => exact pnIter_succ_of_none _ _ ih

theorem onWalk_none {pnm : Dict Nat} {id : Nat} : ¬ onWalk pnm none id := by
  rintro ⟨k, hk⟩
  rw [pnIter_none] at hk
  exact Option.noConfusion hk

theorem onWalk_self {pnm : Dict Nat} {x : Nat} : onWalk pnm (some x) x := ⟨0, rfl⟩

theorem onWalk_tail {pnm : Dict Nat} {x id : Nat}
    (h : onWalk pnm (dlookup pnm x) id) : onWalk pnm (some x) id := by
  obtain ⟨k, hk⟩ := h
  exact ⟨k + 1, by rw [pnIter_step]; exact hk⟩

theorem onWalk_cases {pnm : Dict Nat} {x id : Nat} (h : onWalk pnm (some x) id) :
    id = x ∨ onWalk pnm (dlookup pnm x) id := by
  obtain ⟨k, hk⟩ := h
  rcases k with _ | m
  · left
    simp only [pnIter, Option.some_inj] at hk
    exact hk.symm
  · right
    rw [pnIter_step] at hk
    exact ⟨m, hk⟩

theorem reachInt_self_mem {env : Dict Node} :
    ∀ f nid R, reachInt env f nid = some R → nid ∈ R := by
  intro f nid R h
  rcases f with _ | f
  · exact Option.noConfusion h
  · rcases he : dlookup env nid with _ | n
    · simp only [reachInt, he, Option.some_inj] at h
      subst h
      simp
    · simp only [reachInt, he] at h
      by_cases hc : n.children_ids = []
      · rw [if_pos hc, Option.some_inj] at h
        subst h
        simp
      · rw [if_neg hc] at h
        rcases ho : reachOptions (reachInt env f) n.children_ids with _ | l
        · simp only [ho] at h
          exact Option.noConfusion h
        · simp only [ho, Option.some_inj] at h
          subst h
          simp

theorem reachCat_mem_decomp {r : Nat → Option (List Nat)} :
    ∀ cs L, reachCat r cs = some L → ∀ x, x ∈ L →
      ∃ c, c ∈ cs ∧ ∃ lc, r c = some lc ∧ x ∈ lc ∧ (∀ y ∈ lc, y ∈ L) := by
  intro cs
  induction cs with
  | nil =>
    intro L h x hx
    simp only [reachCat, Option.some_inj] at h
    subst h
    exact absurd hx (List.not_mem_nil x)
  | cons c rest ih =>
    intro L h x hx
    simp only [reachCat] at h
    rcases hc : r c with _ | lc
    · rw [hc] at h; exact Option.noConfusion h
    · rcases hr : reachCat r rest with _ | L'
      · rw [hc, hr] at h; exact Option.noConfusion h
      · rw [hc, hr, Option.some_inj] at h
        subst h
        rcases List.mem_append.mp hx with hx1 | hx2
        · exact ⟨c, by simp, lc, hc, hx1, fun y hy => List.mem_append.mpr (Or.inl hy)⟩
        · obtain ⟨c', hc', lc', hrc', hx', hsub⟩ := ih L' hr x hx2
          exact ⟨c', by simp [hc'], lc', hrc', hx',
            fun y hy => List.mem_append.mpr (Or.inr (hsub y hy))⟩

theorem reachOptions_mem_decomp {r : Nat → Option (List Nat)} :
    ∀ opts L, reachOptions r opts = some L → ∀ x, x ∈ L →
      ∃ opt, opt ∈ opts ∧ ∃ c, c ∈ opt ∧ ∃ lc, r c = some lc ∧ x ∈ lc ∧
        (∀ y ∈ lc, y ∈ L) := by
  intro opts
  induction opts with
  | nil =>
    intro L h x hx
    simp only [reachOptions, Option.some_inj] at h
    subst h
    exact absurd hx (List.not_mem_nil x)
  | cons opt rest ih =>
    intro L h x hx
    simp only [reachOptions] at h
    rcases hc : reachCat r opt with _ | l1
    · rw [hc] at h; exact Option.noConfusion h
    · rcases hr : reachOptions r rest with _ | l2
      · rw [hc, hr] at h; exact Option.noConfusion h
      · rw [hc, hr, Option.some_inj] at h
        subst h
        rcases List.mem_append.mp hx with hx1 | hx2
        · obtain ⟨c, hcm, lc, hrc, hxl, hsub⟩ := reachCat_mem_decomp opt l1 hc x hx1
          exact ⟨opt, by simp, c, hcm, lc, hrc, hxl,
            fun y hy => List.mem_append.mpr (Or.inl (hsub y hy))⟩
        · obtain ⟨opt', hom, c, hcm, lc, hrc, hxl, hsub⟩ := ih l2 hr x hx2
          exact ⟨opt', by simp [hom], c, hcm, lc, hrc, hxl,
            fun y hy => List.mem_append.mpr (Or.inr (hsub y hy))⟩

theorem reachCat_sub {r r' : Nat → Option (List Nat)}
    (hpt : ∀ c lc, r c = some lc → ∃ lc', r' c = some lc' ∧ List.Sublist lc' lc) :
    ∀ cs L, reachCat r cs = some L →
      ∃ L', reachCat r' cs = some L' ∧ List.Sublist L' L := by
  intro cs
  induction cs with
  | nil =>
    intro L h
    simp only [reachCat, Option.some_inj] at h
    subst h
    exact ⟨[], rfl, List.nil_sublist []⟩
  | cons c rest ih =>
    intro L h
    simp only [reachCat] at h
    rcases hc : r c with _ | lc
    · rw [hc] at h; exact Option.noConfusion h
    · rcases hr : reachCat r rest with _ | L2
      · rw [hc, hr] at h; exact Option.noConfusion h
      · rw [hc, hr, Option.some_inj] at h
        subst h
        obtain ⟨lc', hc', hsub1⟩ := hpt c lc hc
        obtain ⟨L2', hr', hsub2⟩ := ih L2 hr
        refine ⟨lc' ++ L2', ?_, List.Sublist.append hsub1 hsub2⟩
        simp only [reachCat, hc', hr']

theorem reachOptions_sub {r r' : Nat → Option (List Nat)}
    (hpt : ∀ c lc, r c = some lc → ∃ lc', r' c = some lc' ∧ List.Sublist lc' lc) :
    ∀ opts' opts L, prefixOf opts' opts → reachOptions r opts = some L →
      ∃ L', reachOptions r' opts' = some L' ∧ List.Sublist L' L := by
  intro opts'
  induction opts' with
  | nil =>
    intro opts L _ _
    exact ⟨[], rfl, List.nil_sublist L⟩
  | cons opt rest' ih =>
    intro opts L hpre h
    obtain ⟨t, rfl⟩ := hpre
    simp only [List.cons_append] at h
    simp only [reachOptions] at h
    rcases hc : reachCat r opt with _ | l1
    · rw [hc] at h; exact Option.noConfusion h
    · rcases hr : reachOptions r (rest' ++ t) with _ | l2
      · rw [hc, hr] at h; exact Option.noConfusion h
      · rw [hc, hr, Option.some_inj] at h
        subst h
        obtain ⟨l1', hc', hsub1⟩ := reachCat_sub hpt opt l1 hc
        obtain ⟨l2', hr', hsub2⟩ := ih (rest' ++ t) l2 ⟨t, rfl⟩ hr
        refine ⟨l1' ++ l2', ?_, List.Sublist.append hsub1 hsub2⟩
        simp only [reachOptions, hc', hr']

/-- Shrinking option lists (and changing nothing else) can only shrink the
reach list, and never destroys it. -/
theorem reachInt_shrink {env env' : Dict Node} (hrel : envPrefix env env') :
    ∀ f nid R, reachInt env f nid = some R →
      ∃ R', reachInt env' f nid = some R' ∧ List.Sublist R' R := by
  intro f
  induction f with
  | zero => intro nid R h; exact Option.noConfusion h
  | succ f ih =>
    intro nid R h
    rcases he : dlookup env nid with _ | n
    · simp only [reachInt, he, Option.some_inj] at h
      subst h
      have he' : dlookup env' nid = none := by
        rcases hx : dlookup env' nid with _ | n'
        · rfl
        · obtain ⟨n0, hn0, -⟩ := hrel.1 nid n' hx
          rw [he] at hn0
          exact Option.noConfusion hn0
      refine ⟨[nid], ?_, List.Sublist.refl _⟩
      simp only [reachInt, he']
    · obtain ⟨n', hn'⟩ := hrel.2 nid n he
      obtain ⟨n0, hn0, hid, hnd, hrt, hpre⟩ := hrel.1 nid n' hn'
      rw [he, Option.some_inj] at hn0
      subst hn0
      simp only [reachInt, he] at h
      by_cases hc : n.children_ids = []
      · rw [if_pos hc, Option.some_inj] at h
        subst h
        have hc' : n'.children_ids = [] := by
          rcases hpre with ⟨t, hp⟩
          rw [hc] at hp
          exact List.append_eq_nil.mp hp |>.1
        refine ⟨[nid], ?_, List.Sublist.refl _⟩
        simp [reachInt, hn', hc']
      · rw [if_neg hc] at h
        rcases ho : reachOptions (reachInt env f) n.children_ids with _ | l
        · simp only [ho] at h
          exact Option.noConfusion h
        · simp only [ho, Option.some_inj] at h
          subst h
          by_cases hc' : n'.children_ids = []
          · refine ⟨[nid], ?_, ?_⟩
            · simp [reachInt, hn', hc']
            · exact (List.nil_sublist l).cons₂ nid
          · obtain ⟨l', ho', hsub⟩ := reachOptions_sub
              (fun c lc hlc => ih c lc hlc) n'.children_ids n.children_ids l hpre ho
            refine ⟨nid :: l', ?_, hsub.cons₂ nid⟩
            simp only [reachInt, hn', if_neg hc', ho']

theorem recompute_congr {sc sc' : Dict Nat} {n : Node}
    (h : ∀ opt ∈ n.children_ids, ∀ c ∈ opt, dlookup sc' c = dlookup sc c) :
    recompute_node_size sc' n = recompute_node_size sc n := by
  unfold recompute_node_size
  congr 1
  refine List.map_congr_left ?_
  intro opt hopt
  congr 1
  refine List.map_congr_left ?_
  intro c hc
  rw [h opt hopt c hc]

theorem removable_le_of_envPrefix {env env' : Dict Node} (h : envPrefix env env')
    (intIds : List Nat) : removable env' intIds ≤ removable env intIds := by
  refine List.sum_le_sum ?_
  intro id _
  rcases hl : dlookup env' id with _ | n'
  · simp [hl]
  · obtain ⟨n, hn, -, -, -, hpre⟩ := h.1 id n' hl
    simp only [hl, hn, Option.map_some', Option.getD_some]
    exact Nat.sub_le_sub_right (prefixOf_length_le hpre) 1

theorem removable_dset_lt {env : Dict Node} {nid : Nat} {n n' : Node}
    {intIds : List Nat} (hmem : nid ∈ intIds) (hn : dlookup env nid = some n)
    (hlt : n'.children_ids.length < n.children_ids.length)
    (h2 : 1 < n.children_ids.length) :
    removable (dset env nid n') intIds < removable env intIds := by
  refine List.sum_lt_sum _ _ ?_ ⟨nid, hmem, ?_⟩
  · intro id _
    rw [dlookup_dset]
    by_cases hid : id = nid
    · rw [if_pos hid, hid, hn]
      simp only [Option.map_some', Option.getD_some]
      exact Nat.sub_le_sub_right (Nat.le_of_lt hlt) 1
    · rw [if_neg hid]
  · rw [dlookup_dset, if_pos rfl, hn]
    simp only [Option.map_some', Option.getD_some]
    omega

/-- Static facts about the prune inputs: the node dictionary `env0`, the id
list `intIds`, the parent map `pnm`, the root `rootId` with its preorder
reach list `W0` at fuel `F`.  These are the properties the parent map built
by `get_node_info` has over the reachable part of the tree. -/
structure PruneCtx (env0 : Dict Node) (intIds : List Nat) (pnm : Dict Nat)
    (rootId F : Nat) (W0 : List Nat) : Prop where
  dom1 : ∀ id n, dlookup env0 id = some n → id ∈ intIds
  ne0 : ∀ id n, dlookup env0 id = some n → n.children_ids ≠ []
  reach0 : reachInt env0 F rootId = some W0
  pn_exact : ∀ p, p ∈ W0 → ∀ n, dlookup env0 p = some n →
    ∀ opt ∈ n.children_ids, ∀ c ∈ opt, dlookup pnm c = some p
  pn_dom : ∀ c p, dlookup pnm c = some p → p ∈ W0 ∧ ∃ np, dlookup env0 p = some np
  pn_root : dlookup pnm rootId = none
  root_mem : ∃ rn, dlookup env0 rootId = some rn
  all_reach : ∀ id n, dlookup env0 id = some n → id ∈ W0

/-- The state invariant of the pruning loop: the current node dictionary is a
prefix-shrunk copy of the initial one with no option list emptied, the count
dictionary only mentions node ids, and the counts are consistent on the
current reach list, which stays inside the initial one. -/
structure PruneInv (env0 : Dict Node) (intIds : List Nat) (pnm : Dict Nat)
    (rootId F : Nat) (W0 : List Nat) (env : Dict Node) (sc : Dict Nat) : Prop where
  shrunk : envPrefix env0 env
  ne : ∀ id n, dlookup env id = some n → n.children_ids ≠ []
  scdom : ∀ k v, dlookup sc k = some v → ∃ n, dlookup env0 k = some n
  reach : ∃ W', reachInt env F rootId = some W' ∧ (∀ x, x ∈ W' → x ∈ W0)
  cons : cntConsistent env sc W0

theorem pn_of_child {env0 : Dict Node} {intIds : List Nat} {pnm : Dict Nat}
    {rootId F : Nat} {W0 : List Nat}
    (ctx : PruneCtx env0 intIds pnm rootId F W0) {env : Dict Node}
    (hshr : envPrefix env0 env) {p : Nat} (hp : p ∈ W0) {n : Node}
    (hn : dlookup env p = some n) {opt : List Nat} (hopt : opt ∈ n.children_ids)
    {c : Nat} (hc : c ∈ opt) : dlookup pnm c = some p := by
  obtain ⟨n0, hn0, -, -, -, hpre⟩ := hshr.1 p n hn
  obtain ⟨t, hext⟩ := hpre
  refine ctx.pn_exact p hp n0 hn0 opt ?_ c hc
  rw [← hext]
  exact List.mem_append.mpr (Or.inl hopt)

theorem walk_reach {env0 : Dict Node} {intIds : List Nat} {pnm : Dict Nat}
    {rootId F : Nat} {W0 : List Nat}
    (ctx : PruneCtx env0 intIds pnm rootId F W0) :
    ∀ f nid R D, reachInt env0 f nid = some R → nid ∈ W0 → (∀ x ∈ R, x ∈ W0) →
      pnIter pnm D (some nid) = none →
      ∀ c ∈ R, pnIter pnm (D + f) (some c) = none := by
  intro f
  induction f with
  | zero => intro nid R D h; exact Option.noConfusion h
  | succ f ih =>
    intro nid R D h hnid hRW hD c hc
    rcases he : dlookup env0 nid with _ | n
    · simp only [reachInt, he, Option.some_inj] at h
      subst h
      simp only [List.mem_singleton] at hc
      subst hc
      exact pnIter_mono (Nat.le_add_right D (f + 1)) hD
    · simp only [reachInt, he] at h
      by_cases hcn : n.children_ids = []
      · rw [if_pos hcn, Option.some_inj] at h
        subst h
        simp only [List.mem_singleton] at hc
        subst hc
        exact pnIter_mono (Nat.le_add_right D (f + 1)) hD
      · rw [if_neg hcn] at h
        rcases ho : reachOptions (reachInt env0 f) n.children_ids with _ | l
        · simp only [ho] at h
          exact Option.noConfusion h
        · simp only [ho, Option.some_inj] at h
          subst h
          rcases List.mem_cons.mp hc with hc0 | hcl
          · subst hc0
            exact pnIter_mono (Nat.le_add_right D (f + 1)) hD
          · obtain ⟨opt, hom, ci, hcm, lc, hrc, hcin, hsub⟩ :=
              reachOptions_mem_decomp n.children_ids l ho c hcl
            have hpn : dlookup pnm ci = some nid :=
              ctx.pn_exact nid hnid n he opt hom ci hcm
            have hci_mem : ci ∈ W0 := by
              refine hRW ci ?_
              exact List.mem_cons.mpr (Or.inr (hsub ci (reachInt_self_mem f ci lc hrc)))
            have hDci : pnIter pnm (D + 1) (some ci) = none := by
              rw [pnIter_step, hpn]
              exact hD
            have := ih ci lc (D + 1) hrc hci_mem
              (fun x hx => hRW x (List.mem_cons.mpr (Or.inr (hsub x hx)))) hDci c hcin
            have harith : D + 1 + f = D + (f + 1) := by omega
            rw [harith] at this
            exact this

/-- Every id on the initial reach list walks out of the parent map within
`F + 1` steps. -/
theorem walk_stat {env0 : Dict Node} {intIds : List Nat} {pnm : Dict Nat}
    {rootId F : Nat} {W0 : List Nat}
    (ctx : PruneCtx env0 intIds pnm rootId F W0) :
    ∀ c ∈ W0, pnIter pnm (1 + F) (some c) = none := by
  have hroot : pnIter pnm 1 (some rootId) = none := by
    rw [pnIter_step, ctx.pn_root]
    exact pnIter_none pnm 0
  exact walk_reach ctx F rootId W0 1 ctx.reach0
    (reachInt_self_mem F rootId W0 ctx.reach0) (fun x hx => hx) hroot

theorem propagate_ok {env0 : Dict Node} {intIds : List Nat} {pnm : Dict Nat}
    {rootId F : Nat} {W0 : List Nat}
    (ctx : PruneCtx env0 intIds pnm rootId F W0) {env : Dict Node}
    (hshr : envPrefix env0 env) {W' : List Nat} (hWsub : ∀ x ∈ W', x ∈ W0) :
    ∀ PF po sc,
      (∀ p, po = some p → p ∈ W0 ∧ ∃ np, dlookup env0 p = some np) →
      pnIter pnm PF po = none →
      (∀ id, id ∈ W' → ¬ onWalk pnm po id → ∀ n, dlookup env id = some n →
        dlookup sc id = some (recompute_node_size sc n)) →
      (∀ k v, dlookup sc k = some v → ∃ n, dlookup env0 k = some n) →
      ∃ sc', propagate env pnm PF po sc = .ok sc' ∧ cntConsistent env sc' W' ∧
        (∀ k v, dlookup sc' k = some v → ∃ n, dlookup env0 k = some n) := by
  intro PF
  induction PF with
  | zero =>
    intro po sc hpo hiter hinv hdom
    rcases po with _ | pid
    · exact ⟨sc, rfl, fun id hidW n hn => hinv id hidW onWalk_none n hn, hdom⟩
    · simp only [pnIter] at hiter
      exact Option.noConfusion hiter
  | succ PF ih =>
    intro po sc hpo hiter hinv hdom
    rcases po with _ | pid
    · exact ⟨sc, rfl, fun id hidW n hn => hinv id hidW onWalk_none n hn, hdom⟩
    · obtain ⟨hpid_mem, np0, hnp0⟩ := hpo pid rfl
      obtain ⟨pnode, hpnode⟩ := hshr.2 pid np0 hnp0
      rw [pnIter_step] at hiter
      have hpo' : ∀ p, dlookup pnm pid = some p →
          p ∈ W0 ∧ ∃ np, dlookup env0 p = some np :=
        fun p hp => ctx.pn_dom pid p hp
      have hinv' : ∀ id, id ∈ W' → ¬ onWalk pnm (dlookup pnm pid) id →
          ∀ n, dlookup env id = some n →
          dlookup (dset sc pid (recompute_node_size sc pnode)) id =
            some (recompute_node_size
              (dset sc pid (recompute_node_size sc pnode)) n) := by
        intro id hidW hnw n hn1
        by_cases hid : id = pid
        · subst hid
          rw [hpnode, Option.some_inj] at hn1
          subst hn1
          rw [dlookup_dset, if_pos rfl]
          have hcongr : recompute_node_size
              (dset sc id (recompute_node_size sc pnode)) pnode =
              recompute_node_size sc pnode := by
            refine recompute_congr ?_
            intro opt hopt c hc
            rw [dlookup_dset]
            by_cases hcpid : c = id
            · exfalso
              subst hcpid
              have hself : dlookup pnm c = some c :=
                pn_of_child ctx hshr hpid_mem hpnode hopt hc
              exact hnw ⟨0, hself⟩
            · rw [if_neg hcpid]
          rw [hcongr]
        · have hnw0 : ¬ onWalk pnm (some pid) id := by
            intro hw
            rcases onWalk_cases hw with h1 | h2
            · exact hid h1
            · exact hnw h2
          have hold := hinv id hidW hnw0 n hn1
          rw [dlookup_dset, if_neg hid]
          have hcongr : recompute_node_size
              (dset sc pid (recompute_node_size sc pnode)) n =
              recompute_node_size sc n := by
            refine recompute_congr ?_
            intro opt hopt c hc
            rw [dlookup_dset]
            by_cases hcpid : c = pid
            · exfalso
              subst hcpid
              have hself : dlookup pnm c = some id :=
                pn_of_child ctx hshr (hWsub id hidW) hn1 hopt hc
              exact hnw ⟨0, hself⟩
            · rw [if_neg hcpid]
          rw [hcongr, hold]
      have hdom' : ∀ k v,
          dlookup (dset sc pid (recompute_node_size sc pnode)) k = some v →
          ∃ n, dlookup env0 k = some n := by
        intro k v hk
        rw [dlookup_dset] at hk
        by_cases hkp : k = pid
        · subst hkp
          exact ⟨np0, hnp0⟩
        · rw [if_neg hkp] at hk
          exact hdom k v hk
      obtain ⟨sc', hrun, hcons, hdomF⟩ := ih (dlookup pnm pid)
        (dset sc pid (recompute_node_size sc pnode)) hpo' hiter hinv' hdom'
      refine ⟨sc', ?_, hcons, hdomF⟩
      simp only [propagate, hpnode]
      exact hrun

theorem reachCat_each {r : Nat → Option (List Nat)} :
    ∀ cs L, reachCat r cs = some L → ∀ c ∈ cs,
      ∃ lc, r c = some lc ∧ ∀ y ∈ lc, y ∈ L := by
  intro cs
  induction cs with
  | nil =>
    intro L _ c hc
    exact absurd hc (List.not_mem_nil c)
  | cons c0 rest ih =>
    intro L h c hc
    simp only [reachCat] at h
    rcases hc0 : r c0 with _ | lc0
    · rw [hc0] at h; exact Option.noConfusion h
    · rcases hr : reachCat r rest with _ | L2
      · rw [hc0, hr] at h; exact Option.noConfusion h
      · rw [hc0, hr, Option.some_inj] at h
        subst h
        rcases List.mem_cons.mp hc with rfl | hcr
        · exact ⟨lc0, hc0, fun y hy => List.mem_append.mpr (Or.inl hy)⟩
        · obtain ⟨lc, hlc, hsub⟩ := ih L2 hr c hcr
          exact ⟨lc, hlc, fun y hy => List.mem_append.mpr (Or.inr (hsub y hy))⟩

/-- When every node holds exactly one option, every recorded reachable count
is 1. -/
theorem count_one_aux {env : Dict Node} {sc : Dict Nat} {W' : List Nat}
    (hcons : cntConsistent env sc W')
    (hne : ∀ id n, dlookup env id = some n → n.children_ids ≠ [])
    (hskinny : ∀ id n, dlookup env id = some n → n.children_ids.length ≤ 1)
    (habs : ∀ c, dlookup env c = none → dlookup sc c = none) :
    ∀ f nid R, reachInt env f nid = some R → (∀ x ∈ R, x ∈ W') →
      ∀ n, dlookup env nid = some n → dlookup sc nid = some 1 := by
  intro f
  induction f with
  | zero => intro nid R h; exact Option.noConfusion h
  | succ f ih =>
    intro nid R h hsub n hn
    have hne' := hne nid n hn
    have hsk := hskinny nid n hn
    obtain ⟨opt, hopt⟩ : ∃ opt, n.children_ids = [opt] := by
      rcases hcl : n.children_ids with _ | ⟨o, rest⟩
      · exact absurd hcl hne'
      · rcases rest with _ | ⟨o2, r2⟩
        · exact ⟨o, rfl⟩
        · rw [hcl] at hsk
          simp at hsk
    simp only [reachInt, hn] at h
    rw [if_neg hne'] at h
    rcases ho : reachOptions (reachInt env f) n.children_ids with _ | l
    · simp only [ho] at h
      exact Option.noConfusion h
    · simp only [ho, Option.some_inj] at h
      subst h
      have hcat : ∃ l1, reachCat (reachInt env f) opt = some l1 ∧
          ∀ y ∈ l1, y ∈ l := by
        rw [hopt] at ho
        simp only [reachOptions] at ho
        rcases hc1 : reachCat (reachInt env f) opt with _ | l1
        · rw [hc1] at ho; exact Option.noConfusion ho
        · rw [hc1] at ho
          simp only [reachOptions, Option.some_inj] at ho
          refine ⟨l1, rfl, ?_⟩
          intro y hy
          rw [← ho]
          simp [hy]
      obtain ⟨l1, hc1, hl1sub⟩ := hcat
      have hchild : ∀ c ∈ opt, (dlookup sc c).getD 1 = 1 := by
        intro c hc
        obtain ⟨lc, hlc, hlcsub⟩ := reachCat_each opt l1 hc1 c hc
        rcases hec : dlookup env c with _ | cn
        · rw [habs c hec]
          rfl
        · have hsc1 := ih c lc hlc
            (fun x hx => hsub x (List.mem_cons.mpr (Or.inr (hl1sub x (hlcsub x hx)))))
            cn hec
          rw [hsc1]
          rfl
      have hrec : recompute_node_size sc n = 1 := by
        unfold recompute_node_size
        rw [hopt]
        simp only [List.map_cons, List.map_nil, List.sum_cons, List.sum_nil]
        have : (opt.map (fun c => (dlookup sc c).getD 1)).prod = 1 := by
          refine List.prod_eq_one ?_
          intro x hx
          obtain ⟨c, hcm, hcx⟩ := List.mem_map.mp hx
          rw [← hcx]
          exact hchild c hcm
        rw [this]
        rfl
      have hfin := hcons nid (hsub nid (by simp)) n hn
      rw [hrec] at hfin
      exact hfin

/-- One prune edit (drop the last option of `nid` and run the ancestor
update) succeeds and preserves the pruning invariant. -/
theorem pruneStep_inv {env0 : Dict Node} {intIds : List Nat} {pnm : Dict Nat}
    {rootId F : Nat} {W0 : List Nat} {pf : Nat}
    (ctx : PruneCtx env0 intIds pnm rootId F W0) (hpf : F + 1 ≤ pf)
    {env : Dict Node} {sc : Dict Nat} {nid : Nat} {node : Node}
    (inv : PruneInv env0 intIds pnm rootId F W0 env sc)
    (hn0ex : ∃ n0, dlookup env0 nid = some n0)
    (hn : dlookup env nid = some node)
    (hlen : 1 < node.children_ids.length) :
    ∃ sc2,
      propagate (dset env nid ⟨node.id, node.n_districts, node.is_root,
          node.children_ids.dropLast⟩) pnm pf (dlookup pnm nid)
        (dset sc nid (recompute_node_size sc ⟨node.id, node.n_districts,
          node.is_root, node.children_ids.dropLast⟩)) = .ok sc2 ∧
      PruneInv env0 intIds pnm rootId F W0
        (dset env nid ⟨node.id, node.n_districts, node.is_root,
          node.children_ids.dropLast⟩) sc2 := by
  obtain ⟨W', hW', hWsub⟩ := inv.reach
  have hcons := inv.cons
  obtain ⟨n0, hn0⟩ := hn0ex
  have henvPre : envPrefix env
      (dset env nid ⟨node.id, node.n_districts, node.is_root,
        node.children_ids.dropLast⟩) := envPrefix_dset hn
  have hshr2 : envPrefix env0
      (dset env nid ⟨node.id, node.n_districts, node.is_root,
        node.children_ids.dropLast⟩) := envPrefix_trans inv.shrunk henvPre
  obtain ⟨W2, hW2, hsubl⟩ := reachInt_shrink henvPre F rootId W' hW'
  have hW2sub : ∀ x ∈ W2, x ∈ W0 := fun x hx => hWsub x (hsubl.mem hx)
  have hiter : pnIter pnm pf (dlookup pnm nid) = none := by
    rcases hw : dlookup pnm nid with _ | p
    · exact pnIter_none pnm pf
    · have hpW0 := (ctx.pn_dom nid p hw).1
      exact pnIter_mono (by omega) (walk_stat ctx p hpW0)
  have hinvP : ∀ id, id ∈ W0 → ¬ onWalk pnm (dlookup pnm nid) id →
      ∀ n, dlookup (dset env nid ⟨node.id, node.n_districts, node.is_root,
        node.children_ids.dropLast⟩) id = some n →
      dlookup (dset sc nid (recompute_node_size sc ⟨node.id, node.n_districts,
        node.is_root, node.children_ids.dropLast⟩)) id =
      some (recompute_node_size (dset sc nid (recompute_node_size sc
        ⟨node.id, node.n_districts, node.is_root,
          node.children_ids.dropLast⟩)) n) := by
    intro id hidW0 hnw n hnd
    rw [dlookup_dset] at hnd
    by_cases hid : id = nid
    · rw [if_pos hid, Option.some_inj] at hnd
      subst hid
      subst hnd
      rw [dlookup_dset, if_pos rfl]
      have hcongr : recompute_node_size (dset sc id (recompute_node_size sc
          ⟨node.id, node.n_districts, node.is_root,
            node.children_ids.dropLast⟩))
          ⟨node.id, node.n_districts, node.is_root,
            node.children_ids.dropLast⟩ =
          recompute_node_size sc ⟨node.id, node.n_districts, node.is_root,
            node.children_ids.dropLast⟩ := by
        refine recompute_congr ?_
        intro opt hopt c hc
        rw [dlookup_dset]
        by_cases hcpid : c = id
        · exfalso
          subst hcpid
          have hoptmem : opt ∈ node.children_ids := by
            obtain ⟨t, ht⟩ := prefixOf_dropLast node.children_ids
            rw [← ht]
            exact List.mem_append.mpr (Or.inl hopt)
          have hself : dlookup pnm c = some c :=
            pn_of_child ctx inv.shrunk hidW0 hn hoptmem hc
          exact hnw ⟨0, hself⟩
        · rw [if_neg hcpid]
      rw [hcongr]
    · rw [if_neg hid] at hnd
      have hold := hcons id hidW0 n hnd
      rw [dlookup_dset, if_neg hid]
      have hcongr : recompute_node_size (dset sc nid (recompute_node_size sc
          ⟨node.id, node.n_districts, node.is_root,
            node.children_ids.dropLast⟩)) n = recompute_node_size sc n := by
        refine recompute_congr ?_
        intro opt hopt c hc
        rw [dlookup_dset]
        by_cases hcpid : c = nid
        · exfalso
          subst hcpid
          have hself : dlookup pnm c = some id :=
            pn_of_child ctx inv.shrunk hidW0 hnd hopt hc
          exact hnw ⟨0, hself⟩
        · rw [if_neg hcpid]
      rw [hcongr, hold]
  have hdomP : ∀ kk v, dlookup (dset sc nid (recompute_node_size sc
      ⟨node.id, node.n_districts, node.is_root,
        node.children_ids.dropLast⟩)) kk = some v →
      ∃ n, dlookup env0 kk = some n := by
    intro kk v hk
    rw [dlookup_dset] at hk
    by_cases hkp : kk = nid
    · subst hkp
      exact ⟨n0, hn0⟩
    · rw [if_neg hkp] at hk
      exact inv.scdom kk v hk
  obtain ⟨sc2, hprop, hcons2, hdom2⟩ := propagate_ok ctx hshr2
    (show ∀ x ∈ W0, x ∈ W0 from fun x hx => hx) pf
    (dlookup pnm nid)
    (dset sc nid (recompute_node_size sc ⟨node.id, node.n_districts,
      node.is_root, node.children_ids.dropLast⟩))
    (fun p hp => ctx.pn_dom nid p hp) hiter hinvP hdomP
  have hinv2 : PruneInv env0 intIds pnm rootId F W0
      (dset env nid ⟨node.id, node.n_districts, node.is_root,
        node.children_ids.dropLast⟩) sc2 := by
    refine ⟨hshr2, ?_, hdom2, ⟨W2, hW2, hW2sub⟩, hcons2⟩
    intro id n hnd
    rw [dlookup_dset] at hnd
    by_cases hid : id = nid
    · rw [if_pos hid, Option.some_inj] at hnd
      subst hnd
      intro hemp
      have hlen0 : node.children_ids.dropLast = [] := hemp
      have : node.children_ids.dropLast.length = 0 := by rw [hlen0]; rfl
      rw [List.length_dropLast] at this
      omega
    · rw [if_neg hid] at hnd
      exact inv.ne id n hnd
  exact ⟨sc2, hprop, hinv2⟩

theorem prunePass_spec {env0 : Dict Node} {intIds : List Nat} {pnm : Dict Nat}
    {rootId F : Nat} {W0 : List Nat} {target : Int} {pf : Nat}
    (ctx : PruneCtx env0 intIds pnm rootId F W0) (hpf : F + 1 ≤ pf) :
    ∀ g env sc k,
      (∀ id ∈ g, ∃ n0, dlookup env0 id = some n0) →
      PruneInv env0 intIds pnm rootId F W0 env sc →
      ∃ env' sc' k',
        prunePass pnm pf rootId target g env sc k = .ok (env', sc', k') ∧
        PruneInv env0 intIds pnm rootId F W0 env' sc' ∧
        envPrefix env env' ∧
        removable env' intIds ≤ removable env intIds ∧
        k' ≤ k + g.length ∧
        ( (removable env' intIds < removable env intIds ∧ k' < k + g.length)
        ∨ (env' = env ∧ sc' = sc ∧ k' = k + g.length ∧ ∀ id ∈ g, skinnyAt env id)
        ∨ (env' = env ∧ sc' = sc ∧
            ∃ rc, dlookup sc rootId = some rc ∧ (rc : Int) ≤ target) ) := by
  intro g
  induction g with
  | nil =>
    intro env sc k _ inv
    refine ⟨env, sc, k, rfl, inv, envPrefix_refl env, Nat.le_refl _, by simp, ?_⟩
    right; left
    exact ⟨rfl, rfl, by simp, by intro id h; exact absurd h (List.not_mem_nil id)⟩
  | cons nid rest ih =>
    intro env sc k hg inv
    obtain ⟨rnode0, hrn0⟩ := ctx.root_mem
    obtain ⟨rnode, hrn⟩ := inv.shrunk.2 rootId rnode0 hrn0
    have hrootW : rootId ∈ W0 := reachInt_self_mem F rootId W0 ctx.reach0
    have hrc : dlookup sc rootId = some (recompute_node_size sc rnode) :=
      inv.cons rootId hrootW rnode hrn
    by_cases hle : ((recompute_node_size sc rnode : Nat) : Int) ≤ target
    · refine ⟨env, sc, k, ?_, inv, envPrefix_refl env, Nat.le_refl _, by simp, ?_⟩
      · simp only [prunePass, hrc]
        rw [if_pos hle]
      · right; right
        exact ⟨rfl, rfl, recompute_node_size sc rnode, hrc, hle⟩
    · obtain ⟨n0, hn0⟩ := hg nid (by simp)
      obtain ⟨node, hn⟩ := inv.shrunk.2 nid n0 hn0
      by_cases hlen : 1 < node.children_ids.length
      · -- prune this node
        have henvPre : envPrefix env
            (dset env nid ⟨node.id, node.n_districts, node.is_root,
              node.children_ids.dropLast⟩) := envPrefix_dset hn
        obtain ⟨sc2, hprop, hinv2⟩ := pruneStep_inv ctx hpf inv
          ⟨n0, hn0⟩ hn hlen
        obtain ⟨env', sc', k', hrun', inv', henvp', hremle', hkle', hdisj'⟩ :=
          ih (dset env nid ⟨node.id, node.n_districts, node.is_root,
            node.children_ids.dropLast⟩) sc2 k
            (fun id h => hg id (by simp [h])) hinv2
        have hremlt : removable (dset env nid ⟨node.id, node.n_districts,
            node.is_root, node.children_ids.dropLast⟩) intIds <
            removable env intIds := by
          refine removable_dset_lt (ctx.dom1 nid n0 hn0) hn ?_ hlen
          simp only [List.length_dropLast]
          omega
        refine ⟨env', sc', k', ?_, inv', envPrefix_trans henvPre henvp',
          Nat.le_trans hremle' (Nat.le_of_lt hremlt), ?_, ?_⟩
        · simp only [prunePass, hrc]
          rw [if_neg hle]
          simp only [hn]
          rw [if_pos hlen, hprop, PyRes.bind_ok]
          exact hrun'
        · simp only [List.length_cons]
          omega
        · left
          constructor
          · exact Nat.lt_of_le_of_lt hremle' hremlt
          · simp only [List.length_cons]
            omega
      · -- skinny node
        obtain ⟨env', sc', k', hrun', inv', henvp', hremle', hkle', hdisj'⟩ :=
          ih env sc (k + 1) (fun id h => hg id (by simp [h])) inv
        have hskin : skinnyAt env nid := by
          intro n hn'
          rw [hn, Option.some_inj] at hn'
          subst hn'
          omega
        refine ⟨env', sc', k', ?_, inv', henvp', hremle', ?_, ?_⟩
        · simp only [prunePass, hrc]
          rw [if_neg hle]
          simp only [hn]
          rw [if_neg hlen]
          exact hrun'
        · simp only [List.length_cons]
          omega
        · rcases hdisj' with ⟨h1, h2⟩ | ⟨he, hs, hk, hall⟩ | ⟨he, hs, hrest⟩
          · left
            refine ⟨h1, ?_⟩
            simp only [List.length_cons]
            omega
          · right; left
            refine ⟨he, hs, ?_, ?_⟩
            · simp only [List.length_cons]
              omega
            · intro id hidm
              rcases List.mem_cons.mp hidm with rfl | hidr
              · exact hskin
              · exact hall id hidr
          · right; right
            exact ⟨he, hs, hrest⟩

theorem pruneLoop_spec {env0 : Dict Node} {intIds : List Nat} {pnm : Dict Nat}
    {rootId F : Nat} {W0 : List Nat} {target : Int} {pf maxS : Nat}
    {groups : Nat → List Nat}
    (ctx : PruneCtx env0 intIds pnm rootId F W0) (hpf : F + 1 ≤ pf)
    (htarget : 0 < target)
    (hmaxS : ∀ id n, dlookup env0 id = some n → n.n_districts ≤ maxS)
    (hg1 : ∀ s id, id ∈ groups s → ∃ n, dlookup env0 id = some n ∧ n.n_districts = s)
    (hg2 : ∀ s id n, dlookup env0 id = some n → n.n_districts = s → id ∈ groups s) :
    ∀ fuel size env sc,
      PruneInv env0 intIds pnm rootId F W0 env sc →
      removable env intIds + (maxS + 1 - size) < fuel →
      (∀ id n, dlookup env id = some n → n.n_districts < size →
        n.children_ids.length ≤ 1) →
      ∃ env' sc',
        pruneLoop pnm pf rootId target groups fuel size env sc = .ok (env', sc') ∧
        PruneInv env0 intIds pnm rootId F W0 env' sc' ∧ envPrefix env env' ∧
        ∃ rc, dlookup sc' rootId = some rc ∧ (rc : Int) ≤ target := by
  intro fuel
  induction fuel with
  | zero =>
    intro size env sc _ hfuel _
    omega
  | succ f ih =>
    intro size env sc inv hfuel hbelow
    obtain ⟨W', hW', hWsub⟩ := inv.reach
    obtain ⟨rnode0, hrn0⟩ := ctx.root_mem
    obtain ⟨rnode, hrn⟩ := inv.shrunk.2 rootId rnode0 hrn0
    have hrootW : rootId ∈ W0 := reachInt_self_mem F rootId W0 ctx.reach0
    have hrc : dlookup sc rootId = some (recompute_node_size sc rnode) :=
      inv.cons rootId hrootW rnode hrn
    by_cases hgt : target < ((recompute_node_size sc rnode : Nat) : Int)
    · have hgmem : ∀ id ∈ groups size, ∃ n0, dlookup env0 id = some n0 := by
        intro id h
        obtain ⟨n, hn, -⟩ := hg1 size id h
        exact ⟨n, hn⟩
      obtain ⟨env1, sc1, k1, hpassrun, inv1, henvp1, hremle1, hkle1, hdisj⟩ :=
        prunePass_spec ctx hpf (groups size) env sc 0 hgmem inv
      rcases hdisj with ⟨hremlt, hklt⟩ | ⟨henv_eq, hsc_eq, hk_eq, hall⟩ |
          ⟨henv_eq, hsc_eq, rc2, hrc2, hle2⟩
      · -- at least one prune happened: size unchanged
        have hkne : k1 ≠ (groups size).length := by omega
        have hbelow1 : ∀ id n, dlookup env1 id = some n → n.n_districts < size →
            n.children_ids.length ≤ 1 := by
          intro id n hn1 hsz
          obtain ⟨m, hm, -, hnd, -, hpre⟩ := henvp1.1 id n hn1
          have := hbelow id m hm (by omega)
          have hlenle := prefixOf_length_le hpre
          omega
        obtain ⟨env', sc', hrun2, inv', henvp2, hrcfin⟩ :=
          ih size env1 sc1 inv1 (by omega) hbelow1
        refine ⟨env', sc', ?_, inv', envPrefix_trans henvp1 henvp2, hrcfin⟩
        simp only [pruneLoop, hrc]
        rw [if_pos hgt, hpassrun, PyRes.bind_ok]
        simp only
        rw [if_neg hkne]
        exact hrun2
      · -- all of the group was skinny: advance the size
        subst henv_eq
        subst hsc_eq
        have hsize_le : size ≤ maxS := by
          by_contra hsgt
          have hallsk : ∀ id n, dlookup env1 id = some n →
              n.children_ids.length ≤ 1 := by
            intro id n hn1
            obtain ⟨m, hm, -, hnd, -, -⟩ := inv1.shrunk.1 id n hn1
            have := hmaxS id m hm
            exact hbelow id n hn1 (by omega)
          have habs : ∀ c, dlookup env1 c = none → dlookup sc1 c = none := by
            intro c hc
            rcases hv : dlookup sc1 c with _ | v
            · rfl
            · obtain ⟨m, hm⟩ := inv1.scdom c v hv
              obtain ⟨m', hm'⟩ := inv1.shrunk.2 c m hm
              rw [hc] at hm'
              exact Option.noConfusion hm'
          have hone := count_one_aux inv.cons inv1.ne hallsk habs F rootId W' hW'
            hWsub rnode hrn
          rw [hrc, Option.some_inj] at hone
          rw [hone] at hgt
          omega
        have hkeq' : k1 = (groups size).length := by omega
        have hbelow1 : ∀ id n, dlookup env1 id = some n →
            n.n_districts < size + 1 → n.children_ids.length ≤ 1 := by
          intro id n hn1 hsz
          by_cases hlt : n.n_districts < size
          · exact hbelow id n hn1 hlt
          · have hndeq : n.n_districts = size := by omega
            obtain ⟨m, hm, -, hnd, -, -⟩ := inv1.shrunk.1 id n hn1
            have hmem : id ∈ groups size := hg2 size id m hm (by omega)
            exact hall id hmem n hn1
        obtain ⟨env', sc', hrun2, inv', henvp2, hrcfin⟩ :=
          ih (size + 1) env1 sc1 inv1 (by omega) hbelow1
        refine ⟨env', sc', ?_, inv', henvp2, hrcfin⟩
        simp only [pruneLoop, hrc]
        rw [if_pos hgt, hpassrun, PyRes.bind_ok]
        simp only
        rw [if_pos hkeq']
        exact hrun2
      · -- pass claims the target was already met: contradicts the guard
        subst hsc_eq
        rw [hrc, Option.some_inj] at hrc2
        subst hrc2
        omega
    · refine ⟨env, sc, ?_, inv, envPrefix_refl env,
        recompute_node_size sc rnode, hrc, by omega⟩
      simp only [pruneLoop, hrc]
      rw [if_neg hgt]

theorem pruneLoop_fuel_mono {pnm : Dict Nat} {pf rootId : Nat} {target : Int}
    {groups : Nat → List Nat} :
    ∀ fuel fuel', fuel ≤ fuel' → ∀ size env sc r,
      pruneLoop pnm pf rootId target groups fuel size env sc = .ok r →
      pruneLoop pnm pf rootId target groups fuel' size env sc = .ok r := by
  intro fuel
  induction fuel with
  | zero =>
    intro fuel' _ size env sc r h
    exact PyRes.noConfusion h
  | succ f ih =>
    intro fuel' hle size env sc r h
    rcases fuel' with _ | f'
    · omega
    · rcases hrc : dlookup sc rootId with _ | rc
      · simp only [pruneLoop, hrc] at h
        exact PyRes.noConfusion h
      · simp only [pruneLoop, hrc] at h ⊢
        by_cases hgt : target < (rc : Int)
        · rw [if_pos hgt] at h ⊢
          rcases hpass : prunePass pnm pf rootId target (groups size) env sc 0 with
            r1 | _ | _ | _ | _ | _
          · rw [hpass] at h
            rw [PyRes.bind_ok] at h ⊢
            exact ih f' (by omega) _ _ _ r h
          · rw [hpass] at h
            exact PyRes.noConfusion h
          · rw [hpass] at h
            exact PyRes.noConfusion h
          · rw [hpass] at h
            exact PyRes.noConfusion h
          · rw [hpass] at h
            exact PyRes.noConfusion h
          · rw [hpass] at h
            exact PyRes.noConfusion h
        · rw [if_neg hgt] at h ⊢
          exact h

theorem dlookup_prop_of_entries {α : Type} {m : Dict α} {P : Nat → α → Prop}
    (h : ∀ p ∈ m, P p.1 p.2) : ∀ k v, dlookup m k = some v → P k v :=
  fun k v hk => h (k, v) (dlookup_mem hk)

theorem cntConsistent_of_dec {env : Dict Node} {sc : Dict Nat} {W : List Nat}
    (h : ∀ id ∈ W, ∀ n ∈ (dlookup env id).toList,
      dlookup sc id = some (recompute_node_size sc n)) :
    cntConsistent env sc W := by
  intro id hid n hn
  refine h id hid n ?_
  rw [hn]
  simp

theorem pn_exact_of_dec {env0 : Dict Node} {pnm : Dict Nat} {W0 : List Nat}
    (h : ∀ p ∈ W0, ∀ n ∈ (dlookup env0 p).toList,
      ∀ opt ∈ n.children_ids, ∀ c ∈ opt, dlookup pnm c = some p) :
    ∀ p, p ∈ W0 → ∀ n, dlookup env0 p = some n →
      ∀ opt ∈ n.children_ids, ∀ c ∈ opt, dlookup pnm c = some p := by
  intro p hp n hn
  refine h p hp n ?_
  rw [hn]
  simp

theorem idToNode_foldl_frame :
    ∀ (t : List Node) (m : Dict Node) (k : Nat), k ∉ t.map (fun n => n.id) →
      dlookup (t.foldl (fun m n => dset m n.id n) m) k = dlookup m k := by
  intro t
  induction t with
  | nil => intro m k _; rfl
  | cons a rest ih =>
    intro m k hk
    simp only [List.map_cons, List.mem_cons] at hk
    push_neg at hk
    simp only [List.foldl_cons]
    rw [ih (dset m a.id a) k hk.2, dlookup_dset, if_neg hk.1]

theorem idToNode_lookup_self :
    ∀ (l : List Node) (m : Dict Node), (l.map (fun n => n.id)).Nodup →
      ∀ n ∈ l, dlookup (l.foldl (fun m n => dset m n.id n) m) n.id = some n := by
  intro l
  induction l with
  | nil => intro m _ n hn; exact absurd hn (List.not_mem_nil n)
  | cons a rest ih =>
    intro m hnd n hn
    simp only [List.map_cons, List.nodup_cons] at hnd
    simp only [List.foldl_cons]
    rcases List.mem_cons.mp hn with rfl | hrest
    · rw [idToNode_foldl_frame rest (dset m n.id n) n.id hnd.1, dlookup_dset,
        if_pos rfl]
    · exact ih (dset m a.id a) hnd.2 n hrest

theorem dlookup_idToNode_self {l : List Node} (hnd : (l.map (fun n => n.id)).Nodup)
    {n : Node} (hn : n ∈ l) : dlookup (idToNode l) n.id = some n :=
  idToNode_lookup_self l [] hnd n hn

theorem groupsOf_sound {l : List Node} (hnd : (l.map (fun n => n.id)).Nodup) :
    ∀ s id, id ∈ groupsOf l s →
      ∃ n, dlookup (idToNode l) id = some n ∧ n.n_districts = s := by
  intro s id hid
  simp only [groupsOf, List.mem_map] at hid
  obtain ⟨n, hnf, hnid⟩ := hid
  have hmem := List.mem_of_mem_filter hnf
  have hsz := List.of_mem_filter hnf
  simp only [beq_iff_eq] at hsz
  subst hnid
  exact ⟨n, dlookup_idToNode_self hnd hmem, hsz⟩

theorem idToNode_lookup_mem {l : List Node} {id : Nat} {n : Node}
    (h : dlookup (idToNode l) id = some n) : n ∈ l := by
  have := dlookup_mem h
  simp only [idToNode] at this
  have haux : ∀ (t : List Node) (m : Dict Node) p,
      p ∈ t.foldl (fun m n => dset m n.id n) m → p ∈ m ∨ p.2 ∈ t := by
    intro t
    induction t with
    | nil => intro m p hp; exact Or.inl hp
    | cons a rest ih =>
      intro m p hp
      simp only [List.foldl_cons] at hp
      rcases ih (dset m a.id a) p hp with hm | ht
      · rcases List.mem_cons.mp hm with rfl | hm'
        · exact Or.inr (by simp)
        · exact Or.inl hm'
      · exact Or.inr (by simp [ht])
  rcases haux l [] (id, n) this with hnil | hmem
  · exact absurd hnil (List.not_mem_nil _)
  · exact hmem

theorem groupsOf_complete {l : List Node} :
    ∀ s id n, dlookup (idToNode l) id = some n → n.n_districts = s →
      id ∈ groupsOf l s := by
  intro s id n hn hsz
  have hmem := idToNode_lookup_mem hn
  have hid := dlookup_idToNode_id hn
  simp only [groupsOf, List.mem_map]
  refine ⟨n, ?_, hid⟩
  refine List.mem_filter.mpr ⟨hmem, ?_⟩
  simp [hsz]

theorem prune_sample_space_spec {root : Node} {rest : List Node}
    {intIds : List Nat} {pnm sc0 : Dict Nat} {F maxS pf : Nat} {W0 : List Nat}
    {target : Int} {groups : Nat → List Nat}
    (ctx : PruneCtx (idToNode (root :: rest)) intIds pnm root.id F W0)
    (hroot : root.is_root = true) (htarget : 0 < target) (hpf : F + 1 ≤ pf)
    (hsz2 : ∀ id n, dlookup (idToNode (root :: rest)) id = some n →
      2 ≤ n.n_districts)
    (hmaxS : ∀ id n, dlookup (idToNode (root :: rest)) id = some n →
      n.n_districts ≤ maxS)
    (hmax2 : 2 ≤ maxS)
    (hg1 : ∀ s id, id ∈ groups s →
      ∃ n, dlookup (idToNode (root :: rest)) id = some n ∧ n.n_districts = s)
    (hg2 : ∀ s id n, dlookup (idToNode (root :: rest)) id = some n →
      n.n_districts = s → id ∈ groups s)
    (hscdom0 : ∀ k v, dlookup sc0 k = some v →
      ∃ n, dlookup (idToNode (root :: rest)) k = some n)
    (hcons0 : cntConsistent (idToNode (root :: rest)) sc0 W0) :
    ∀ fuel, removable (idToNode (root :: rest)) intIds + maxS ≤ fuel →
      ∃ env' sc' rc,
        prune_sample_space (root :: rest) sc0 pnm target groups pf fuel =
          .ok (env', sc') ∧
        PruneInv (idToNode (root :: rest)) intIds pnm root.id F W0 env' sc' ∧
        envPrefix (idToNode (root :: rest)) env' ∧
        dlookup sc' root.id = some rc ∧ (rc : Int) ≤ target := by
  intro fuel hfuel
  have hbelow2 : ∀ id n, dlookup (idToNode (root :: rest)) id = some n →
      n.n_districts < 2 → n.children_ids.length ≤ 1 := by
    intro id n hn hlt
    exact absurd (hsz2 id n hn) (by omega)
  obtain ⟨env', sc', hrun, inv', henvp, rc, hrc, hrcle⟩ :=
    pruneLoop_spec ctx hpf htarget hmaxS hg1 hg2 fuel 2
      (idToNode (root :: rest)) sc0
      ⟨envPrefix_refl _, ctx.ne0, hscdom0, ⟨W0, ctx.reach0, fun x hx => hx⟩, hcons0⟩
      (by omega) hbelow2
  refine ⟨env', sc', rc, ?_, inv', henvp, hrc, hrcle⟩
  simp only [prune_sample_space]
  rw [if_neg (by simp [hroot]), if_neg (by omega)]
  exact hrun

/-- Claim C3 (corrected).  The code requires the single root to be the FIRST
element of the collection (`C3_counterexample`: a collection whose only root
is not first raises AssertionError).  With the root first, target ≥ 1, every
internal region size between 2 and `maxS`, and count/parent maps with the
properties `compute_plan_counts` establishes (counts consistent on the
reachable part, parent map sending each reachable child occurrence to its
unique parent and the root to nothing), pruning terminates normally and
returns the mutated collection in which the root's recorded plan count is
≤ the target and every node's option count is ≤ its option count before. -/
theorem C3_prune_terminates_and_shrinks {root : Node} {rest : List Node}
    {intIds : List Nat} {pnm sc0 : Dict Nat} {F maxS pf : Nat} {W0 : List Nat}
    {target : Int} {groups : Nat → List Nat}
    (ctx : PruneCtx (idToNode (root :: rest)) intIds pnm root.id F W0)
    (hroot : root.is_root = true) (htarget : 0 < target) (hpf : F + 1 ≤ pf)
    (hsz2 : ∀ id n, dlookup (idToNode (root :: rest)) id = some n →
      2 ≤ n.n_districts)
    (hmaxS : ∀ id n, dlookup (idToNode (root :: rest)) id = some n →
      n.n_districts ≤ maxS)
    (hmax2 : 2 ≤ maxS)
    (hperm : ∀ s, List.Perm (groups s) (groupsOf (root :: rest) s))
    (hnd : ((root :: rest).map (fun n => n.id)).Nodup)
    (hscdom0 : ∀ k v, dlookup sc0 k = some v →
      ∃ n, dlookup (idToNode (root :: rest)) k = some n)
    (hcons0 : cntConsistent (idToNode (root :: rest)) sc0 W0) :
    ∀ fuel, removable (idToNode (root :: rest)) intIds + maxS ≤ fuel →
      ∃ env' sc' rc,
        prune_sample_space (root :: rest) sc0 pnm target groups pf fuel =
          .ok (env', sc') ∧
        dlookup sc' root.id = some rc ∧ (rc : Int) ≤ target ∧
        (∀ id n', dlookup env' id = some n' →
          ∃ n, dlookup (idToNode (root :: rest)) id = some n ∧
            n'.children_ids.length ≤ n.children_ids.length ∧
            prefixOf n'.children_ids n.children_ids) := by
  intro fuel hfuel
  have hg1 : ∀ s id, id ∈ groups s →
      ∃ n, dlookup (idToNode (root :: rest)) id = some n ∧ n.n_districts = s :=
    fun s id h => groupsOf_sound hnd s id ((hperm s).mem_iff.mp h)
  have hg2 : ∀ s id n, dlookup (idToNode (root :: rest)) id = some n →
      n.n_districts = s → id ∈ groups s :=
    fun s id n hn hsz => (hperm s).mem_iff.mpr (groupsOf_complete s id n hn hsz)
  obtain ⟨env', sc', rc, hrun, inv', henvp, hrc, hrcle⟩ :=
    prune_sample_space_spec ctx hroot htarget hpf hsz2 hmaxS hmax2 hg1 hg2
      hscdom0 hcons0 fuel hfuel
  refine ⟨env', sc', rc, hrun, hrc, hrcle, ?_⟩
  intro id n' hn'
  obtain ⟨n, hn, -, -, -, hpre⟩ := henvp.1 id n' hn'
  exact ⟨n, hn, prefixOf_length_le hpre, hpre⟩

def c35root : Node := ⟨0, 4, true, [[1], [2]]⟩

def c35rest : List Node :=
  [⟨1, 2, false, [[6], [7]]⟩, ⟨2, 2, false, [[8], [9]]⟩]

/-- A depth-2 collection for the pruning theorems: root of size 4 with two
options, two internal children of size 2 with two options each, leaves
6–9. -/
def c35Internal : List Node := c35root :: c35rest

def c35Leaves : List Node :=
  [⟨6, 1, false, []⟩, ⟨7, 1, false, []⟩, ⟨8, 1, false, []⟩, ⟨9, 1, false, []⟩]

def c35sc : Dict Nat := scOf (get_node_info c35Leaves c35Internal 20)

def c35pn : Dict Nat := pnOf (get_node_info c35Leaves c35Internal 20)

def c35W0 : List Nat := [0, 1, 6, 7, 2, 8, 9]

theorem c35ctx : PruneCtx (idToNode (c35root :: c35rest)) [0, 1, 2] c35pn
    c35root.id 3 c35W0 := by
  constructor
  · exact dlookup_prop_of_entries (by decide)
  · exact dlookup_prop_of_entries (by decide)
  · decide
  · exact pn_exact_of_dec (by decide)
  · intro c p hp
    have h1 : ∀ q ∈ c35pn, q.2 ∈ c35W0 ∧
        (dlookup (idToNode (c35root :: c35rest)) q.2).isSome = true := by decide
    have h2 := h1 (c, p) (dlookup_mem hp)
    exact ⟨h2.1, Option.isSome_iff_exists.mp h2.2⟩
  · decide
  · exact ⟨c35root, by decide⟩
  · exact dlookup_prop_of_entries (by decide)

theorem c35scdom : ∀ k v, dlookup c35sc k = some v →
    ∃ n, dlookup (idToNode (c35root :: c35rest)) k = some n := by
  intro k v hv
  have h1 : ∀ q ∈ c35sc,
      (dlookup (idToNode (c35root :: c35rest)) q.1).isSome = true := by decide
  exact Option.isSome_iff_exists.mp (h1 (k, v) (dlookup_mem hv))

theorem C3_prune_terminates_and_shrinks_witness :
    ∃ env' sc' rc,
      prune_sample_space (c35root :: c35rest) c35sc c35pn 2
        (groupsOf c35Internal) 10 10 = .ok (env', sc') ∧
      dlookup sc' c35root.id = some rc ∧ (rc : Int) ≤ 2 ∧
      (∀ id n', dlookup env' id = some n' →
        ∃ n, dlookup (idToNode (c35root :: c35rest)) id = some n ∧
          n'.children_ids.length ≤ n.children_ids.length ∧
          prefixOf n'.children_ids n.children_ids) :=
  C3_prune_terminates_and_shrinks c35ctx rfl (by decide) (by decide)
    (dlookup_prop_of_entries (by decide))
    (show ∀ id n, dlookup (idToNode (c35root :: c35rest)) id = some n →
      n.n_districts ≤ 4 from dlookup_prop_of_entries (by decide))
    (by decide) (fun s => List.Perm.refl _) (by decide) c35scdom
    (cntConsistent_of_dec (by decide)) 10 (by decide)

/-- Claim C4 (corrected).  Termination holds, but the claimed iteration bound
`Σ (initial option count − 1) + number of region-size groups` is wrong: the
loop advances through every (possibly empty) region size between 2 and the
largest size one iteration at a time, so the group count must be replaced by
the size range (`C4_counterexample`).  Amended bound: with every internal
region size in `[2, maxS]`, the loop runs at most
`Σ (initial option count − 1) + (maxS − 2)` body iterations; in fuel terms —
the outer fuel counts while-condition checks, one per body iteration plus the
final failing check — any fuel ≥ `Σ (option count − 1) + maxS` returns
normally. -/
theorem C4_prune_iteration_bound {root : Node} {rest : List Node}
    {intIds : List Nat} {pnm sc0 : Dict Nat} {F maxS pf : Nat} {W0 : List Nat}
    {target : Int} {groups : Nat → List Nat}
    (ctx : PruneCtx (idToNode (root :: rest)) intIds pnm root.id F W0)
    (hroot : root.is_root = true) (htarget : 0 < target) (hpf : F + 1 ≤ pf)
    (hsz2 : ∀ id n, dlookup (idToNode (root :: rest)) id = some n →
      2 ≤ n.n_districts)
    (hmaxS : ∀ id n, dlookup (idToNode (root :: rest)) id = some n →
      n.n_districts ≤ maxS)
    (hmax2 : 2 ≤ maxS)
    (hperm : ∀ s, List.Perm (groups s) (groupsOf (root :: rest) s))
    (hnd : ((root :: rest).map (fun n => n.id)).Nodup)
    (hscdom0 : ∀ k v, dlookup sc0 k = some v →
      ∃ n, dlookup (idToNode (root :: rest)) k = some n)
    (hcons0 : cntConsistent (idToNode (root :: rest)) sc0 W0) :
    ∀ fuel, removable (idToNode (root :: rest)) intIds + maxS ≤ fuel →
      ∃ r, prune_sample_space (root :: rest) sc0 pnm target groups pf fuel =
        .ok r := by
  intro fuel hfuel
  have hg1 : ∀ s id, id ∈ groups s →
      ∃ n, dlookup (idToNode (root :: rest)) id = some n ∧ n.n_districts = s :=
    fun s id h => groupsOf_sound hnd s id ((hperm s).mem_iff.mp h)
  have hg2 : ∀ s id n, dlookup (idToNode (root :: rest)) id = some n →
      n.n_districts = s → id ∈ groups s :=
    fun s id n hn hsz => (hperm s).mem_iff.mpr (groupsOf_complete s id n hn hsz)
  obtain ⟨env', sc', rc, hrun, -, -, -, -⟩ :=
    prune_sample_space_spec ctx hroot htarget hpf hsz2 hmaxS hmax2 hg1 hg2
      hscdom0 hcons0 fuel hfuel
  exact ⟨(env', sc'), hrun⟩

theorem C4_prune_iteration_bound_witness :
    ∃ r, prune_sample_space (c35root :: c35rest) c35sc c35pn 2
      (groupsOf c35Internal) 10 7 = .ok r :=
  C4_prune_iteration_bound c35ctx rfl (by decide) (by decide)
    (dlookup_prop_of_entries (by decide))
    (show ∀ id n, dlookup (idToNode (c35root :: c35rest)) id = some n →
      n.n_districts ≤ 4 from dlookup_prop_of_entries (by decide))
    (by decide) (fun s => List.Perm.refl _) (by decide) c35scdom
    (cntConsistent_of_dec (by decide)) 7 (by decide)

def c35run : PyRes (Dict Node × Dict Nat) :=
  prune_sample_space c35Internal c35sc c35pn 2 (groupsOf c35Internal) 10 10

/-- Claim C5.  Under the data-model tree invariants — ids unique, every child
id resolving to a node, every non-root node a child exactly once, hence every
node reachable from the root (captured by `PruneCtx`, the properties the maps
built by `compute_plan_counts` then have) — after every single option removal
(dropping the last option of a node with more than one option, recording its
recomputed count, and running the ancestor update) and at exit, every
internal node still has at least one partition option, and the count map is
consistent with the mutated tree: every node's recorded count equals the sum
over its current options of the product over that option's children of the
child's recorded count, children without an entry (leaves) counting as 1. -/
theorem C5_prune_invariants {root : Node} {rest : List Node}
    {intIds : List Nat} {pnm sc0 : Dict Nat} {F maxS pf : Nat} {W0 : List Nat}
    {target : Int} {groups : Nat → List Nat}
    (ctx : PruneCtx (idToNode (root :: rest)) intIds pnm root.id F W0)
    (hroot : root.is_root = true) (htarget : 0 < target) (hpf : F + 1 ≤ pf)
    (hsz2 : ∀ id n, dlookup (idToNode (root :: rest)) id = some n →
      2 ≤ n.n_districts)
    (hmaxS : ∀ id n, dlookup (idToNode (root :: rest)) id = some n →
      n.n_districts ≤ maxS)
    (hmax2 : 2 ≤ maxS)
    (hperm : ∀ s, List.Perm (groups s) (groupsOf (root :: rest) s))
    (hnd : ((root :: rest).map (fun n => n.id)).Nodup)
    (hscdom0 : ∀ k v, dlookup sc0 k = some v →
      ∃ n, dlookup (idToNode (root :: rest)) k = some n)
    (hcons0 : cntConsistent (idToNode (root :: rest)) sc0 W0) :
    (∀ env sc nid node,
      PruneInv (idToNode (root :: rest)) intIds pnm root.id F W0 env sc →
      (∃ n0, dlookup (idToNode (root :: rest)) nid = some n0) →
      dlookup env nid = some node → 1 < node.children_ids.length →
      ∃ sc2,
        propagate (dset env nid ⟨node.id, node.n_districts, node.is_root,
            node.children_ids.dropLast⟩) pnm pf (dlookup pnm nid)
          (dset sc nid (recompute_node_size sc ⟨node.id, node.n_districts,
            node.is_root, node.children_ids.dropLast⟩)) = .ok sc2 ∧
        (∀ id n, dlookup (dset env nid ⟨node.id, node.n_districts, node.is_root,
            node.children_ids.dropLast⟩) id = some n → n.children_ids ≠ []) ∧
        (∀ id n, dlookup (dset env nid ⟨node.id, node.n_districts, node.is_root,
            node.children_ids.dropLast⟩) id = some n →
          dlookup sc2 id = some (recompute_node_size sc2 n))) ∧
    (∀ fuel env' sc',
      prune_sample_space (root :: rest) sc0 pnm target groups pf fuel =
        .ok (env', sc') →
      (∀ id n, dlookup env' id = some n → n.children_ids ≠ []) ∧
      (∀ id n, dlookup env' id = some n →
        dlookup sc' id = some (recompute_node_size sc' n))) := by
  have hg1 : ∀ s id, id ∈ groups s →
      ∃ n, dlookup (idToNode (root :: rest)) id = some n ∧ n.n_districts = s :=
    fun s id h => groupsOf_sound hnd s id ((hperm s).mem_iff.mp h)
  have hg2 : ∀ s id n, dlookup (idToNode (root :: rest)) id = some n →
      n.n_districts = s → id ∈ groups s :=
    fun s id n hn hsz => (hperm s).mem_iff.mpr (groupsOf_complete s id n hn hsz)
  constructor
  · intro env sc nid node inv hn0 hn hlen
    obtain ⟨sc2, hprop, hinv2⟩ := pruneStep_inv ctx hpf inv hn0 hn hlen
    refine ⟨sc2, hprop, hinv2.ne, ?_⟩
    intro id n hnd
    obtain ⟨n0, hn0', -, -, -, -⟩ := hinv2.shrunk.1 id n hnd
    exact hinv2.cons id (ctx.all_reach id n0 hn0') n hnd
  · intro fuel env' sc' hok
    obtain ⟨envS, scS, rc, hrunS, invS, -, -, -⟩ :=
      prune_sample_space_spec ctx hroot htarget hpf hsz2 hmaxS hmax2 hg1 hg2
        hscdom0 hcons0 (removable (idToNode (root :: rest)) intIds + maxS)
        (Nat.le_refl _)
    have hunf : ∀ fl (r : Dict Node × Dict Nat),
        prune_sample_space (root :: rest) sc0 pnm target groups pf fl = .ok r →
        pruneLoop pnm pf root.id target groups fl 2 (idToNode (root :: rest))
          sc0 = .ok r := by
      intro fl r h
      simp only [prune_sample_space] at h
      rw [if_neg (by simp [hroot]), if_neg (by omega)] at h
      exact h
    have h1 := hunf fuel (env', sc') hok
    have h2 := hunf (removable (idToNode (root :: rest)) intIds + maxS)
      (envS, scS) hrunS
    have hM1 := pruneLoop_fuel_mono fuel
      (max fuel (removable (idToNode (root :: rest)) intIds + maxS))
      (Nat.le_max_left _ _) _ _ _ _ h1
    have hM2 := pruneLoop_fuel_mono
      (removable (idToNode (root :: rest)) intIds + maxS)
      (max fuel (removable (idToNode (root :: rest)) intIds + maxS))
      (Nat.le_max_right _ _) _ _ _ _ h2
    rw [hM1] at hM2
    simp only [PyRes.ok.injEq, Prod.mk.injEq] at hM2
    obtain ⟨rfl, rfl⟩ := hM2
    refine ⟨invS.ne, ?_⟩
    intro id n hnd
    obtain ⟨n0, hn0', -, -, -, -⟩ := invS.shrunk.1 id n hnd
    exact invS.cons id (ctx.all_reach id n0 hn0') n hnd

theorem C5_prune_invariants_witness :
    (∀ id n, dlookup (prEnv c35run) id = some n → n.children_ids ≠ []) ∧
    (∀ id n, dlookup (prEnv c35run) id = some n →
      dlookup (prCnt c35run) id =
        some (recompute_node_size (prCnt c35run) n)) :=
  (@C5_prune_invariants c35root c35rest [0, 1, 2] c35pn c35sc 3 4 10 c35W0 2
    (groupsOf (c35root :: c35rest)) c35ctx rfl (by decide) (by decide)
    (dlookup_prop_of_entries (by decide)) (dlookup_prop_of_entries (by decide))
    (by decide) (fun s => List.Perm.refl _) (by decide) c35scdom
    (cntConsistent_of_dec (by decide))).2 10 (prEnv c35run) (prCnt c35run)
    (by decide)
